import Mathlib

/-!
A shallow embedding of `magikarp.cpp`: the Karmarkar-Karp constructor with GRASP, the
simulated annealing and the restart loop of `main`.

Modelling conventions.
* `int64_t` and `int` are `Int`.  The definitions without a suffix compute in
  `ℤ`: they describe the runs in which no signed overflow occurs and no
  `double` out of the `int64_t` range is converted (both are undefined
  behaviour in C++; the specification puts such inputs out of contract).
  The constructor also comes in `int64_t` arithmetic (`kk_locals64`,
  `kk_combine64`, `kk_body64`, `kk_loop64`, `karmarkar_karp_with_grasp64`):
  there a signed overflow wraps modulo `2^64` and the conversion of an
  out-of-range `double` gives `INT64_MIN`, as on x86-64.  For `alpha` in
  `[0,1]` the two agree on every list whose absolute values sum to at most
  `2^63 - 4096` (`karmarkar_karp_with_grasp64_eq_ideal`).
* `double` is `Double` below: a finite binary64 value (no infinity, no NaN:
  the statements are about finite parameters), with the rounding
  (nearest, ties to even) of the int64 to double conversion and of the
  product made explicit.  The exponent range is not bounded.
* `std::mt19937` and the distributions drawn from it are an `Oracle`: a
  stream of outcomes, one per draw, so a statement for every oracle is a
  statement for every random stream.  The comparison with `std::exp` in the
  annealing is not computed: its outcome is read from the oracle.
* The loops take a fuel; the theorems give the fuel that is enough.
* `std::priority_queue` is a bag of elements; `top` is some element of
  maximal value, the choice among equal values being read from a second
  `Oracle` (the C++ standard leaves this order to the implementation).
* An out-of-bounds access, `top`/`back`/`front` of an empty container
  (undefined behaviour) and an exhausted fuel are `none`.
-/

namespace Magikarp

/-! ## binary64 -/

/-- A finite binary64 value `(-1)^neg * mant * 2^exp`. -/
structure Double where
  neg : Bool
  mant : Nat
  exp : Int
deriving DecidableEq, Repr

/-- The auxiliary recursion of `ilog2`, on a bound of the number of halvings. -/
def ilog2Aux : Nat → Nat → Nat
  | 0, _ => 0
  | fuel + 1, n => if 2 ≤ n then ilog2Aux fuel (n / 2) + 1 else 0

/-- The position of the highest set bit of `n` (and `0` for `n = 0`). -/
def ilog2 (n : Nat) : Nat := ilog2Aux n n

/-- Round `(-1)^neg * m * 2^e` to 53 significant bits, nearest, ties to even. -/
def round53 (neg : Bool) (m : Nat) (e : Int) : Double :=
  let k := ilog2 m - 52
  if k = 0 then ⟨neg, m, e⟩
  else
    let q := m / 2 ^ k
    let r := m % 2 ^ k
    let half := 2 ^ (k - 1)
    let q2 := if r < half then q else if half < r then q + 1 else if q % 2 = 0 then q else q + 1
    ⟨neg, q2, e + k⟩

/-- The conversion `int64_t -> double`. -/
def Double.ofInt (z : Int) : Double := round53 (decide (z < 0)) z.natAbs 0

/-- The product of two doubles. -/
def Double.mul (a b : Double) : Double :=
  round53 (a.neg != b.neg) (a.mant * b.mant) (a.exp + b.exp)

/-- The conversion `static_cast<int64_t>(double)`: truncation toward zero. -/
def Double.toInt (d : Double) : Int :=
  let mag : Nat := if 0 ≤ d.exp then d.mant * 2 ^ d.exp.toNat else d.mant / 2 ^ (-d.exp).toNat
  if d.neg then -(mag : Int) else (mag : Int)

/-- The rational number a double stands for. -/
def Double.toRat (d : Double) : ℚ :=
  (if d.neg then -1 else 1) * (d.mant : ℚ) * (2 : ℚ) ^ d.exp

/-- The comparison `a > b` of two doubles, on mantissas scaled to a common exponent. -/
def Double.gt (a b : Double) : Bool :=
  let e := min a.exp b.exp
  let sa : Int := (if a.neg then -1 else 1) * ((a.mant * 2 ^ (a.exp - e).toNat : Nat) : Int)
  let sb : Int := (if b.neg then -1 else 1) * ((b.mant * 2 ^ (b.exp - e).toNat : Nat) : Int)
  decide (sb < sa)

/-- The double literal `0.0`. -/
def Double.zero : Double := ⟨false, 0, 0⟩

/-- The double literal `1.0`. -/
def Double.one : Double := ⟨false, 1, 0⟩

/-- The double literal `1e-6`, that is `0x1.0c6f7a0b5ed8dp-20`. -/
def Double.eps : Double := ⟨false, 4722366482869645, -72⟩

/-- The function `std::abs` on `int64_t`. -/
def abs64 (x : Int) : Int := (x.natAbs : Int)

/-! ## Oracles -/

/-- A stream of outcomes with a read position. -/
structure Oracle where
  draws : Nat → Nat
  pos : Nat

/-- The outcome at the read position. -/
def Oracle.peek (o : Oracle) : Nat := o.draws o.pos

/-- Advance the read position. -/
def Oracle.next (o : Oracle) : Oracle := ⟨o.draws, o.pos + 1⟩

/-- The value of `SIZE_MAX`. -/
def SIZE_MAX : Nat := 2 ^ 64 - 1

/-- The draw `std::uniform_int_distribution<std::size_t> dist(a, b); dist(rng)`: some value
of `[a, b]`, set by the outcome read from the oracle. -/
def uniform_int_distribution (a b : Nat) (rng : Oracle) : Nat × Oracle :=
  (a + rng.peek % (b - a + 1), rng.next)

/-! ## Element -/

/-- The `struct Element`: a value and the signed original numbers it is made of. -/
structure Element where
  value : Int
  components : List (Int × Int)
deriving DecidableEq, Repr

/-- The constructor `Element(int64_t v)`: an initial element. -/
def Element.leaf (v : Int) : Element := ⟨v, [(v, 1)]⟩

/-- The constructor `Element(int64_t v, const Element& e1, const Element& e2)`: the
components of `e1`,
then those of `e2` with the sign inverted. -/
def Element.combine (v : Int) (e1 e2 : Element) : Element :=
  ⟨v, e1.components ++ e2.components.map (fun comp => (comp.1, -comp.2))⟩

/-! ## std::priority_queue -/

/-- The queue: the elements held, in the order they were pushed, and the oracle that
settles which of several elements of maximal value is on top. -/
structure PriorityQueue where
  elems : List Element
  ties : Oracle

/-- The greatest value among `e :: es`. -/
def maxValue (e : Element) (es : List Element) : Int :=
  es.foldl (fun m x => max m x.value) e.value

/-- The positions (counted from `i`) of the elements of value `m`. -/
def tiedIdxs (m : Int) : List Element → Nat → List Nat
  | [], _ => []
  | e :: es, i => if e.value = m then i :: tiedIdxs m es (i + 1) else tiedIdxs m es (i + 1)

/-- The position of the top element. -/
def PriorityQueue.topIdx (q : PriorityQueue) : Option Nat :=
  match q.elems with
  | [] => none
  | e :: es =>
    let cands := tiedIdxs (maxValue e es) (e :: es) 0
    cands[q.ties.peek % cands.length]?

/-- The member `top()`: the element at the position `topIdx`. -/
def PriorityQueue.top (q : PriorityQueue) : Option Element :=
  match q.topIdx with
  | none => none
  | some i => q.elems[i]?

/-- The member `pop()`: the element at the position `topIdx` is removed, and the oracle of
the order among equal values is advanced. -/
def PriorityQueue.pop (q : PriorityQueue) : Option PriorityQueue :=
  match q.topIdx with
  | none => none
  | some i => some ⟨q.elems.eraseIdx i, q.ties.next⟩

/-- The member `push(e)`. -/
def PriorityQueue.push (q : PriorityQueue) (e : Element) : PriorityQueue :=
  ⟨q.elems ++ [e], q.ties⟩

/-- The member `size()`. -/
def PriorityQueue.size (q : PriorityQueue) : Nat := q.elems.length

/-! ## karmarkar_karp_with_grasp -/

/-- The loop `while (!max_heap.empty()) { temp_elements.push_back(max_heap.top()); max_heap.pop(); }`. -/
def drain : Nat → PriorityQueue → List Element → Option (List Element × PriorityQueue)
  | 0, q, acc => if q.size = 0 then some (acc, q) else none
  | n + 1, q, acc =>
    if q.size = 0 then some (acc, q)
    else
      match q.top, q.pop with
      | some e, some q2 => drain n q2 (acc ++ [e])
      | _, _ => none

/-- The scan that fills `rcl`, leaving at the first element below the threshold. -/
def build_rcl (threshold : Int) : List Element → List Element
  | [] => []
  | elem :: rest => if elem.value ≥ threshold then elem :: build_rcl threshold rest else []

/-- The local variables of one iteration of the combine loop, up to the draw. -/
structure Locals where
  largest : Element
  temp_elements : List Element
  heap : PriorityQueue
  min_value : Int
  max_value : Int
  threshold : Int
  rcl : List Element

/-- The state of the combine loop. -/
structure KKState where
  max_heap : PriorityQueue
  rng : Oracle

/-- Lines 50-75: extract the largest, drain the heap, compute the threshold and the RCL. -/
def kk_locals (alpha : Double) (h : PriorityQueue) : Option Locals :=
  match h.top, h.pop with
  | some largest, some h1 =>
    match drain h1.size h1 [] with
    | some (temp_elements, h2) =>
      match temp_elements.getLast?, temp_elements.head? with
      | some last, some first =>
        let min_value := last.value
        let max_value := first.value
        let threshold := max_value - (Double.mul alpha (Double.ofInt (max_value - min_value))).toInt
        some ⟨largest, temp_elements, h2, min_value, max_value, threshold,
          build_rcl threshold temp_elements⟩
      | _, _ => none
    | none => none
  | _, _ => none

/-- The `std::size_t` value `size - 1` for the size of a container: `SIZE_MAX` when the
container is empty. -/
def size_minus_one (size : Nat) : Nat := if size = 0 then SIZE_MAX else size - 1

/-- The index drawn at line 78-79 for an RCL of the given size. -/
def rcl_draw (rcl_size : Nat) (rng : Oracle) : Nat × Oracle :=
  uniform_int_distribution 0 (size_minus_one rcl_size) rng

/-- Lines 78-95: draw the second element, remove it, combine, rebuild the heap. -/
def kk_combine (loc : Locals) (rng : Oracle) : Option KKState :=
  let d := rcl_draw loc.rcl.length rng
  let index := d.1
  match loc.rcl[index]? with
  | none => none
  | some second =>
    if index < loc.temp_elements.length then
      let temp_elements := loc.temp_elements.eraseIdx index
      let difference := abs64 (loc.largest.value - second.value)
      let new_element := Element.combine difference loc.largest second
      some ⟨(temp_elements.foldl PriorityQueue.push loc.heap).push new_element, d.2⟩
    else none

/-- One iteration of the loop `while (max_heap.size() > 1)`. -/
def kk_body (alpha : Double) (st : KKState) : Option KKState :=
  match kk_locals alpha st.max_heap with
  | none => none
  | some loc => kk_combine loc st.rng

/-- The loop `while (max_heap.size() > 1)`. -/
def kk_loop (alpha : Double) : Nat → KKState → Option KKState
  | 0, st => if st.max_heap.size > 1 then none else some st
  | fuel + 1, st =>
    if st.max_heap.size > 1 then
      match kk_body alpha st with
      | none => none
      | some st2 => kk_loop alpha fuel st2
    else some st

/-- The state after exactly `k` iterations of the combine loop, when there are that many. -/
def kk_after (alpha : Double) : Nat → KKState → Option KKState
  | 0, st => some st
  | k + 1, st =>
    match kk_after alpha k st with
    | none => none
    | some st2 => if st2.max_heap.size > 1 then kk_body alpha st2 else none

/-- The call `solution.resize(n, v)`: entries beyond `n` are dropped, missing ones are `v`. -/
def resize (solution : List Int) (n : Nat) (v : Int) : List Int :=
  solution.take n ++ List.replicate (n - solution.length) v

/-- Lines 104-113: each component's sign is written at the position `std::find` gives. -/
def write_solution (numbers : List Int) : List (Int × Int) → List Int → List Int
  | [], solution => solution
  | comp :: rest, solution =>
    let idx := numbers.indexOf comp.1
    if idx < numbers.length then write_solution numbers rest (solution.set idx comp.2)
    else write_solution numbers rest solution

/-- Lines 44-46: the heap of the initial elements. -/
def kk_init (numbers : List Int) (ties : Oracle) : PriorityQueue :=
  numbers.foldl (fun h num => h.push (Element.leaf num)) ⟨[], ties⟩

/-- What `karmarkar_karp_with_grasp` leaves behind: the value returned, `solution`, and the
two oracles. -/
structure KKResult where
  value : Int
  solution : List Int
  rng : Oracle
  ties : Oracle

/-- The function `karmarkar_karp_with_grasp`. -/
def karmarkar_karp_with_grasp (fuel : Nat) (numbers : List Int) (solution : List Int)
    (alpha : Double) (rng ties : Oracle) : Option KKResult :=
  match kk_loop alpha fuel ⟨kk_init numbers ties, rng⟩ with
  | none => none
  | some st =>
    match st.max_heap.top, st.max_heap.pop with
    | some final_element, some h =>
      some ⟨final_element.value,
        write_solution numbers final_element.components (resize solution numbers.length 0),
        st.rng, h.ties⟩
    | _, _ => none

/-- The oracle whose every outcome is `c`. -/
def constOracle (c : Nat) : Oracle := ⟨fun _ => c, 0⟩

/-! ## simulated_annealing -/

/-- Lines 125-132: the loop that accumulates `sum1` and `sum2`; `solution[i]` is read for
every position of `numbers`. -/
def sum_loop : List Int → List Int → Int → Int → Option (Int × Int)
  | [], _, sum1, sum2 => some (sum1, sum2)
  | _ :: _, [], _, _ => none
  | x :: xs, s :: ss, sum1, sum2 =>
    if s = 1 then sum_loop xs ss (sum1 + x) sum2 else sum_loop xs ss sum1 (sum2 + x)

/-- The state of the annealing loop. -/
structure SAState where
  temperature : Double
  current_difference : Int
  current_solution : List Int
  solution : List Int
  best_solution : List Int
  best_difference : Int
  rng : Oracle

/-- The test `std::exp(-delta / temperature) > ((double)rng() / rng.max())`.  The exponential
is not computed here: the outcome of the comparison is read from the oracle, which is advanced
by the draw. -/
def metropolis (_delta : Int) (_temperature : Double) (rng : Oracle) : Bool × Oracle :=
  (decide (rng.peek % 2 = 1), rng.next)

/-- Line 154: `delta < 0 || metropolis`, the right operand being evaluated (and the oracle
advanced) only when the left one is false. -/
def accept (delta : Int) (temperature : Double) (rng : Oracle) : Bool × Oracle :=
  if delta < 0 then (true, rng) else metropolis delta temperature rng

/-- Lines 141-170: one iteration of the annealing loop. -/
def sa_step (numbers : List Int) (cooling_rate : Double) (st : SAState) : Option SAState :=
  let d := uniform_int_distribution 0 (size_minus_one numbers.length) st.rng
  let idx := d.1
  match st.current_solution[idx]?, numbers[idx]? with
  | some s, some x =>
    let flipped := s * -1
    let current_solution := st.current_solution.set idx flipped
    let delta_value := 2 * flipped * x
    let new_difference := st.current_difference + delta_value
    let delta := abs64 new_difference - abs64 st.current_difference
    let a := accept delta st.temperature d.2
    let temperature := Double.mul st.temperature cooling_rate
    if a.1 then
      if abs64 new_difference < st.best_difference then
        some ⟨temperature, new_difference, current_solution, current_solution, current_solution,
          abs64 new_difference, a.2⟩
      else
        some ⟨temperature, new_difference, current_solution, current_solution, st.best_solution,
          st.best_difference, a.2⟩
    else
      some ⟨temperature, st.current_difference, current_solution.set idx (flipped * -1),
        st.solution, st.best_solution, st.best_difference, a.2⟩
  | _, _ => none

/-- The loop `while (temperature > 1e-6)`. -/
def sa_loop (numbers : List Int) (cooling_rate : Double) : Nat → SAState → Option SAState
  | 0, st => if Double.gt st.temperature Double.eps then none else some st
  | fuel + 1, st =>
    if Double.gt st.temperature Double.eps then
      match sa_step numbers cooling_rate st with
      | none => none
      | some st2 => sa_loop numbers cooling_rate fuel st2
    else some st

/-- The state after exactly `k` iterations of the annealing loop, when there are that many. -/
def sa_after (numbers : List Int) (cooling_rate : Double) : Nat → SAState → Option SAState
  | 0, st => some st
  | k + 1, st =>
    match sa_after numbers cooling_rate k st with
    | none => none
    | some st2 =>
      if Double.gt st2.temperature Double.eps then sa_step numbers cooling_rate st2 else none

/-- Lines 121-137: the state in which the annealing loop is entered. -/
def sa_init (numbers solution : List Int) (best_difference : Int) (rng : Oracle)
    (initial_temperature : Double) : Option SAState :=
  match sum_loop numbers solution 0 0 with
  | none => none
  | some sums =>
    some ⟨initial_temperature, sums.1 - sums.2, solution, solution, solution, best_difference, rng⟩

/-- What `simulated_annealing` leaves behind: `solution`, `best_difference` and the oracle. -/
structure SAResult where
  solution : List Int
  best_difference : Int
  rng : Oracle

/-- The function `simulated_annealing`. -/
def simulated_annealing (fuel : Nat) (numbers solution : List Int) (best_difference : Int)
    (rng : Oracle) (initial_temperature cooling_rate : Double) : Option SAResult :=
  match sa_init numbers solution best_difference rng initial_temperature with
  | none => none
  | some st0 =>
    match sa_loop numbers cooling_rate fuel st0 with
    | none => none
    | some st => some ⟨st.best_solution, st.best_difference, st.rng⟩

/-! ## main -/

/-- The value of `INT64_MAX`. -/
def INT64_MAX : Int := 2 ^ 63 - 1

/-- The run parameters read from the command line. -/
structure Params where
  alpha : Double
  iterations : Nat
  initial_temperature : Double
  cooling_rate : Double

/-- The state of the GRASP loop of `main`. -/
structure GraspState where
  best_difference : Int
  best_solution : List Int
  rng : Oracle
  ties : Oracle

/-- Lines 236-242: one trial, the constructor followed by the annealing; the result is the
refined `solution` and `difference`, and the oracles. -/
def grasp_trial (fuel : Nat) (numbers : List Int) (p : Params) (rng ties : Oracle) :
    Option (SAResult × Oracle) :=
  match karmarkar_karp_with_grasp fuel numbers (List.replicate numbers.length 1) p.alpha rng ties with
  | none => none
  | some kk =>
    match simulated_annealing fuel numbers kk.solution kk.value kk.rng p.initial_temperature
        p.cooling_rate with
    | none => none
    | some sa => some (sa, kk.ties)

/-- Lines 236-247: the body of the GRASP loop. -/
def grasp_body (fuel : Nat) (numbers : List Int) (p : Params) (g : GraspState) :
    Option GraspState :=
  match grasp_trial fuel numbers p g.rng g.ties with
  | none => none
  | some t =>
    if t.1.best_difference < g.best_difference then
      some ⟨t.1.best_difference, t.1.solution, t.1.rng, t.2⟩
    else some ⟨g.best_difference, g.best_solution, t.1.rng, t.2⟩

/-- The loop `for (int i = 0; i < iterations; ++i)`, given the number of iterations left. -/
def grasp_loop (fuel : Nat) (numbers : List Int) (p : Params) : Nat → GraspState → Option GraspState
  | 0, g => some g
  | k + 1, g =>
    match grasp_body fuel numbers p g with
    | none => none
    | some g2 => grasp_loop fuel numbers p k g2

/-- Lines 229-230: the state in which the GRASP loop is entered. -/
def grasp_init (numbers : List Int) (rng ties : Oracle) : GraspState :=
  ⟨INT64_MAX, List.replicate numbers.length 1, rng, ties⟩

/-- Lines 253-260: the loop that fills `subset1` and `subset2`. -/
def split_loop : List Int → List Int → List Int → List Int → Option (List Int × List Int)
  | [], _, subset1, subset2 => some (subset1, subset2)
  | _ :: _, [], _, _ => none
  | x :: xs, s :: ss, subset1, subset2 =>
    if s = 1 then split_loop xs ss (subset1 ++ [x]) subset2
    else split_loop xs ss subset1 (subset2 ++ [x])

/-- What `main` computes: the tracked best, and what it prints. -/
structure Report where
  best_difference : Int
  best_solution : List Int
  subset1 : List Int
  subset2 : List Int
  sum1 : Int
  sum2 : Int
  printed_difference : Int

/-- Lines 227-279 of `main`, from the instance and the parameters to the report. -/
def run (fuel : Nat) (numbers : List Int) (p : Params) (rng ties : Oracle) : Option Report :=
  match grasp_loop fuel numbers p p.iterations (grasp_init numbers rng ties) with
  | none => none
  | some g =>
    match split_loop numbers g.best_solution [] [] with
    | none => none
    | some subsets =>
      let sum1 := subsets.1.foldl (fun a b => a + b) 0
      let sum2 := subsets.2.foldl (fun a b => a + b) 0
      some ⟨g.best_difference, g.best_solution, subsets.1, subsets.2, sum1, sum2,
        abs64 (sum1 - sum2)⟩

/-! ## Definitions used to state the properties -/

/-- A double that is not negative: its sign bit is clear, or it is `-0.0`. -/
def Double.nonneg (d : Double) : Prop := d.neg = false ∨ d.mant = 0

/-- The order of the drained list: values descending. -/
def Desc (a b : Element) : Prop := b.value ≤ a.value

/-- What relates the state `st` before an iteration of the combine loop to the state `st2`
after it: `loc` holds the locals, `idx` is the index drawn and `second` the element chosen. -/
structure StepFacts (alpha : Double) (st st2 : KKState) (loc : Locals) (idx : Nat)
    (second : Element) : Prop where
  locals : kk_locals alpha st.max_heap = some loc
  perm : (loc.largest :: loc.temp_elements).Perm st.max_heap.elems
  sorted : (loc.largest :: loc.temp_elements).Pairwise Desc
  rcl_eq : loc.rcl = build_rcl loc.threshold loc.temp_elements
  idx_eq : idx = (rcl_draw loc.rcl.length st.rng).1
  get_rcl : loc.rcl[idx]? = some second
  get_temp : loc.temp_elements[idx]? = some second
  elems : st2.max_heap.elems = loc.temp_elements.eraseIdx idx ++
    [Element.combine (abs64 (loc.largest.value - second.value)) loc.largest second]
  rng : st2.rng = st.rng.next

/-- The components of all the elements of a list, one after the other. -/
def all_components : List Element → List (Int × Int)
  | [] => []
  | e :: es => e.components ++ all_components es

/-- The signed sum of a list of components: the sum of `sign * number`. -/
def comp_sum (cs : List (Int × Int)) : Int := (cs.map (fun c => c.2 * c.1)).sum

/-- The partition invariant: the numbers in the components of the elements held are, as a
multiset, the input numbers, and every sign is `+1` or `-1`. -/
def PartInv (numbers : List Int) (elems : List Element) : Prop :=
  ((all_components elems).map Prod.fst).Perm numbers ∧
  ∀ c ∈ all_components elems, c.2 = 1 ∨ c.2 = -1

/-- The value invariant: the value of each element held is the signed sum of its components. -/
def ValInv (elems : List Element) : Prop :=
  ∀ e ∈ elems, e.value = comp_sum e.components

/-- The sum of the numbers whose entry in `solution` is `sign`. -/
def sum_with_sign (sign : Int) : List Int → List Int → Int
  | x :: xs, s :: ss => (if s = sign then x else 0) + sum_with_sign sign xs ss
  | _, _ => 0

/-- The difference `sum(numbers with sign +1) - sum(numbers with sign -1)` of an assignment. -/
def subset_difference (numbers solution : List Int) : Int :=
  sum_with_sign 1 numbers solution - sum_with_sign (-1) numbers solution

/-- The share of one (number, sign) pair in `subset_difference`. -/
def pair_term (c : Int × Int) : Int :=
  (if c.2 = 1 then c.1 else 0) - (if c.2 = -1 then c.1 else 0)

/-- The invariant of the combine loop used for the constructor's result. -/
def KKInv (numbers : List Int) (st : KKState) : Prop :=
  PartInv numbers st.max_heap.elems ∧ ValInv st.max_heap.elems ∧
  (st.max_heap.size < numbers.length → ∃ e ∈ st.max_heap.elems, 0 ≤ e.value)

/-- The invariant of the combine loop used for the partition property: the partition invariant,
and a heap that is not empty. -/
def PartLoopInv (numbers : List Int) (st : KKState) : Prop :=
  PartInv numbers st.max_heap.elems ∧ 1 ≤ st.max_heap.size

/-- One round of the classical heuristic as the specification words it: the two largest
values `a >= b` are replaced by `a - b`. -/
def differencing_round (l : List Int) : List Int :=
  match l.insertionSort (fun a b => b ≤ a) with
  | a :: b :: rest => (a - b) :: rest
  | s => s

/-- The classical Karmarkar-Karp differencing value as the specification words it: rounds
are repeated until one value remains. -/
def classical_kk : Nat → List Int → Option Int
  | _, [] => none
  | _, [a] => some a
  | 0, _ :: _ :: _ => none
  | fuel + 1, a :: b :: rest => classical_kk fuel (differencing_round (a :: b :: rest))

/-- The invariant of the annealing loop: `current_solution` is `solution`, whose entries are
`+1` or `-1`, one per number, and `current_difference` is its signed difference. -/
def SAInv (numbers : List Int) (st : SAState) : Prop :=
  st.current_solution = st.solution ∧
  st.current_difference = subset_difference numbers st.solution ∧
  (∀ s ∈ st.solution, s = 1 ∨ s = -1) ∧
  st.solution.length = numbers.length

/-- The invariant of the best snapshot: `best_difference` is the absolute difference of
`best_solution`. -/
def BestInv (numbers : List Int) (st : SAState) : Prop :=
  |subset_difference numbers st.best_solution| = st.best_difference

/-- The temperature after `k` iterations of the annealing loop. -/
def cooled (cooling_rate : Double) : Nat → Double → Double
  | 0, temperature => temperature
  | k + 1, temperature => cooled cooling_rate k (Double.mul temperature cooling_rate)

/-- The refined differences of the trials of the GRASP loop, in the order of the trials. -/
def trial_differences (fuel : Nat) (numbers : List Int) (p : Params) :
    Nat → Oracle → Oracle → Option (List Int)
  | 0, _, _ => some []
  | k + 1, rng, ties =>
    match grasp_trial fuel numbers p rng ties with
    | none => none
    | some t =>
      match trial_differences fuel numbers p k t.1.rng t.2 with
      | none => none
      | some ds => some (t.1.best_difference :: ds)

/-- The greatest number of a list (`0` for the empty list). -/
def maximum_number : List Int → Int
  | [] => 0
  | x :: xs => xs.foldl max x

/-- The bound invariant: every value held lies between `0` and `bound`. -/
def BoundInv (bound : Int) (st : KKState) : Prop :=
  ∀ e ∈ st.max_heap.elems, 0 ≤ e.value ∧ e.value ≤ bound

/-- The tentative move of an iteration of the annealing loop, lines 142-154 up to the test:
the index drawn, the sign read there before the flip, the number there, `new_difference`,
`delta`, the outcome of the acceptance test and the oracle after it. -/
structure Move where
  idx : Nat
  sign : Int
  number : Int
  new_difference : Int
  delta : Int
  accepted : Bool
  rng : Oracle

/-- Lines 142-154 up to the test, as in `sa_step`. -/
def sa_move (numbers : List Int) (st : SAState) : Option Move :=
  let d := uniform_int_distribution 0 (size_minus_one numbers.length) st.rng
  match st.current_solution[d.1]?, numbers[d.1]? with
  | some s, some x =>
    let new_difference := st.current_difference + 2 * (s * -1) * x
    let delta := abs64 new_difference - abs64 st.current_difference
    let a := accept delta st.temperature d.2
    some ⟨d.1, s, x, new_difference, delta, a.1, a.2⟩
  | _, _ => none

/-- The values held by the heap, in descending order. -/
def sorted_values (st : KKState) : List Int :=
  (st.max_heap.elems.map Element.value).insertionSort (fun a b => b ≤ a)

/-- An iteration of the combine loop in which the RCL is the whole working list, on the
values held in descending order: the head is the largest, the draw picks the second in the
tail, and their difference joins the rest. -/
def value_step (vals : List Int) (rng : Oracle) : Option (List Int × Oracle) :=
  match vals with
  | [] => none
  | largest :: temp =>
    match temp[(rcl_draw temp.length rng).1]? with
    | none => none
    | some second =>
      some (((largest - second) :: temp.eraseIdx (rcl_draw temp.length rng).1).insertionSort
        (fun a b => b ≤ a), rng.next)

/-- The values after `k` such iterations. -/
def value_steps : Nat → List Int → Oracle → Option (List Int × Oracle)
  | 0, vals, rng => some (vals, rng)
  | k + 1, vals, rng =>
    match value_steps k vals rng with
    | none => none
    | some p => value_step p.1 p.2

/-- The random stream whose first two outcomes are `1` and whose other outcomes are `0`. -/
def stream_1_1_0 : Oracle := ⟨fun i => if i < 2 then 1 else 0, 0⟩

/-! ## The constructor in `int64_t` arithmetic -/

/-- The value of `INT64_MIN`. -/
def INT64_MIN : Int := -2 ^ 63

/-- An integer that an `int64_t` can hold. -/
def in_int64 (x : Int) : Prop := -2 ^ 63 ≤ x ∧ x < 2 ^ 63

/-- The value an `int64_t` holds after an operation whose mathematical result is `x`: a
signed overflow wraps around modulo `2^64` (two's complement). -/
def wrap64 (x : Int) : Int := (x + 2 ^ 63) % 2 ^ 64 - 2 ^ 63

/-- The conversion `static_cast<int64_t>(double)` as the machine performs it: truncation
toward zero, and `INT64_MIN` when the truncated value is outside the `int64_t` range (the
result of the x86-64 conversion instruction). -/
def Double.toInt64 (d : Double) : Int :=
  if -2 ^ 63 ≤ d.toInt ∧ d.toInt < 2 ^ 63 then d.toInt else INT64_MIN

/-- The function `std::abs` on `int64_t` as the machine performs it: the negation wraps, so
`INT64_MIN` is its own absolute value. -/
def abs64w (x : Int) : Int := wrap64 (x.natAbs : Int)

/-- Line 67 in `int64_t` arithmetic: both subtractions wrap, the spread is converted to
`double`, multiplied by `alpha` and converted back. -/
def threshold64 (alpha : Double) (max_value min_value : Int) : Int :=
  wrap64 (max_value -
    (Double.mul alpha (Double.ofInt (wrap64 (max_value - min_value)))).toInt64)

/-- Lines 50-75 in `int64_t` arithmetic: extract the largest, drain the heap, compute the
threshold and the RCL. -/
def kk_locals64 (alpha : Double) (h : PriorityQueue) : Option Locals :=
  match h.top, h.pop with
  | some largest, some h1 =>
    match drain h1.size h1 [] with
    | some (temp_elements, h2) =>
      match temp_elements.getLast?, temp_elements.head? with
      | some last, some first =>
        let min_value := last.value
        let max_value := first.value
        let threshold := threshold64 alpha max_value min_value
        some ⟨largest, temp_elements, h2, min_value, max_value, threshold,
          build_rcl threshold temp_elements⟩
      | _, _ => none
    | none => none
  | _, _ => none

/-- Lines 78-95 in `int64_t` arithmetic: draw the second element, remove it, combine, rebuild
the heap. -/
def kk_combine64 (loc : Locals) (rng : Oracle) : Option KKState :=
  let d := rcl_draw loc.rcl.length rng
  let index := d.1
  match loc.rcl[index]? with
  | none => none
  | some second =>
    if index < loc.temp_elements.length then
      let temp_elements := loc.temp_elements.eraseIdx index
      let difference := abs64w (wrap64 (loc.largest.value - second.value))
      let new_element := Element.combine difference loc.largest second
      some ⟨(temp_elements.foldl PriorityQueue.push loc.heap).push new_element, d.2⟩
    else none

/-- One iteration of the loop `while (max_heap.size() > 1)`, in `int64_t` arithmetic. -/
def kk_body64 (alpha : Double) (st : KKState) : Option KKState :=
  match kk_locals64 alpha st.max_heap with
  | none => none
  | some loc => kk_combine64 loc st.rng

/-- The loop `while (max_heap.size() > 1)`, in `int64_t` arithmetic. -/
def kk_loop64 (alpha : Double) : Nat → KKState → Option KKState
  | 0, st => if st.max_heap.size > 1 then none else some st
  | fuel + 1, st =>
    if st.max_heap.size > 1 then
      match kk_body64 alpha st with
      | none => none
      | some st2 => kk_loop64 alpha fuel st2
    else some st

/-- The state after exactly `k` iterations of the combine loop in `int64_t` arithmetic, when
there are that many. -/
def kk_after64 (alpha : Double) : Nat → KKState → Option KKState
  | 0, st => some st
  | k + 1, st =>
    match kk_after64 alpha k st with
    | none => none
    | some st2 => if st2.max_heap.size > 1 then kk_body64 alpha st2 else none

/-- The function `karmarkar_karp_with_grasp`, in `int64_t` arithmetic. -/
def karmarkar_karp_with_grasp64 (fuel : Nat) (numbers : List Int) (solution : List Int)
    (alpha : Double) (rng ties : Oracle) : Option KKResult :=
  match kk_loop64 alpha fuel ⟨kk_init numbers ties, rng⟩ with
  | none => none
  | some st =>
    match st.max_heap.top, st.max_heap.pop with
    | some final_element, some h =>
      some ⟨final_element.value,
        write_solution numbers final_element.components (resize solution numbers.length 0),
        st.rng, h.ties⟩
    | _, _ => none

/-- The sum of the absolute values of a list of numbers. -/
def abs_total (numbers : List Int) : Nat := (numbers.map Int.natAbs).sum

/-- The sum of the absolute values of the values held. -/
def abs_sum (elems : List Element) : Nat := (elems.map (fun e => e.value.natAbs)).sum

/-- When the absolute values held sum to `S`, line 67 and line 86 stay within `int64_t` for
this `alpha`: either `alpha` is the literal `0.0` and `S <= INT64_MAX`, or `alpha` is in
`[0,1]` and `S <= 2^63 - 4096` (the margin covers the rounding of the product). -/
def Fits (alpha : Double) (S : Nat) : Prop :=
  (alpha = Double.zero ∧ S < 2 ^ 63) ∨
  (0 ≤ alpha.toRat ∧ alpha.toRat ≤ 1 ∧ S + 4096 ≤ 2 ^ 63)

/-! ## Facts about binary64 -/

theorem ilog2Aux_le (fuel n : Nat) (hn : 1 ≤ n) : 2 ^ ilog2Aux fuel n ≤ n := by
  induction fuel generalizing n with
  | zero => simpa [ilog2Aux] using hn
  | succ f ih =>
    unfold ilog2Aux
    split
    · rename_i h2
      have h := ih (n / 2) (by omega)
      rw [pow_succ]
      omega
    · simpa using hn

theorem two_pow_ilog2_le (n : Nat) (hn : 1 ≤ n) : 2 ^ ilog2 n ≤ n :=
  ilog2Aux_le n n hn

theorem ilog2_zero : ilog2 0 = 0 := rfl

theorem lt_two_pow_ilog2Aux (fuel n : Nat) (hf : n ≤ fuel) : n < 2 ^ (ilog2Aux fuel n + 1) := by
  induction fuel generalizing n with
  | zero =>
    have : n = 0 := by omega
    subst this
    simp [ilog2Aux]
  | succ f ih =>
    unfold ilog2Aux
    split
    · have h := ih (n / 2) (by omega)
      rw [pow_succ]
      omega
    · simp only [zero_add, pow_one]
      omega

/-- The function `ilog2` is the position of the highest set bit:
`2 ^ ilog2 n <= n < 2 ^ (ilog2 n + 1)`. -/
theorem lt_two_pow_ilog2 (n : Nat) : n < 2 ^ (ilog2 n + 1) :=
  lt_two_pow_ilog2Aux n n (le_refl n)

/-- The significand left by `round53` fits a double: it is at most `2 ^ 53`. -/
theorem round53_mant_le (neg : Bool) (m : Nat) (e : Int) : (round53 neg m e).mant ≤ 2 ^ 53 := by
  have hup := lt_two_pow_ilog2 m
  unfold round53
  simp only
  split
  · rename_i hk
    simp only
    have h1 : ilog2 m + 1 ≤ 53 := by omega
    have h2 : 2 ^ (ilog2 m + 1) ≤ 2 ^ 53 := Nat.pow_le_pow_right (by norm_num) h1
    omega
  · rename_i hk
    simp only
    have hq : m / 2 ^ (ilog2 m - 52) < 2 ^ 53 := by
      rw [Nat.div_lt_iff_lt_mul (by positivity)]
      have h3 : 2 ^ 53 * 2 ^ (ilog2 m - 52) = 2 ^ (ilog2 m + 1) := by
        rw [← pow_add]
        congr 1
        omega
      rw [h3]
      exact hup
    split_ifs <;> omega

theorem round53_neg (neg : Bool) (m : Nat) (e : Int) : (round53 neg m e).neg = neg := by
  unfold round53
  simp only
  split <;> rfl

theorem round53_zero (neg : Bool) (e : Int) : round53 neg 0 e = ⟨neg, 0, e⟩ := by
  simp [round53, ilog2_zero]

theorem round53_exact (neg : Bool) (m : Nat) (e : Int) (hm : m < 2 ^ 53) :
    round53 neg m e = ⟨neg, m, e⟩ := by
  have hk : ilog2 m - 52 = 0 := by
    rcases Nat.eq_zero_or_pos m with h0 | hpos
    · subst h0; simp [ilog2_zero]
    · have h1 := two_pow_ilog2_le m hpos
      have h2 : 2 ^ ilog2 m < 2 ^ 53 := lt_of_le_of_lt h1 hm
      have h3 : ilog2 m < 53 := (Nat.pow_lt_pow_iff_right (by norm_num)).mp h2
      omega
  simp [round53, hk]

theorem Double.nonneg_of_toRat {d : Double} (h : 0 ≤ d.toRat) : d.nonneg := by
  unfold Double.nonneg
  by_contra hcon
  push_neg at hcon
  obtain ⟨hneg, hm⟩ := hcon
  have hneg2 : d.neg = true := by simpa using hneg
  have hpos : (0 : ℚ) < (d.mant : ℚ) * (2 : ℚ) ^ d.exp := by
    apply mul_pos
    · exact_mod_cast Nat.pos_of_ne_zero hm
    · positivity
  unfold Double.toRat at h
  rw [hneg2] at h
  simp only [if_true] at h
  linarith

theorem Double.toInt_nonneg_of_nonneg {d : Double} (h : d.nonneg) : 0 ≤ d.toInt := by
  unfold Double.toInt
  rcases h with h | h
  · simp [h]
    split <;> positivity
  · simp [h]

theorem Double.mul_ofInt_nonneg {alpha : Double} (h : alpha.nonneg) (z : Int) (hz : 0 ≤ z) :
    (Double.mul alpha (Double.ofInt z)).nonneg := by
  have hz2 : (Double.ofInt z).neg = false := by
    unfold Double.ofInt
    rw [round53_neg]
    simpa using hz
  unfold Double.nonneg Double.mul
  rcases h with h | h
  · left
    rw [round53_neg, h, hz2]
    rfl
  · right
    rw [h, Nat.zero_mul, round53_zero]

/-- The scaled range `static_cast<int64_t>(alpha * d)` is not negative for `alpha >= 0`. -/
theorem scaled_nonneg {alpha : Double} (h : alpha.nonneg) (z : Int) (hz : 0 ≤ z) :
    0 ≤ (Double.mul alpha (Double.ofInt z)).toInt :=
  Double.toInt_nonneg_of_nonneg (Double.mul_ofInt_nonneg h z hz)

theorem scaled_zero (z : Int) : (Double.mul Double.zero (Double.ofInt z)).toInt = 0 := by
  simp [Double.mul, Double.zero, round53_zero, Double.toInt]

theorem scaled_one_exact (z : Int) (hz : z.natAbs < 2 ^ 53) :
    (Double.mul Double.one (Double.ofInt z)).toInt = z := by
  have h1 : Double.ofInt z = ⟨decide (z < 0), z.natAbs, 0⟩ := round53_exact _ _ _ hz
  rw [h1]
  simp only [Double.mul, Double.one, Nat.one_mul, zero_add]
  rw [round53_exact _ _ _ hz]
  simp only [Double.toInt]
  by_cases hneg : z < 0
  · simp [hneg, -Int.natCast_natAbs]
    omega
  · simp [hneg, -Int.natCast_natAbs]
    omega

/-! ## Facts about the priority queue -/

theorem foldl_max_spec (es : List Element) (m0 : Int) :
    m0 ≤ es.foldl (fun m x => max m x.value) m0 ∧
    (∀ x ∈ es, x.value ≤ es.foldl (fun m x => max m x.value) m0) ∧
    (es.foldl (fun m x => max m x.value) m0 = m0 ∨
      ∃ x ∈ es, x.value = es.foldl (fun m x => max m x.value) m0) := by
  induction es generalizing m0 with
  | nil => simp
  | cons a as ih =>
    obtain ⟨h1, h2, h3⟩ := ih (max m0 a.value)
    simp only [List.foldl_cons]
    refine ⟨le_trans (le_max_left _ _) h1, ?_, ?_⟩
    · intro x hx
      rcases List.mem_cons.mp hx with rfl | hx
      · exact le_trans (le_max_right _ _) h1
      · exact h2 x hx
    · rcases h3 with h3 | ⟨x, hx, hxe⟩
      · rcases max_choice m0 a.value with hm | hm
        · left; rw [h3, hm]
        · right; exact ⟨a, List.mem_cons_self _ _, by rw [h3, hm]⟩
      · right; exact ⟨x, List.mem_cons_of_mem _ hx, hxe⟩

theorem maxValue_ge (e : Element) (es : List Element) :
    ∀ x ∈ e :: es, x.value ≤ maxValue e es := by
  intro x hx
  obtain ⟨h1, h2, _⟩ := foldl_max_spec es e.value
  rcases List.mem_cons.mp hx with rfl | hx
  · exact h1
  · exact h2 x hx

theorem maxValue_mem (e : Element) (es : List Element) :
    ∃ x ∈ e :: es, x.value = maxValue e es := by
  obtain ⟨_, _, h3⟩ := foldl_max_spec es e.value
  rcases h3 with h3 | ⟨x, hx, hxe⟩
  · exact ⟨e, List.mem_cons_self _ _, h3.symm⟩
  · exact ⟨x, List.mem_cons_of_mem _ hx, hxe⟩

theorem tiedIdxs_spec (m : Int) (l : List Element) (i j : Nat) (hj : j ∈ tiedIdxs m l i) :
    ∃ k e, j = i + k ∧ l[k]? = some e ∧ e.value = m := by
  induction l generalizing i with
  | nil => simp [tiedIdxs] at hj
  | cons a as ih =>
    unfold tiedIdxs at hj
    split at hj
    · rename_i hv
      rcases List.mem_cons.mp hj with rfl | hj
      · exact ⟨0, a, rfl, by simp, hv⟩
      · obtain ⟨k, e, hk, hl, he⟩ := ih (i + 1) hj
        exact ⟨k + 1, e, by omega, by simpa using hl, he⟩
    · obtain ⟨k, e, hk, hl, he⟩ := ih (i + 1) hj
      exact ⟨k + 1, e, by omega, by simpa using hl, he⟩

theorem tiedIdxs_ne_nil (m : Int) (l : List Element) (i : Nat) (h : ∃ x ∈ l, x.value = m) :
    tiedIdxs m l i ≠ [] := by
  induction l generalizing i with
  | nil => simp at h
  | cons a as ih =>
    unfold tiedIdxs
    split
    · simp
    · rename_i hv
      obtain ⟨x, hx, hxe⟩ := h
      rcases List.mem_cons.mp hx with rfl | hx
      · exact absurd hxe hv
      · exact ih (i + 1) ⟨x, hx, hxe⟩

theorem topIdx_spec (q : PriorityQueue) (hne : q.elems ≠ []) :
    ∃ i e, q.topIdx = some i ∧ q.elems[i]? = some e ∧ ∀ x ∈ q.elems, x.value ≤ e.value := by
  unfold PriorityQueue.topIdx
  cases hq : q.elems with
  | nil => exact absurd hq hne
  | cons a as =>
    simp only
    have hnn := tiedIdxs_ne_nil (maxValue a as) (a :: as) 0 (maxValue_mem a as)
    have hpos : 0 < (tiedIdxs (maxValue a as) (a :: as) 0).length := List.length_pos.mpr hnn
    have hlt := Nat.mod_lt q.ties.peek hpos
    obtain ⟨k, e, hk, hl, he⟩ := tiedIdxs_spec (maxValue a as) (a :: as) 0 _
      (List.getElem_mem hlt)
    refine ⟨_, e, List.getElem?_eq_getElem hlt, ?_, ?_⟩
    · rw [hk, Nat.zero_add]; exact hl
    · intro x hx
      rw [he]
      exact maxValue_ge a as x hx

theorem perm_cons_eraseIdx {α : Type} (l : List α) (i : Nat) (e : α) (h : l[i]? = some e) :
    l.Perm (e :: l.eraseIdx i) := by
  induction l generalizing i with
  | nil => simp at h
  | cons a as ih =>
    cases i with
    | zero =>
      simp at h
      subst h
      simp
    | succ n =>
      simp at h
      have := ih n h
      simp only [List.eraseIdx_cons_succ]
      exact (List.Perm.cons a this).trans (List.Perm.swap e a _)

theorem length_eraseIdx_of_get {α : Type} (l : List α) (i : Nat) (e : α) (h : l[i]? = some e) :
    (l.eraseIdx i).length + 1 = l.length := by
  have := (perm_cons_eraseIdx l i e h).length_eq
  simp at this
  omega

/-- On a non-empty queue `top` and `pop` succeed: the top element is of maximal value, and
the queue is left with the other elements. -/
theorem top_pop_spec (q : PriorityQueue) (hne : q.elems ≠ []) :
    ∃ i e, q.top = some e ∧ q.pop = some ⟨q.elems.eraseIdx i, q.ties.next⟩ ∧
      q.elems[i]? = some e ∧ (∀ x ∈ q.elems, x.value ≤ e.value) := by
  obtain ⟨i, e, h1, h2, h3⟩ := topIdx_spec q hne
  refine ⟨i, e, ?_, ?_, h2, h3⟩
  · simp [PriorityQueue.top, h1, h2]
  · simp [PriorityQueue.pop, h1]

theorem drain_spec (n : Nat) (q : PriorityQueue) (acc : List Element) (hn : q.size ≤ n) :
    ∃ out q2, drain n q acc = some (acc ++ out, q2) ∧ q2.elems = [] ∧
      out.Perm q.elems ∧ out.Pairwise Desc := by
  induction n generalizing q acc with
  | zero =>
    have h0 : q.elems = [] := List.length_eq_zero.mp (by unfold PriorityQueue.size at hn; omega)
    refine ⟨[], q, ?_, h0, by simp [h0], List.Pairwise.nil⟩
    simp [drain, PriorityQueue.size, h0]
  | succ n ih =>
    by_cases h0 : q.elems = []
    · refine ⟨[], q, ?_, h0, by simp [h0], List.Pairwise.nil⟩
      simp [drain, PriorityQueue.size, h0]
    · obtain ⟨i, e, ht, hp, hi, hmax⟩ := top_pop_spec q h0
      have hlen := length_eraseIdx_of_get q.elems i e hi
      have hperm := perm_cons_eraseIdx q.elems i e hi
      obtain ⟨out, q2, hd, he, hpm, hsorted⟩ :=
        ih ⟨q.elems.eraseIdx i, q.ties.next⟩ (acc ++ [e])
          (by unfold PriorityQueue.size at hn ⊢; simp only; omega)
      refine ⟨e :: out, q2, ?_, he, ?_, ?_⟩
      · have hs : q.size ≠ 0 := by
          unfold PriorityQueue.size
          exact fun h => h0 (List.length_eq_zero.mp h)
        unfold drain
        simp only [hs, if_false, ht, hp]
        rw [hd]
        simp
      · exact (List.Perm.cons e hpm).trans hperm.symm
      · refine List.Pairwise.cons ?_ hsorted
        intro x hx
        have hx2 : x ∈ q.elems.eraseIdx i := hpm.subset hx
        exact hmax x (hperm.symm.subset (List.mem_cons_of_mem _ hx2))

/-! ## Facts about one iteration of the combine loop -/

theorem build_rcl_isPrefix (t : Int) (l : List Element) : build_rcl t l <+: l := by
  induction l with
  | nil => simp [build_rcl]
  | cons a as ih =>
    unfold build_rcl
    split
    · exact (List.prefix_cons_inj a).mpr ih
    · exact List.nil_prefix

theorem build_rcl_ge (t : Int) (l : List Element) : ∀ x ∈ build_rcl t l, t ≤ x.value := by
  induction l with
  | nil => simp [build_rcl]
  | cons a as ih =>
    unfold build_rcl
    split
    · rename_i h
      intro x hx
      rcases List.mem_cons.mp hx with rfl | hx
      · exact h
      · exact ih x hx
    · simp

theorem build_rcl_all (t : Int) (l : List Element) (h : ∀ x ∈ l, t ≤ x.value) :
    build_rcl t l = l := by
  induction l with
  | nil => simp [build_rcl]
  | cons a as ih =>
    unfold build_rcl
    rw [if_pos (h a (List.mem_cons_self _ _)), ih (fun x hx => h x (List.mem_cons_of_mem _ hx))]

theorem getElem?_of_isPrefix {α : Type} {l1 l2 : List α} (h : l1 <+: l2) (i : Nat) (x : α)
    (hx : l1[i]? = some x) : l2[i]? = some x := by
  obtain ⟨t, rfl⟩ := h
  have hi : i < l1.length := (List.getElem?_eq_some_iff.mp hx).1
  rw [List.getElem?_append_left hi]
  exact hx

theorem foldl_push_elems (l : List Element) (h : PriorityQueue) :
    (l.foldl PriorityQueue.push h).elems = h.elems ++ l ∧
    (l.foldl PriorityQueue.push h).ties = h.ties := by
  induction l generalizing h with
  | nil => simp
  | cons a as ih =>
    obtain ⟨h1, h2⟩ := ih (h.push a)
    simp only [List.foldl_cons]
    exact ⟨by rw [h1]; simp [PriorityQueue.push], by rw [h2]; rfl⟩

theorem kk_init_elems (numbers : List Int) (ties : Oracle) :
    (kk_init numbers ties).elems = numbers.map Element.leaf ∧ (kk_init numbers ties).ties = ties := by
  have key : ∀ (l : List Int) (h : PriorityQueue),
      (l.foldl (fun h num => h.push (Element.leaf num)) h).elems = h.elems ++ l.map Element.leaf ∧
      (l.foldl (fun h num => h.push (Element.leaf num)) h).ties = h.ties := by
    intro l
    induction l with
    | nil => intro h; simp
    | cons a as ih =>
      intro h
      obtain ⟨h1, h2⟩ := ih (h.push (Element.leaf a))
      simp only [List.foldl_cons, List.map_cons]
      exact ⟨by rw [h1]; simp [PriorityQueue.push], by rw [h2]; rfl⟩
  have := key numbers ⟨[], ties⟩
  simpa [kk_init] using this

/-- What the first half of an iteration computes on a heap of at least two elements. -/
theorem kk_locals_spec (alpha : Double) (h : PriorityQueue) (hsz : 2 ≤ h.size) :
    ∃ loc first last, kk_locals alpha h = some loc ∧
      (loc.largest :: loc.temp_elements).Perm h.elems ∧
      (loc.largest :: loc.temp_elements).Pairwise Desc ∧
      loc.heap.elems = [] ∧
      loc.temp_elements.head? = some first ∧ loc.temp_elements.getLast? = some last ∧
      loc.max_value = first.value ∧ loc.min_value = last.value ∧
      loc.min_value ≤ loc.max_value ∧
      loc.threshold =
        loc.max_value - (Double.mul alpha (Double.ofInt (loc.max_value - loc.min_value))).toInt ∧
      loc.rcl = build_rcl loc.threshold loc.temp_elements := by
  have hne : h.elems ≠ [] := by
    intro h0
    unfold PriorityQueue.size at hsz
    rw [h0] at hsz
    simp at hsz
  obtain ⟨i, e, ht, hp, hi, hmax⟩ := top_pop_spec h hne
  have hlen := length_eraseIdx_of_get h.elems i e hi
  have hperm := perm_cons_eraseIdx h.elems i e hi
  obtain ⟨out, q2, hd, he, hpm, hsorted⟩ :=
    drain_spec (PriorityQueue.size ⟨h.elems.eraseIdx i, h.ties.next⟩)
      ⟨h.elems.eraseIdx i, h.ties.next⟩ [] (le_refl _)
  simp only [List.nil_append] at hd hpm
  have hlen2 : out.length + 1 = h.elems.length := by rw [hpm.length_eq]; exact hlen
  cases hout : out with
  | nil =>
    rw [hout] at hlen2
    unfold PriorityQueue.size at hsz
    simp at hlen2
    omega
  | cons first rest =>
    have hlast : ∃ last, (first :: rest).getLast? = some last := by
      refine ⟨(first :: rest).getLast (by simp), ?_⟩
      exact List.getLast?_eq_getLast _ _
    obtain ⟨last, hlast⟩ := hlast
    have hlastmem : last ∈ first :: rest := List.mem_of_getLast?_eq_some hlast
    have hle : last.value ≤ first.value := by
      rw [hout] at hsorted
      rcases List.mem_cons.mp hlastmem with heq | hmem
      · rw [heq]
      · exact (List.pairwise_cons.mp hsorted).1 last hmem
    refine ⟨⟨e, first :: rest, q2, last.value, first.value,
      first.value - (Double.mul alpha (Double.ofInt (first.value - last.value))).toInt,
      build_rcl (first.value - (Double.mul alpha (Double.ofInt (first.value - last.value))).toInt)
        (first :: rest)⟩, first, last, ?_,
      ?_, ?_, he, rfl, hlast, rfl, rfl, hle, rfl, rfl⟩
    · unfold kk_locals
      simp only [ht, hp, hd, hout, hlast, List.head?_cons]
    · simp only
      rw [← hout]
      exact (List.Perm.cons e hpm).trans hperm.symm
    · simp only
      rw [← hout]
      refine List.Pairwise.cons ?_ hsorted
      intro x hx
      exact hmax x (hperm.symm.subset (List.mem_cons_of_mem _ (hpm.subset hx)))

/-- The RCL is not empty when `alpha` is not negative. -/
theorem rcl_ne_nil {alpha : Double} (ha : alpha.nonneg) (h : PriorityQueue) (loc : Locals)
    (hsz : 2 ≤ h.size) (hloc : kk_locals alpha h = some loc) : loc.rcl ≠ [] := by
  obtain ⟨loc2, first, last, h1, _, _, _, hhead, _, hmax, hmin, hle, hthr, hrcl⟩ :=
    kk_locals_spec alpha h hsz
  rw [hloc] at h1
  cases Option.some.inj h1
  have hthr2 : loc.threshold ≤ first.value := by
    rw [hthr, ← hmax]
    have := scaled_nonneg ha (loc.max_value - loc.min_value) (by omega)
    omega
  rw [hrcl]
  cases htemp : loc.temp_elements with
  | nil => rw [htemp] at hhead; simp at hhead
  | cons a as =>
    rw [htemp] at hhead
    simp at hhead
    subst hhead
    unfold build_rcl
    rw [if_pos hthr2]
    simp

theorem rcl_draw_lt (n : Nat) (hn : 0 < n) (rng : Oracle) :
    (rcl_draw n rng).1 = rng.peek % n ∧ (rcl_draw n rng).1 < n ∧ (rcl_draw n rng).2 = rng.next := by
  have h1 : size_minus_one n = n - 1 := by
    unfold size_minus_one
    rw [if_neg (by omega)]
  have h2 : n - 1 - 0 + 1 = n := by omega
  have h3 : (rcl_draw n rng).1 = rng.peek % n := by
    simp only [rcl_draw, uniform_int_distribution, h1, h2, Nat.zero_add]
  refine ⟨h3, ?_, rfl⟩
  rw [h3]
  exact Nat.mod_lt _ hn

/-- What the second half of an iteration does when the RCL is not empty. -/
theorem kk_combine_spec (loc : Locals) (rng : Oracle) (hne : loc.rcl ≠ [])
    (hpre : loc.rcl <+: loc.temp_elements) (hheap : loc.heap.elems = []) :
    ∃ second, loc.rcl[rng.peek % loc.rcl.length]? = some second ∧
      loc.temp_elements[rng.peek % loc.rcl.length]? = some second ∧
      rng.peek % loc.rcl.length < loc.rcl.length ∧
      rng.peek % loc.rcl.length < loc.temp_elements.length ∧
      kk_combine loc rng = some ⟨⟨loc.temp_elements.eraseIdx (rng.peek % loc.rcl.length) ++
        [Element.combine (abs64 (loc.largest.value - second.value)) loc.largest second],
        loc.heap.ties⟩, rng.next⟩ := by
  have hpos : 0 < loc.rcl.length := List.length_pos.mpr hne
  obtain ⟨hd1, hd2, hd3⟩ := rcl_draw_lt loc.rcl.length hpos rng
  have hlt : rng.peek % loc.rcl.length < loc.rcl.length := Nat.mod_lt _ hpos
  have hget : loc.rcl[rng.peek % loc.rcl.length]? = some (loc.rcl[rng.peek % loc.rcl.length]) :=
    List.getElem?_eq_getElem hlt
  have hget2 := getElem?_of_isPrefix hpre _ _ hget
  have hlt2 : rng.peek % loc.rcl.length < loc.temp_elements.length :=
    (List.getElem?_eq_some_iff.mp hget2).1
  refine ⟨_, hget, hget2, hlt, hlt2, ?_⟩
  unfold kk_combine
  simp only [hd1, hd3, hget, hlt2, if_true]
  obtain ⟨h1, h2⟩ := foldl_push_elems (loc.temp_elements.eraseIdx (rng.peek % loc.rcl.length))
    loc.heap
  simp only [PriorityQueue.push, h1, h2, hheap, List.nil_append]

theorem kk_body_inv (alpha : Double) (st st2 : KKState) (hsz : 2 ≤ st.max_heap.size)
    (hb : kk_body alpha st = some st2) : ∃ loc idx second, StepFacts alpha st st2 loc idx second := by
  obtain ⟨loc, first, last, h1, hperm, hsorted, hheap, _, _, _, _, _, _, hrcl⟩ :=
    kk_locals_spec alpha st.max_heap hsz
  unfold kk_body at hb
  rw [h1] at hb
  simp only at hb
  unfold kk_combine at hb
  simp only at hb
  cases hget : loc.rcl[(rcl_draw loc.rcl.length st.rng).1]? with
  | none => rw [hget] at hb; simp at hb
  | some second =>
    rw [hget] at hb
    simp only at hb
    have hpre : loc.rcl <+: loc.temp_elements := by rw [hrcl]; exact build_rcl_isPrefix _ _
    have hget2 := getElem?_of_isPrefix hpre _ _ hget
    have hlt2 := (List.getElem?_eq_some_iff.mp hget2).1
    rw [if_pos hlt2] at hb
    have hb2 := (Option.some.inj hb).symm
    obtain ⟨e1, e2⟩ := foldl_push_elems
      (loc.temp_elements.eraseIdx (rcl_draw loc.rcl.length st.rng).1) loc.heap
    refine ⟨loc, _, second, h1, hperm, hsorted, hrcl, rfl, hget, hget2, ?_, ?_⟩
    · rw [hb2]
      simp only [PriorityQueue.push, e1, hheap, List.nil_append]
    · rw [hb2]
      rfl

theorem kk_body_some {alpha : Double} (ha : alpha.nonneg) (st : KKState)
    (hsz : 2 ≤ st.max_heap.size) : ∃ st2, kk_body alpha st = some st2 := by
  obtain ⟨loc, first, last, h1, hperm, hsorted, hheap, _, _, _, _, _, _, hrcl⟩ :=
    kk_locals_spec alpha st.max_heap hsz
  have hne := rcl_ne_nil ha st.max_heap loc hsz h1
  have hpre : loc.rcl <+: loc.temp_elements := by rw [hrcl]; exact build_rcl_isPrefix _ _
  obtain ⟨second, _, _, _, _, hc⟩ := kk_combine_spec loc st.rng hne hpre hheap
  exact ⟨_, by unfold kk_body; rw [h1]; exact hc⟩

namespace StepFacts

variable {alpha : Double} {st st2 : KKState} {loc : Locals} {idx : Nat} {second : Element}

theorem second_mem (f : StepFacts alpha st st2 loc idx second) : second ∈ loc.temp_elements :=
  List.getElem?_mem f.get_temp

theorem second_le (f : StepFacts alpha st st2 loc idx second) :
    second.value ≤ loc.largest.value :=
  (List.pairwise_cons.mp f.sorted).1 second f.second_mem

theorem difference_eq (f : StepFacts alpha st st2 loc idx second) :
    abs64 (loc.largest.value - second.value) = loc.largest.value - second.value := by
  have := f.second_le
  unfold abs64
  omega

theorem perm_before (f : StepFacts alpha st st2 loc idx second) :
    st.max_heap.elems.Perm (loc.largest :: second :: loc.temp_elements.eraseIdx idx) :=
  f.perm.symm.trans (List.Perm.cons _ (perm_cons_eraseIdx _ _ _ f.get_temp))

theorem perm_after (f : StepFacts alpha st st2 loc idx second) :
    st2.max_heap.elems.Perm
      (Element.combine (loc.largest.value - second.value) loc.largest second ::
        loc.temp_elements.eraseIdx idx) := by
  rw [f.elems, f.difference_eq]
  exact List.perm_append_singleton _ _

theorem size_after (f : StepFacts alpha st st2 loc idx second) :
    st2.max_heap.size + 1 = st.max_heap.size := by
  have h1 := f.perm_before.length_eq
  have h2 := f.perm_after.length_eq
  unfold PriorityQueue.size
  simp at h1 h2
  omega

end StepFacts

/-- A property kept by every iteration of the combine loop holds after any number of them. -/
theorem kk_after_induction (alpha : Double) (P : KKState → Prop)
    (hstep : ∀ st st2, 2 ≤ st.max_heap.size → P st → kk_body alpha st = some st2 → P st2)
    (k : Nat) (st0 st : KKState) (h0 : P st0) (hk : kk_after alpha k st0 = some st) : P st := by
  induction k generalizing st with
  | zero =>
    simp [kk_after] at hk
    rw [← hk]; exact h0
  | succ k ih =>
    unfold kk_after at hk
    cases hprev : kk_after alpha k st0 with
    | none => rw [hprev] at hk; simp at hk
    | some st1 =>
      rw [hprev] at hk
      simp only at hk
      split at hk
      · rename_i hsz
        exact hstep st1 st (by omega) (ih st1 hprev) hk
      · simp at hk

/-- With `alpha` not negative and enough fuel the combine loop ends on a heap of one element,
and a property kept by every iteration holds there. -/
theorem kk_loop_total {alpha : Double} (ha : alpha.nonneg) (P : KKState → Prop)
    (hstep : ∀ st st2, 2 ≤ st.max_heap.size → P st → kk_body alpha st = some st2 → P st2)
    (fuel : Nat) (st : KKState) (h1 : 1 ≤ st.max_heap.size) (h2 : st.max_heap.size ≤ fuel + 1)
    (h0 : P st) :
    ∃ st2, kk_loop alpha fuel st = some st2 ∧ st2.max_heap.size = 1 ∧ P st2 := by
  induction fuel generalizing st with
  | zero =>
    refine ⟨st, ?_, by omega, h0⟩
    unfold kk_loop
    rw [if_neg (by omega)]
  | succ fuel ih =>
    by_cases hsz : st.max_heap.size > 1
    · obtain ⟨st1, hb⟩ := kk_body_some ha st hsz
      obtain ⟨loc, idx, second, f⟩ := kk_body_inv alpha st st1 hsz hb
      have hs := f.size_after
      obtain ⟨st2, hl, hs2, hp⟩ := ih st1 (by omega) (by omega) (hstep st st1 hsz h0 hb)
      refine ⟨st2, ?_, hs2, hp⟩
      unfold kk_loop
      rw [if_pos hsz, hb]
      exact hl
    · refine ⟨st, ?_, by omega, h0⟩
      unfold kk_loop
      rw [if_neg hsz]

/-- Whenever the combine loop ends, a property kept by every iteration holds at its end, and
the heap has at most one element. -/
theorem kk_loop_sound (alpha : Double) (P : KKState → Prop)
    (hstep : ∀ st st2, 2 ≤ st.max_heap.size → P st → kk_body alpha st = some st2 → P st2)
    (fuel : Nat) (st st2 : KKState) (h0 : P st) (hl : kk_loop alpha fuel st = some st2) :
    st2.max_heap.size ≤ 1 ∧ P st2 := by
  induction fuel generalizing st with
  | zero =>
    unfold kk_loop at hl
    split at hl
    · simp at hl
    · cases Option.some.inj hl
      exact ⟨by omega, h0⟩
  | succ fuel ih =>
    unfold kk_loop at hl
    split at hl
    · rename_i hsz
      cases hb : kk_body alpha st with
      | none => rw [hb] at hl; simp at hl
      | some st1 =>
        rw [hb] at hl
        exact ih st1 (hstep st st1 hsz h0 hb) hl
    · cases Option.some.inj hl
      exact ⟨by omega, h0⟩

/-! ## The invariants of the combine loop -/

theorem all_components_cons (e : Element) (es : List Element) :
    all_components (e :: es) = e.components ++ all_components es := rfl

theorem all_components_append (l1 l2 : List Element) :
    all_components (l1 ++ l2) = all_components l1 ++ all_components l2 := by
  induction l1 with
  | nil => rfl
  | cons a as ih => simp [all_components, ih]

theorem all_components_perm {l1 l2 : List Element} (h : l1.Perm l2) :
    (all_components l1).Perm (all_components l2) := by
  induction h with
  | nil => exact List.Perm.refl _
  | cons x _ ih => exact List.Perm.append_left _ ih
  | swap x y l =>
    simp only [all_components, ← List.append_assoc]
    exact List.Perm.append_right _ List.perm_append_comm
  | trans _ _ ih1 ih2 => exact ih1.trans ih2

theorem all_components_leaves (numbers : List Int) :
    all_components (numbers.map Element.leaf) = numbers.map (fun v => (v, 1)) := by
  induction numbers with
  | nil => rfl
  | cons a as ih => simp [all_components, Element.leaf, ih]

theorem PartInv_perm {numbers : List Int} {l1 l2 : List Element} (h : l1.Perm l2)
    (hi : PartInv numbers l1) : PartInv numbers l2 := by
  have hp := all_components_perm h
  refine ⟨((hp.map Prod.fst).symm).trans hi.1, ?_⟩
  intro c hc
  exact hi.2 c (hp.symm.subset hc)

theorem PartInv_init (numbers : List Int) : PartInv numbers (numbers.map Element.leaf) := by
  rw [PartInv, all_components_leaves]
  refine ⟨?_, ?_⟩
  · simp [List.map_map, Function.comp_def]
  · intro c hc
    obtain ⟨v, _, rfl⟩ := List.mem_map.mp hc
    left; rfl

theorem ValInv_init (numbers : List Int) : ValInv (numbers.map Element.leaf) := by
  intro e he
  obtain ⟨v, _, rfl⟩ := List.mem_map.mp he
  simp [Element.leaf, comp_sum]

theorem comp_sum_append (a b : List (Int × Int)) : comp_sum (a ++ b) = comp_sum a + comp_sum b := by
  simp [comp_sum]

theorem comp_sum_negate (b : List (Int × Int)) :
    comp_sum (b.map (fun comp => (comp.1, -comp.2))) = -comp_sum b := by
  induction b with
  | nil => simp [comp_sum]
  | cons x xs ih =>
    simp only [comp_sum, List.map_cons, List.sum_cons] at ih ⊢
    rw [ih]
    ring

theorem comp_sum_perm {a b : List (Int × Int)} (h : a.Perm b) : comp_sum a = comp_sum b :=
  (h.map _).sum_eq

theorem PartInv_step {numbers : List Int} {alpha : Double} {st st2 : KKState} {loc : Locals}
    {idx : Nat} {second : Element} (f : StepFacts alpha st st2 loc idx second)
    (hi : PartInv numbers st.max_heap.elems) : PartInv numbers st2.max_heap.elems := by
  have h1 := PartInv_perm f.perm_before hi
  refine PartInv_perm f.perm_after.symm ?_
  obtain ⟨hp, hs⟩ := h1
  unfold PartInv
  simp only [all_components_cons, Element.combine, List.map_append, List.mem_append,
    List.append_assoc] at hp hs ⊢
  refine ⟨?_, ?_⟩
  · simpa [List.map_map, Function.comp_def] using hp
  · intro c hc
    rcases hc with hc | hc | hc
    · exact hs c (Or.inl hc)
    · obtain ⟨c0, hc0, rfl⟩ := List.mem_map.mp hc
      rcases hs c0 (Or.inr (Or.inl hc0)) with h | h
      · right; simp [h]
      · left; simp [h]
    · exact hs c (Or.inr (Or.inr hc))

theorem ValInv_step {alpha : Double} {st st2 : KKState} {loc : Locals}
    {idx : Nat} {second : Element} (f : StepFacts alpha st st2 loc idx second)
    (hi : ValInv st.max_heap.elems) : ValInv st2.max_heap.elems := by
  intro e he
  have hb := f.perm_before
  rcases List.mem_cons.mp (f.perm_after.subset he) with rfl | he
  · have hl := hi loc.largest (hb.symm.subset (List.mem_cons_self _ _))
    have hs := hi second (hb.symm.subset (List.mem_cons_of_mem _ (List.mem_cons_self _ _)))
    simp only [Element.combine, comp_sum_append, comp_sum_negate]
    rw [hl, hs]
    ring
  · exact hi e (hb.symm.subset (List.mem_cons_of_mem _ (List.mem_cons_of_mem _ he)))

/-! ## The assignment written by the constructor -/

theorem subset_difference_zip (numbers solution : List Int) :
    subset_difference numbers solution = ((numbers.zip solution).map pair_term).sum := by
  unfold subset_difference
  induction numbers generalizing solution with
  | nil => simp [sum_with_sign]
  | cons x xs ih =>
    cases solution with
    | nil => simp [sum_with_sign]
    | cons s ss =>
      have := ih ss
      simp only [sum_with_sign, List.zip_cons_cons, List.map_cons, List.sum_cons, pair_term]
      omega

theorem pair_term_of_sign (c : Int × Int) (h : c.2 = 1 ∨ c.2 = -1) : pair_term c = c.2 * c.1 := by
  unfold pair_term
  rcases h with h | h <;> simp [h]

theorem write_solution_length (numbers : List Int) (cs : List (Int × Int)) (sol : List Int) :
    (write_solution numbers cs sol).length = sol.length := by
  induction cs generalizing sol with
  | nil => rfl
  | cons c rest ih =>
    unfold write_solution
    simp only
    split
    · rw [ih]; simp
    · rw [ih]

theorem write_solution_frame (numbers : List Int) (cs : List (Int × Int)) (sol : List Int)
    (i : Nat) (h : ∀ c ∈ cs, numbers.indexOf c.1 ≠ i) :
    (write_solution numbers cs sol)[i]? = sol[i]? := by
  induction cs generalizing sol with
  | nil => rfl
  | cons c rest ih =>
    have hrest : ∀ c ∈ rest, numbers.indexOf c.1 ≠ i := fun c hc => h c (List.mem_cons_of_mem _ hc)
    unfold write_solution
    simp only
    split
    · rw [ih _ hrest]
      exact List.getElem?_set_ne (h c (List.mem_cons_self _ _))
    · exact ih _ hrest

theorem indexOf_inj_of_mem (numbers : List Int) (a b : Int) (ha : a ∈ numbers)
    (h : numbers.indexOf b = numbers.indexOf a) : b = a := by
  have hlt : numbers.indexOf a < numbers.length := List.indexOf_lt_length.mpr ha
  have hlt2 : numbers.indexOf b < numbers.length := by rw [h]; exact hlt
  have e1 := List.getElem_indexOf hlt
  have e2 := List.getElem_indexOf hlt2
  rw [← e1, ← e2]
  simp only [h]

theorem write_solution_get (numbers : List Int) (cs : List (Int × Int)) (sol : List Int)
    (hnd : (cs.map Prod.fst).Nodup) (c : Int × Int) (hc : c ∈ cs) (hmem : c.1 ∈ numbers)
    (hlen : sol.length = numbers.length) :
    (write_solution numbers cs sol)[numbers.indexOf c.1]? = some c.2 := by
  induction cs generalizing sol with
  | nil => simp at hc
  | cons c0 rest ih =>
    simp only [List.map_cons, List.nodup_cons] at hnd
    have hlt : numbers.indexOf c.1 < numbers.length := List.indexOf_lt_length.mpr hmem
    unfold write_solution
    simp only
    rcases List.mem_cons.mp hc with rfl | hc
    · rw [if_pos hlt]
      rw [write_solution_frame]
      · rw [List.getElem?_set_self (by rw [hlen]; exact hlt)]
      · intro c2 hc2 heq
        have := indexOf_inj_of_mem numbers c.1 c2.1 hmem heq
        exact hnd.1 (this ▸ List.mem_map_of_mem Prod.fst hc2)
    · split
      · exact ih _ hnd.2 hc (by simp [hlen])
      · exact ih _ hnd.2 hc hlen

/-- With pairwise distinct numbers, `write_solution` lays the components out along the
numbers: paired with the numbers, the assignment is a rearrangement of the components. -/
theorem write_solution_zip (numbers : List Int) (cs : List (Int × Int)) (sol : List Int)
    (hnd : numbers.Nodup) (hperm : (cs.map Prod.fst).Perm numbers)
    (hlen : sol.length = numbers.length) :
    (numbers.zip (write_solution numbers cs sol)).Perm cs := by
  have hcsnd : (cs.map Prod.fst).Nodup := hperm.nodup_iff.mpr hnd
  have hwl := write_solution_length numbers cs sol
  have hzl : (numbers.zip (write_solution numbers cs sol)).length = numbers.length := by
    simp [hwl, hlen]
  have hznd : (numbers.zip (write_solution numbers cs sol)).Nodup := by
    apply List.Nodup.of_map Prod.fst
    rw [List.map_fst_zip _ _ (by omega)]
    exact hnd
  have hsub : numbers.zip (write_solution numbers cs sol) ⊆ cs := by
    intro z hz
    obtain ⟨i, hi⟩ := List.mem_iff_getElem?.mp hz
    obtain ⟨h1, h2⟩ := List.getElem?_zip_eq_some.mp hi
    obtain ⟨hlt, hget⟩ := List.getElem?_eq_some_iff.mp h1
    have hzmem : z.1 ∈ numbers := List.getElem?_mem h1
    have hzcs : z.1 ∈ cs.map Prod.fst := hperm.symm.subset hzmem
    obtain ⟨c, hc, hc1⟩ := List.mem_map.mp hzcs
    have hidx : numbers.indexOf z.1 = i := by
      rw [← hget]
      exact List.indexOf_getElem hnd i hlt
    have hw := write_solution_get numbers cs sol hcsnd c hc (hc1 ▸ hzmem) hlen
    rw [hc1, hidx, h2] at hw
    have hz2 : z = c := Prod.ext hc1.symm (Option.some.inj hw)
    rw [hz2]
    exact hc
  have hlen2 : cs.length = numbers.length := by
    have := hperm.length_eq
    simpa using this
  exact (List.subperm_of_subset hznd hsub).perm_of_length_le (by omega)

theorem write_solution_signs (numbers : List Int) (cs : List (Int × Int)) (sol : List Int)
    (hnd : numbers.Nodup) (hperm : (cs.map Prod.fst).Perm numbers)
    (hlen : sol.length = numbers.length) (hs : ∀ c ∈ cs, c.2 = 1 ∨ c.2 = -1) :
    ∀ s ∈ write_solution numbers cs sol, s = 1 ∨ s = -1 := by
  intro s hs2
  have hz := write_solution_zip numbers cs sol hnd hperm hlen
  obtain ⟨i, hi⟩ := List.mem_iff_getElem?.mp hs2
  have hlt := (List.getElem?_eq_some_iff.mp hi).1
  rw [write_solution_length, hlen] at hlt
  have hz2 : (numbers[i], s) ∈ numbers.zip (write_solution numbers cs sol) := by
    apply List.mem_iff_getElem?.mpr
    exact ⟨i, List.getElem?_zip_eq_some.mpr ⟨List.getElem?_eq_getElem hlt, hi⟩⟩
  exact hs _ (hz.subset hz2)

theorem write_solution_difference (numbers : List Int) (cs : List (Int × Int)) (sol : List Int)
    (hnd : numbers.Nodup) (hperm : (cs.map Prod.fst).Perm numbers)
    (hlen : sol.length = numbers.length) (hs : ∀ c ∈ cs, c.2 = 1 ∨ c.2 = -1) :
    subset_difference numbers (write_solution numbers cs sol) = comp_sum cs := by
  rw [subset_difference_zip]
  rw [((write_solution_zip numbers cs sol hnd hperm hlen).map pair_term).sum_eq]
  unfold comp_sum
  congr 1
  apply List.map_congr_left
  intro c hc
  exact pair_term_of_sign c (hs c hc)

theorem resize_length (sol : List Int) (n : Nat) (v : Int) : (resize sol n v).length = n := by
  unfold resize
  simp
  omega

/-! ## The constructor as a whole -/

theorem KKInv_init (numbers : List Int) (rng ties : Oracle) :
    KKInv numbers ⟨kk_init numbers ties, rng⟩ := by
  obtain ⟨h1, _⟩ := kk_init_elems numbers ties
  refine ⟨?_, ?_, ?_⟩
  · simp only [h1]; exact PartInv_init numbers
  · simp only [h1]; exact ValInv_init numbers
  · intro h
    simp [PriorityQueue.size, h1] at h

theorem KKInv_step (numbers : List Int) (alpha : Double) (st st2 : KKState)
    (hsz : 2 ≤ st.max_heap.size) (hi : KKInv numbers st) (hb : kk_body alpha st = some st2) :
    KKInv numbers st2 := by
  obtain ⟨loc, idx, second, f⟩ := kk_body_inv alpha st st2 hsz hb
  refine ⟨PartInv_step f hi.1, ValInv_step f hi.2.1, ?_⟩
  intro _
  refine ⟨_, f.perm_after.symm.subset (List.mem_cons_self _ _), ?_⟩
  have := f.second_le
  simp only [Element.combine]
  omega

theorem top_pop_singleton (e : Element) (t : Oracle) :
    PriorityQueue.top ⟨[e], t⟩ = some e ∧ PriorityQueue.pop ⟨[e], t⟩ = some ⟨[], t.next⟩ := by
  have h1 : PriorityQueue.topIdx ⟨[e], t⟩ = some 0 := by
    simp [PriorityQueue.topIdx, tiedIdxs, maxValue, Nat.mod_one]
  constructor
  · simp [PriorityQueue.top, h1]
  · simp [PriorityQueue.pop, h1]

/-- The constructor on a non-empty list, with `alpha` not negative and enough fuel: the
combine loop ends on one element `e`, which satisfies the invariants, and the function
returns its value and the assignment written from its components. -/
theorem kk_final (numbers solution : List Int) {alpha : Double} (ha : alpha.nonneg)
    (rng ties : Oracle) (hne : numbers ≠ []) (fuel : Nat) (hfuel : numbers.length ≤ fuel + 1) :
    ∃ st e, kk_loop alpha fuel ⟨kk_init numbers ties, rng⟩ = some st ∧
      st.max_heap.elems = [e] ∧ KKInv numbers st ∧
      karmarkar_karp_with_grasp fuel numbers solution alpha rng ties =
        some ⟨e.value, write_solution numbers e.components (resize solution numbers.length 0),
          st.rng, st.max_heap.ties.next⟩ := by
  obtain ⟨h1, _⟩ := kk_init_elems numbers ties
  have hsize : (kk_init numbers ties).size = numbers.length := by
    simp [PriorityQueue.size, h1]
  have hpos : 0 < numbers.length := List.length_pos.mpr hne
  obtain ⟨st, hl, hs, hinv⟩ := kk_loop_total ha (KKInv numbers) (KKInv_step numbers alpha) fuel
    ⟨kk_init numbers ties, rng⟩ (by simp only [hsize]; omega) (by simp only [hsize]; omega)
    (KKInv_init numbers rng ties)
  obtain ⟨e, he⟩ := List.length_eq_one.mp hs
  refine ⟨st, e, hl, he, hinv, ?_⟩
  unfold karmarkar_karp_with_grasp
  rw [hl]
  simp only
  have hq : st.max_heap = ⟨[e], st.max_heap.ties⟩ := by
    cases hh : st.max_heap with
    | mk elems t => rw [hh] at he; simp only at he; rw [he]
  obtain ⟨ht, hp⟩ := top_pop_singleton e st.max_heap.ties
  rw [hq, ht, hp]

theorem PartInv_single {numbers : List Int} {e : Element} (h : PartInv numbers [e]) :
    (e.components.map Prod.fst).Perm numbers ∧ ∀ c ∈ e.components, c.2 = 1 ∨ c.2 = -1 := by
  simpa [PartInv, all_components] using h

theorem PartLoopInv_step (numbers : List Int) (alpha : Double) (st st2 : KKState)
    (hsz : 2 ≤ st.max_heap.size) (hi : PartLoopInv numbers st)
    (hb : kk_body alpha st = some st2) : PartLoopInv numbers st2 := by
  obtain ⟨loc, idx, second, f⟩ := kk_body_inv alpha st st2 hsz hb
  have := f.size_after
  exact ⟨PartInv_step f hi.1, by omega⟩

/-- C3: the contribution partition invariant of the constructor.  After any number of
iterations of the combine loop the components of the elements held are, as a multiset of
original values, the input numbers, with every sign `+1` or `-1`; this also holds in the
middle of an iteration, for the extracted elements (`largest`, `temp_elements`) together with
the heap; the element made by an iteration carries exactly the numbers of the two elements
folded into it, which leave the heap; hence whenever the loop ends its one element has
exactly `n` components whose numbers are a rearrangement of the input, and for `alpha` not
negative the loop does end. -/
theorem C3_contribution_partition (numbers : List Int) (alpha : Double) (rng ties : Oracle)
    (hne : numbers ≠ []) :
    (∀ k st, kk_after alpha k ⟨kk_init numbers ties, rng⟩ = some st →
      PartInv numbers st.max_heap.elems ∧
      (∀ loc, 2 ≤ st.max_heap.size → kk_locals alpha st.max_heap = some loc →
        PartInv numbers (loc.largest :: (loc.temp_elements ++ loc.heap.elems))) ∧
      (∀ st2, 2 ≤ st.max_heap.size → kk_body alpha st = some st2 →
        ∃ largest second created rest,
          st.max_heap.elems.Perm (largest :: second :: rest) ∧
          st2.max_heap.elems.Perm (created :: rest) ∧
          created.components.map Prod.fst =
            largest.components.map Prod.fst ++ second.components.map Prod.fst)) ∧
    (∀ fuel st, kk_loop alpha fuel ⟨kk_init numbers ties, rng⟩ = some st →
      ∃ e, st.max_heap.elems = [e] ∧ e.components.length = numbers.length ∧
        (e.components.map Prod.fst).Perm numbers ∧ ∀ c ∈ e.components, c.2 = 1 ∨ c.2 = -1) ∧
    (0 ≤ alpha.toRat → ∀ fuel, numbers.length ≤ fuel + 1 →
      ∃ st, kk_loop alpha fuel ⟨kk_init numbers ties, rng⟩ = some st) := by
  obtain ⟨h1, _⟩ := kk_init_elems numbers ties
  have hpos : 0 < numbers.length := List.length_pos.mpr hne
  have hinit : PartLoopInv numbers ⟨kk_init numbers ties, rng⟩ := by
    refine ⟨?_, ?_⟩
    · simp only [h1]; exact PartInv_init numbers
    · simp only [PriorityQueue.size, h1, List.length_map]; omega
  refine ⟨?_, ?_, ?_⟩
  · intro k st hk
    have hinv := kk_after_induction alpha (PartLoopInv numbers) (PartLoopInv_step numbers alpha)
      k _ st hinit hk
    refine ⟨hinv.1, ?_, ?_⟩
    · intro loc hsz hloc
      obtain ⟨loc2, first, last, e1, hperm, _, hheap, _⟩ := kk_locals_spec alpha st.max_heap hsz
      rw [hloc] at e1
      cases Option.some.inj e1
      rw [hheap, List.append_nil]
      exact PartInv_perm hperm.symm hinv.1
    · intro st2 hsz hb
      obtain ⟨loc, idx, second, f⟩ := kk_body_inv alpha st st2 hsz hb
      refine ⟨loc.largest, second, _, _, f.perm_before, f.perm_after, ?_⟩
      simp [Element.combine, List.map_map, Function.comp_def]
  · intro fuel st hl
    obtain ⟨hsz, hinv⟩ := kk_loop_sound alpha (PartLoopInv numbers)
      (PartLoopInv_step numbers alpha) fuel _ st hinit hl
    have hone : st.max_heap.elems.length = 1 := by
      have := hinv.2
      unfold PriorityQueue.size at this hsz
      omega
    obtain ⟨e, he⟩ := List.length_eq_one.mp hone
    have hp := hinv.1
    rw [he] at hp
    obtain ⟨hperm, hsigns⟩ := PartInv_single hp
    refine ⟨e, he, ?_, hperm, hsigns⟩
    have := hperm.length_eq
    simpa using this
  · intro ha fuel hfuel
    obtain ⟨st, e, hl, _⟩ := kk_final numbers [] (Double.nonneg_of_toRat ha) rng ties hne fuel hfuel
    exact ⟨st, hl⟩

theorem C3_contribution_partition_witness :
    [8, 7, 6, 5, 4] ≠ ([] : List Int) ∧
    ∃ st, kk_loop Double.one 4 ⟨kk_init [8, 7, 6, 5, 4] (constOracle 0), constOracle 0⟩ = some st :=
  ⟨by decide, (C3_contribution_partition [8, 7, 6, 5, 4] Double.one (constOracle 0)
    (constOracle 0) (by decide)).2.2 (by norm_num [Double.toRat, Double.one]) 4 (by decide)⟩

/-! ## The classical Karmarkar-Karp differencing -/

theorem sorted_desc_unique {l1 l2 : List Int} (hp : l1.Perm l2)
    (h1 : l1.Sorted (fun a b => b ≤ a)) (h2 : l2.Sorted (fun a b => b ≤ a)) : l1 = l2 := by
  haveI : IsAntisymm Int (fun a b => b ≤ a) := ⟨fun a b h1 h2 => le_antisymm h2 h1⟩
  exact List.eq_of_perm_of_sorted hp h1 h2

theorem insertionSort_desc_sorted (l : List Int) :
    (l.insertionSort (fun a b => b ≤ a)).Sorted (fun a b => b ≤ a) := by
  haveI : IsTotal Int (fun a b => b ≤ a) := ⟨fun a b => le_total b a⟩
  haveI : IsTrans Int (fun a b => b ≤ a) := ⟨fun a b c h1 h2 => le_trans h2 h1⟩
  exact List.sorted_insertionSort _ l

theorem insertionSort_desc_eq {l s : List Int} (hp : s.Perm l)
    (hs : s.Sorted (fun a b => b ≤ a)) : l.insertionSort (fun a b => b ≤ a) = s :=
  sorted_desc_unique ((List.perm_insertionSort _ l).trans hp.symm)
    (insertionSort_desc_sorted l) hs

theorem differencing_round_perm {l1 l2 : List Int} (hp : l1.Perm l2) :
    differencing_round l1 = differencing_round l2 := by
  unfold differencing_round
  rw [insertionSort_desc_eq (((List.perm_insertionSort _ l2).trans hp.symm))
    (insertionSort_desc_sorted l2)]

theorem classical_kk_perm (fuel : Nat) {l1 l2 : List Int} (hp : l1.Perm l2) :
    classical_kk fuel l1 = classical_kk fuel l2 := by
  match l1, l2, hp with
  | [], l2, hp => rw [List.nil_perm.mp hp]
  | [a], l2, hp => rw [List.singleton_perm.mp hp]
  | a :: b :: rest, [], hp => exact absurd hp.length_eq (by simp)
  | a :: b :: rest, [c], hp => exact absurd hp.length_eq (by simp)
  | a :: b :: rest, c :: d :: rest2, hp =>
    cases fuel with
    | zero => rfl
    | succ f =>
      simp only [classical_kk]
      rw [differencing_round_perm hp]

/-- The facts about the locals of an iteration, for a state and its successor. -/
theorem StepFacts.locals_spec {alpha : Double} {st st2 : KKState} {loc : Locals} {idx : Nat}
    {second : Element} (f : StepFacts alpha st st2 loc idx second)
    (hsz : 2 ≤ st.max_heap.size) :
    ∃ first last, loc.temp_elements.head? = some first ∧
      loc.temp_elements.getLast? = some last ∧
      loc.max_value = first.value ∧ loc.min_value = last.value ∧
      loc.min_value ≤ loc.max_value ∧
      loc.threshold =
        loc.max_value - (Double.mul alpha (Double.ofInt (loc.max_value - loc.min_value))).toInt := by
  obtain ⟨loc2, first, last, e1, _, _, _, h1, h2, h3, h4, h5, h6, _⟩ :=
    kk_locals_spec alpha st.max_heap hsz
  rw [f.locals] at e1
  cases Option.some.inj e1
  exact ⟨first, last, h1, h2, h3, h4, h5, h6⟩

theorem head_max_of_desc {first : Element} {rest : List Element}
    (h : (first :: rest).Pairwise Desc) : ∀ x ∈ first :: rest, x.value ≤ first.value := by
  intro x hx
  rcases List.mem_cons.mp hx with rfl | hx
  · exact le_refl _
  · exact (List.pairwise_cons.mp h).1 x hx

/-- With `alpha = 0` an iteration of the combine loop is a round of the classical heuristic
on the values held. -/
theorem kk_step_classical {st st2 : KKState} {loc : Locals} {idx : Nat} {second : Element}
    (f : StepFacts Double.zero st st2 loc idx second) (hsz : 2 ≤ st.max_heap.size) :
    (st2.max_heap.elems.map Element.value).Perm
      (differencing_round (st.max_heap.elems.map Element.value)) := by
  obtain ⟨first, last, hhead, _, hmax, _, _, hthr⟩ := f.locals_spec hsz
  rw [scaled_zero, sub_zero] at hthr
  have hsorted_temp : loc.temp_elements.Pairwise Desc := (List.pairwise_cons.mp f.sorted).2
  cases htemp : loc.temp_elements with
  | nil => rw [htemp] at hhead; simp at hhead
  | cons a rest =>
    rw [htemp] at hhead hsorted_temp
    simp only [List.head?_cons, Option.some.injEq] at hhead
    subst hhead
    have hsec_mem : second ∈ a :: rest := htemp ▸ f.second_mem
    have hsec_le : second.value ≤ a.value := head_max_of_desc hsorted_temp second hsec_mem
    have hsec_ge : loc.threshold ≤ second.value := by
      have : second ∈ build_rcl loc.threshold loc.temp_elements :=
        f.rcl_eq ▸ List.getElem?_mem f.get_rcl
      exact build_rcl_ge _ _ second this
    have hsec : second.value = a.value := by omega
    -- the values before the iteration, sorted
    have hsort : (st.max_heap.elems.map Element.value).insertionSort (fun x y => y ≤ x) =
        loc.largest.value :: a.value :: rest.map Element.value := by
      apply insertionSort_desc_eq
      · have := f.perm.map Element.value
        rw [htemp] at this
        simpa using this
      · have := f.sorted
        rw [htemp] at this
        have h2 := List.Pairwise.map Element.value (S := fun x y => y ≤ x)
          (fun _ _ h => h) this
        simpa using h2
    have hround : differencing_round (st.max_heap.elems.map Element.value) =
        (loc.largest.value - a.value) :: rest.map Element.value := by
      unfold differencing_round
      rw [hsort]
    rw [hround]
    have hafter := f.perm_after.map Element.value
    refine hafter.trans ?_
    simp only [List.map_cons, Element.combine, hsec]
    refine List.Perm.cons _ ?_
    have h3 := (perm_cons_eraseIdx loc.temp_elements idx second f.get_temp).map Element.value
    rw [htemp] at h3
    simp only [List.map_cons, hsec] at h3
    rw [htemp]
    exact (List.Perm.cons_inv h3).symm

theorem kk_loop_classical (fuel : Nat) (st st2 : KKState) (h1 : 1 ≤ st.max_heap.size)
    (hl : kk_loop Double.zero fuel st = some st2) :
    ∃ e, st2.max_heap.elems = [e] ∧
      classical_kk fuel (st.max_heap.elems.map Element.value) = some e.value := by
  induction fuel generalizing st with
  | zero =>
    unfold kk_loop at hl
    split at hl
    · simp at hl
    · rename_i hsz
      have hone : st.max_heap.elems.length = 1 := by
        unfold PriorityQueue.size at h1 hsz; omega
      obtain ⟨e, he⟩ := List.length_eq_one.mp hone
      rw [← Option.some.inj hl]
      exact ⟨e, he, by rw [he]; rfl⟩
  | succ fuel ih =>
    unfold kk_loop at hl
    split at hl
    · rename_i hsz
      cases hb : kk_body Double.zero st with
      | none => rw [hb] at hl; simp at hl
      | some st1 =>
        rw [hb] at hl
        simp only at hl
        obtain ⟨loc, idx, second, f⟩ := kk_body_inv Double.zero st st1 hsz hb
        have hs := f.size_after
        obtain ⟨e, he, hc⟩ := ih st1 (by omega) hl
        refine ⟨e, he, ?_⟩
        rw [classical_kk_perm fuel (kk_step_classical f hsz)] at hc
        rw [← hc]
        have hlen : 2 ≤ (st.max_heap.elems.map Element.value).length := by
          simpa [PriorityQueue.size] using hsz
        match hv : st.max_heap.elems.map Element.value, hlen with
        | a :: b :: rest, _ => rfl
    · rename_i hsz
      have hone : st.max_heap.elems.length = 1 := by
        unfold PriorityQueue.size at h1 hsz; omega
      obtain ⟨e, he⟩ := List.length_eq_one.mp hone
      rw [← Option.some.inj hl]
      exact ⟨e, he, by rw [he]; rfl⟩

/-! ## The restricted candidate list -/

theorem build_rcl_eq_filter (t : Int) (l : List Element) (h : l.Pairwise Desc) :
    build_rcl t l = l.filter (fun x => decide (t ≤ x.value)) := by
  induction l with
  | nil => rfl
  | cons a as ih =>
    obtain ⟨h1, h2⟩ := List.pairwise_cons.mp h
    unfold build_rcl
    by_cases ha : t ≤ a.value
    · rw [if_pos ha, ih h2, List.filter_cons_of_pos (by simpa using ha)]
    · rw [if_neg ha, List.filter_cons_of_neg (by simpa using ha)]
      symm
      apply List.filter_eq_nil_iff.mpr
      intro x hx
      have := h1 x hx
      unfold Desc at this
      simp only [decide_eq_true_eq]
      omega

/-- The locals of an iteration that starts on a heap of at least two elements, with the
facts that do not depend on `alpha`. -/
theorem kk_locals_facts (alpha : Double) (h : PriorityQueue) (hsz : 2 ≤ h.size) :
    ∃ loc, kk_locals alpha h = some loc ∧ loc.temp_elements ≠ [] ∧
      loc.temp_elements.Pairwise Desc ∧
      (∀ x ∈ loc.temp_elements, loc.min_value ≤ x.value ∧ x.value ≤ loc.max_value) ∧
      (∃ x ∈ loc.temp_elements, x.value = loc.max_value) ∧
      loc.min_value ≤ loc.max_value ∧
      loc.threshold =
        loc.max_value - (Double.mul alpha (Double.ofInt (loc.max_value - loc.min_value))).toInt ∧
      loc.rcl = build_rcl loc.threshold loc.temp_elements := by
  obtain ⟨loc, first, last, h1, _, hsorted, _, hhead, hlast, hmax, hmin, hle, hthr, hrcl⟩ :=
    kk_locals_spec alpha h hsz
  have hs2 : loc.temp_elements.Pairwise Desc := (List.pairwise_cons.mp hsorted).2
  have hfirst : first ∈ loc.temp_elements := List.mem_of_mem_head? hhead
  refine ⟨loc, h1, List.ne_nil_of_mem hfirst, hs2, ?_, ⟨first, hfirst, hmax.symm⟩, hle, hthr, hrcl⟩
  intro x hx
  constructor
  · -- the last element is the least
    rw [hmin]
    obtain ⟨init, hinit⟩ : ∃ init, loc.temp_elements = init ++ [last] := by
      have hne : loc.temp_elements ≠ [] := List.ne_nil_of_mem hfirst
      refine ⟨loc.temp_elements.dropLast, ?_⟩
      have h3 := List.dropLast_append_getLast hne
      have h4 : loc.temp_elements.getLast hne = last := by
        have := List.getLast?_eq_getLast _ hne
        rw [hlast] at this
        exact (Option.some.inj this).symm
      rw [h4] at h3
      exact h3.symm
    rw [hinit] at hs2 hx
    rcases List.mem_append.mp hx with hx | hx
    · exact (List.pairwise_append.mp hs2).2.2 x hx last (List.mem_singleton_self _)
    · rw [List.mem_singleton.mp hx]
  · rw [hmax]
    cases htemp : loc.temp_elements with
    | nil => rw [htemp] at hx; simp at hx
    | cons a rest =>
      rw [htemp] at hhead hs2 hx
      simp only [List.head?_cons, Option.some.injEq] at hhead
      subst hhead
      exact head_max_of_desc hs2 x hx

/-- C8, counterexample: on `[3,1,1,2,2,1]` with `alpha = 0` the first combine step extracts
`3`, the working list is `[2,2,1,1,1]`, the threshold is `2` and the RCL holds the two
elements of value `2`. -/
theorem C8_counterexample :
    (kk_after Double.zero 0 ⟨kk_init [3, 1, 1, 2, 2, 1] (constOracle 0), constOracle 0⟩).bind
      (fun st => (kk_locals Double.zero st.max_heap).map
        (fun loc => (loc.largest.value, loc.temp_elements.map Element.value, loc.threshold,
          loc.rcl.map Element.value))) = some (3, [2, 2, 1, 1, 1], 2, [2, 2]) := by
  decide

/-- C8, amended: with `alpha = 0`, at every combine step the threshold is the maximum of the
working list and the RCL is made of exactly the working-list elements of that value: it is
never empty, and it has exactly one candidate precisely when the maximum is not repeated. -/
theorem C8_alpha_zero_rcl (numbers : List Int) (rng ties : Oracle) (k : Nat) (st : KKState)
    (_hk : kk_after Double.zero k ⟨kk_init numbers ties, rng⟩ = some st)
    (hsz : 2 ≤ st.max_heap.size) :
    ∃ loc, kk_locals Double.zero st.max_heap = some loc ∧
      loc.threshold = loc.max_value ∧
      loc.rcl = loc.temp_elements.filter (fun x => decide (x.value = loc.max_value)) ∧
      loc.rcl ≠ [] ∧
      (loc.rcl.length = 1 ↔
        loc.temp_elements.countP (fun x => decide (x.value = loc.max_value)) = 1) := by
  obtain ⟨loc, h1, _, hsorted, hbounds, ⟨x, hx, hxv⟩, _, hthr, hrcl⟩ :=
    kk_locals_facts Double.zero st.max_heap hsz
  rw [scaled_zero, sub_zero] at hthr
  have hfilter : loc.rcl = loc.temp_elements.filter (fun x => decide (x.value = loc.max_value)) := by
    rw [hrcl, build_rcl_eq_filter _ _ hsorted, hthr]
    apply List.filter_congr
    intro y hy
    have := (hbounds y hy).2
    simp only [decide_eq_decide]
    omega
  refine ⟨loc, h1, hthr, hfilter, ?_, ?_⟩
  · rw [hfilter]
    intro hnil
    have := List.filter_eq_nil_iff.mp hnil x hx
    simp [hxv] at this
  · rw [hfilter, List.countP_eq_length_filter]

theorem C8_alpha_zero_rcl_witness :
    ∃ loc, kk_locals Double.zero (kk_init [3, 1, 1, 2, 2, 1] (constOracle 0)) = some loc ∧
      loc.threshold = loc.max_value ∧
      loc.rcl = loc.temp_elements.filter (fun x => decide (x.value = loc.max_value)) ∧
      loc.rcl ≠ [] ∧
      (loc.rcl.length = 1 ↔
        loc.temp_elements.countP (fun x => decide (x.value = loc.max_value)) = 1) :=
  C8_alpha_zero_rcl [3, 1, 1, 2, 2, 1] (constOracle 0) (constOracle 0) 0
    ⟨kk_init [3, 1, 1, 2, 2, 1] (constOracle 0), constOracle 0⟩ rfl (by decide)

/-- C9, counterexample: on `[2^53 + 2, 2^53 + 1, 0]` with `alpha = 1.0` the first combine step
has the working list `[2^53 + 1, 0]`; the spread `2^53 + 1` is converted to the double `2^53`,
so the threshold is `1`, not the minimum `0`, and the RCL is `[2^53 + 1]`, not the whole
working list. -/
theorem C9_counterexample :
    (kk_after Double.one 0
        ⟨kk_init [9007199254740994, 9007199254740993, 0] (constOracle 0), constOracle 0⟩).bind
      (fun st => (kk_locals Double.one st.max_heap).map
        (fun loc => (loc.temp_elements.map Element.value, loc.min_value, loc.threshold,
          loc.rcl.map Element.value))) =
      some ([9007199254740993, 0], 0, 1, [9007199254740993]) := by
  decide

/-- C9, amended: with `alpha = 1.0`, at every combine step at which the spread
`max_value - min_value` of the working list is below `2^53` (so that its conversion to
`double` is exact), the threshold is the minimum of the working list, the RCL is the whole
working list, and every position of the working list is drawn for some outcome of the
random draw. -/
theorem C9_alpha_one_rcl (numbers : List Int) (rng ties : Oracle) (k : Nat) (st : KKState)
    (_hk : kk_after Double.one k ⟨kk_init numbers ties, rng⟩ = some st)
    (hsz : 2 ≤ st.max_heap.size) :
    ∃ loc, kk_locals Double.one st.max_heap = some loc ∧
      ((loc.max_value - loc.min_value).natAbs < 2 ^ 53 →
        loc.threshold = loc.min_value ∧ loc.rcl = loc.temp_elements ∧
        ∀ i, i < loc.temp_elements.length →
          ∃ rng2 : Oracle, (rcl_draw loc.rcl.length rng2).1 = i) := by
  obtain ⟨loc, h1, hne, hsorted, hbounds, _, _, hthr, hrcl⟩ :=
    kk_locals_facts Double.one st.max_heap hsz
  refine ⟨loc, h1, ?_⟩
  intro hsmall
  rw [scaled_one_exact _ hsmall] at hthr
  have hthr2 : loc.threshold = loc.min_value := by omega
  have hall : loc.rcl = loc.temp_elements := by
    rw [hrcl]
    apply build_rcl_all
    intro x hx
    rw [hthr2]
    exact (hbounds x hx).1
  refine ⟨hthr2, hall, ?_⟩
  intro i hi
  rw [hall]
  refine ⟨⟨fun _ => i, 0⟩, ?_⟩
  rw [(rcl_draw_lt loc.temp_elements.length (by omega) _).1]
  exact Nat.mod_eq_of_lt hi

theorem C9_alpha_one_rcl_witness :
    ∃ loc, kk_locals Double.one (kk_init [8, 7, 6, 5, 4] (constOracle 0)) = some loc ∧
      ((loc.max_value - loc.min_value).natAbs < 2 ^ 53 →
        loc.threshold = loc.min_value ∧ loc.rcl = loc.temp_elements ∧
        ∀ i, i < loc.temp_elements.length →
          ∃ rng2 : Oracle, (rcl_draw loc.rcl.length rng2).1 = i) :=
  C9_alpha_one_rcl [8, 7, 6, 5, 4] (constOracle 0) (constOracle 0) 0
    ⟨kk_init [8, 7, 6, 5, 4] (constOracle 0), constOracle 0⟩ rfl (by decide)

/-- The constructor in `ℤ` never fails on a well-formed call.  For a non-empty list, `alpha`
in `[0,1]`, any random stream and any order of the heap among equal values: at every combine
step the locals are computed, the working list is not empty, the RCL is not empty (so
`rcl.size() - 1` does not wrap), the index drawn is in bounds for the RCL and for the working
list, and the iteration completes; and with enough fuel the loop ends, the final `top`
exists and the function returns. -/
theorem constructor_never_fails_ideal (numbers solution : List Int) (alpha : Double)
    (rng ties : Oracle) (hne : numbers ≠ []) (ha0 : 0 ≤ alpha.toRat) (_ha1 : alpha.toRat ≤ 1) :
    (∀ k st, kk_after alpha k ⟨kk_init numbers ties, rng⟩ = some st → 2 ≤ st.max_heap.size →
      ∃ loc, kk_locals alpha st.max_heap = some loc ∧
        loc.temp_elements ≠ [] ∧ loc.rcl ≠ [] ∧
        size_minus_one loc.rcl.length + 1 = loc.rcl.length ∧
        (rcl_draw loc.rcl.length st.rng).1 < loc.rcl.length ∧
        (rcl_draw loc.rcl.length st.rng).1 < loc.temp_elements.length ∧
        ∃ st2, kk_body alpha st = some st2) ∧
    (∀ fuel, numbers.length ≤ fuel + 1 →
      ∃ st e r, kk_loop alpha fuel ⟨kk_init numbers ties, rng⟩ = some st ∧
        st.max_heap.top = some e ∧
        karmarkar_karp_with_grasp fuel numbers solution alpha rng ties = some r) := by
  have ha := Double.nonneg_of_toRat ha0
  refine ⟨?_, ?_⟩
  · intro k st _ hsz
    obtain ⟨loc, h1, hne2, _, _, _, _, _, hrcl⟩ := kk_locals_facts alpha st.max_heap hsz
    have hrne := rcl_ne_nil ha st.max_heap loc hsz h1
    have hpos : 0 < loc.rcl.length := List.length_pos.mpr hrne
    obtain ⟨_, hlt, _⟩ := rcl_draw_lt loc.rcl.length hpos st.rng
    have hpre : loc.rcl <+: loc.temp_elements := by rw [hrcl]; exact build_rcl_isPrefix _ _
    refine ⟨loc, h1, hne2, hrne, ?_, hlt, lt_of_lt_of_le hlt hpre.length_le,
      kk_body_some ha st hsz⟩
    unfold size_minus_one
    rw [if_neg (by omega)]
    omega
  · intro fuel hfuel
    obtain ⟨st, e, hl, he, _, hres⟩ := kk_final numbers solution ha rng ties hne fuel hfuel
    refine ⟨st, e, _, hl, ?_, hres⟩
    have hq : st.max_heap = ⟨[e], st.max_heap.ties⟩ := by
      cases hh : st.max_heap with
      | mk elems t => rw [hh] at he; simp only at he; rw [he]
    rw [hq]
    exact (top_pop_singleton e _).1

/-! ## The invariants of the annealing loop -/

theorem sum_loop_spec (numbers sol : List Int) (sum1 sum2 : Int)
    (hlen : numbers.length ≤ sol.length) (hs : ∀ s ∈ sol, s = 1 ∨ s = -1) :
    ∃ sums, sum_loop numbers sol sum1 sum2 = some sums ∧
      sums.1 - sums.2 = sum1 - sum2 + subset_difference numbers sol := by
  induction numbers generalizing sol sum1 sum2 with
  | nil => exact ⟨(sum1, sum2), rfl, by simp [subset_difference, sum_with_sign]⟩
  | cons x xs ih =>
    cases sol with
    | nil => simp at hlen
    | cons s ss =>
      have hs2 : ∀ t ∈ ss, t = 1 ∨ t = -1 := fun t ht => hs t (List.mem_cons_of_mem _ ht)
      have hlen2 : xs.length ≤ ss.length := by simpa using hlen
      have hsd : subset_difference (x :: xs) (s :: ss) =
          pair_term (x, s) + subset_difference xs ss := by
        simp only [subset_difference, sum_with_sign, pair_term]
        omega
      unfold sum_loop
      rcases hs s (List.mem_cons_self _ _) with h1 | h1
      · obtain ⟨sums, e1, e2⟩ := ih ss (sum1 + x) sum2 hlen2 hs2
        refine ⟨sums, by rw [if_pos h1]; exact e1, ?_⟩
        rw [e2, hsd]
        simp [pair_term, h1]
        ring
      · obtain ⟨sums, e1, e2⟩ := ih ss sum1 (sum2 + x) hlen2 hs2
        refine ⟨sums, by rw [if_neg (by rw [h1]; decide)]; exact e1, ?_⟩
        rw [e2, hsd]
        simp [pair_term, h1]
        ring

theorem sum_loop_some (numbers sol : List Int) (sum1 sum2 : Int)
    (hlen : numbers.length ≤ sol.length) : ∃ sums, sum_loop numbers sol sum1 sum2 = some sums := by
  induction numbers generalizing sol sum1 sum2 with
  | nil => exact ⟨(sum1, sum2), rfl⟩
  | cons x xs ih =>
    cases sol with
    | nil => simp at hlen
    | cons s ss =>
      have hlen2 : xs.length ≤ ss.length := by simpa using hlen
      unfold sum_loop
      split
      · exact ih ss _ _ hlen2
      · exact ih ss _ _ hlen2

theorem subset_difference_flip (numbers sol : List Int) (idx : Nat) (s x : Int)
    (hs : sol[idx]? = some s) (hx : numbers[idx]? = some x) (hsign : s = 1 ∨ s = -1) :
    subset_difference numbers (sol.set idx (s * -1)) =
      subset_difference numbers sol + 2 * (s * -1) * x := by
  induction numbers generalizing sol idx with
  | nil => simp at hx
  | cons y ys ih =>
    cases sol with
    | nil => simp at hs
    | cons t ts =>
      have hsd : ∀ (a : Int) (l : List Int), subset_difference (y :: ys) (a :: l) =
          pair_term (y, a) + subset_difference ys l := by
        intro a l
        simp only [subset_difference, sum_with_sign, pair_term]
        omega
      cases idx with
      | zero =>
        simp only [List.getElem?_cons_zero, Option.some.injEq] at hs hx
        subst hs hx
        simp only [List.set_cons_zero, hsd]
        rcases hsign with h | h <;> simp [pair_term, h] <;> ring
      | succ n =>
        simp only [List.getElem?_cons_succ] at hs hx
        simp only [List.set_cons_succ, hsd]
        rw [ih ts n hs hx]
        ring

theorem set_signs (sol : List Int) (idx : Nat) (v : Int) (hv : v = 1 ∨ v = -1)
    (hs : ∀ s ∈ sol, s = 1 ∨ s = -1) : ∀ s ∈ sol.set idx v, s = 1 ∨ s = -1 := by
  intro s hmem
  rcases List.mem_or_eq_of_mem_set hmem with h | h
  · exact hs s h
  · rw [h]; exact hv

theorem set_same {α : Type} (l : List α) (i : Nat) (a : α) (h : l[i]? = some a) :
    l.set i a = l := by
  induction l generalizing i with
  | nil => rfl
  | cons b bs ih =>
    cases i with
    | zero =>
      simp only [List.getElem?_cons_zero, Option.some.injEq] at h
      rw [List.set_cons_zero, h]
    | succ n =>
      simp only [List.getElem?_cons_succ] at h
      rw [List.set_cons_succ, ih n h]

theorem set_flip_back (sol : List Int) (idx : Nat) (s : Int) (hs : sol[idx]? = some s) :
    (sol.set idx (s * -1)).set idx (s * -1 * -1) = sol := by
  rw [List.set_set]
  have : s * -1 * -1 = s := by ring
  rw [this]
  exact set_same sol idx s hs

theorem abs64_eq_abs (x : Int) : abs64 x = |x| := by
  unfold abs64
  exact Int.natCast_natAbs x

/-- What an iteration of the annealing loop leaves, case by case. -/
theorem sa_step_cases (numbers : List Int) (r : Double) (st st2 : SAState)
    (h : sa_step numbers r st = some st2) :
    ∃ idx s x, st.current_solution[idx]? = some s ∧ numbers[idx]? = some x ∧
      st2.temperature = Double.mul st.temperature r ∧
      ((st2.current_difference = st.current_difference + 2 * (s * -1) * x ∧
          st2.current_solution = st.current_solution.set idx (s * -1) ∧
          st2.solution = st.current_solution.set idx (s * -1) ∧
          ((abs64 st2.current_difference < st.best_difference ∧
              st2.best_solution = st2.solution ∧
              st2.best_difference = abs64 st2.current_difference) ∨
            (¬ abs64 st2.current_difference < st.best_difference ∧
              st2.best_solution = st.best_solution ∧
              st2.best_difference = st.best_difference))) ∨
        (st2.current_difference = st.current_difference ∧
          st2.current_solution = (st.current_solution.set idx (s * -1)).set idx (s * -1 * -1) ∧
          st2.solution = st.solution ∧ st2.best_solution = st.best_solution ∧
          st2.best_difference = st.best_difference)) := by
  unfold sa_step at h
  simp only at h
  split at h
  · rename_i s x hs hx
    refine ⟨_, s, x, hs, hx, ?_⟩
    split at h
    · split at h
      · rename_i hb
        cases Option.some.inj h
        exact ⟨rfl, Or.inl ⟨rfl, rfl, rfl, Or.inl ⟨hb, rfl, rfl⟩⟩⟩
      · rename_i hb
        cases Option.some.inj h
        exact ⟨rfl, Or.inl ⟨rfl, rfl, rfl, Or.inr ⟨hb, rfl, rfl⟩⟩⟩
    · cases Option.some.inj h
      exact ⟨rfl, Or.inr ⟨rfl, rfl, rfl, rfl, rfl⟩⟩
  · simp at h

theorem SAInv_step (numbers : List Int) (r : Double) (st st2 : SAState)
    (hi : SAInv numbers st) (h : sa_step numbers r st = some st2) : SAInv numbers st2 := by
  obtain ⟨hcs, hcd, hsigns, hlen⟩ := hi
  obtain ⟨idx, s, x, hs, hx, _, hcase⟩ := sa_step_cases numbers r st st2 h
  have hsign : s = 1 ∨ s = -1 := by
    rw [hcs] at hs
    exact hsigns s (List.getElem?_mem hs)
  rcases hcase with ⟨e1, e2, e3, _⟩ | ⟨e1, e2, e3, _, _⟩
  · refine ⟨by rw [e2, e3], ?_, ?_, ?_⟩
    · rw [e1, e3, hcs, hcd]
      rw [hcs] at hs
      rw [subset_difference_flip numbers st.solution idx s x hs hx hsign]
    · rw [e3, hcs]
      apply set_signs _ _ _ _ hsigns
      rcases hsign with h1 | h1 <;> simp [h1]
    · rw [e3, hcs]; simp [hlen]
  · refine ⟨?_, ?_, ?_, ?_⟩
    · rw [e2, e3, set_flip_back _ _ _ hs, hcs]
    · rw [e1, e3, hcd]
    · rw [e3]; exact hsigns
    · rw [e3]; exact hlen

theorem BestInv_step (numbers : List Int) (r : Double) (st st2 : SAState)
    (hi : SAInv numbers st) (hb : BestInv numbers st) (h : sa_step numbers r st = some st2) :
    BestInv numbers st2 := by
  have hi2 := SAInv_step numbers r st st2 hi h
  obtain ⟨idx, s, x, hs, hx, _, hcase⟩ := sa_step_cases numbers r st st2 h
  unfold BestInv at hb ⊢
  rcases hcase with ⟨_, _, _, hbest⟩ | ⟨_, _, _, e4, e5⟩
  · rcases hbest with ⟨_, e4, e5⟩ | ⟨_, e4, e5⟩
    · rw [e4, e5, abs64_eq_abs, hi2.2.1]
    · rw [e4, e5]; exact hb
  · rw [e4, e5]; exact hb

theorem best_step_le (numbers : List Int) (r : Double) (st st2 : SAState)
    (h : sa_step numbers r st = some st2) : st2.best_difference ≤ st.best_difference := by
  obtain ⟨idx, s, x, hs, hx, _, hcase⟩ := sa_step_cases numbers r st st2 h
  rcases hcase with ⟨_, _, _, hbest⟩ | ⟨_, _, _, _, e5⟩
  · rcases hbest with ⟨hlt, _, e5⟩ | ⟨_, _, e5⟩
    · rw [e5]; exact le_of_lt hlt
    · rw [e5]
  · rw [e5]

/-- An iteration of the annealing loop completes when there is a number and
`current_solution` has one entry per number. -/
theorem sa_step_some (numbers : List Int) (r : Double) (st : SAState) (hne : numbers ≠ [])
    (hlen : st.current_solution.length = numbers.length) :
    ∃ st2, sa_step numbers r st = some st2 ∧
      st2.current_solution.length = numbers.length ∧
      st2.temperature = Double.mul st.temperature r := by
  have hpos : 0 < numbers.length := List.length_pos.mpr hne
  obtain ⟨_, hlt, _⟩ := rcl_draw_lt numbers.length hpos st.rng
  unfold rcl_draw at hlt
  obtain ⟨s, h1⟩ : ∃ s, st.current_solution[(uniform_int_distribution 0
      (size_minus_one numbers.length) st.rng).1]? = some s :=
    ⟨_, List.getElem?_eq_getElem (by rw [hlen]; exact hlt)⟩
  obtain ⟨x, h2⟩ : ∃ x, numbers[(uniform_int_distribution 0
      (size_minus_one numbers.length) st.rng).1]? = some x :=
    ⟨_, List.getElem?_eq_getElem hlt⟩
  unfold sa_step
  simp only [h1, h2]
  split
  · split
    · exact ⟨_, rfl, by simp [hlen], rfl⟩
    · exact ⟨_, rfl, by simp [hlen], rfl⟩
  · exact ⟨_, rfl, by simp [hlen], rfl⟩

/-! ## The cooling schedule ends -/

theorem Double.toRat_scaled (d : Double) (e : Int) (he : e ≤ d.exp) :
    d.toRat = (((if d.neg then -1 else 1) * ((d.mant * 2 ^ (d.exp - e).toNat : Nat) : Int) : Int) : ℚ)
      * (2 : ℚ) ^ e := by
  have hpow : (2 : ℚ) ^ d.exp = (2 : ℚ) ^ (d.exp - e).toNat * (2 : ℚ) ^ e := by
    rw [← zpow_natCast, Int.toNat_of_nonneg (sub_nonneg.mpr he), ← zpow_add₀ (by norm_num)]
    simp
  unfold Double.toRat
  rw [hpow]
  cases d.neg <;> simp <;> try ring

theorem Double.gt_iff (a b : Double) : Double.gt a b = true ↔ b.toRat < a.toRat := by
  have ha := Double.toRat_scaled a (min a.exp b.exp) (min_le_left _ _)
  have hb := Double.toRat_scaled b (min a.exp b.exp) (min_le_right _ _)
  have hpos : (0 : ℚ) < (2 : ℚ) ^ (min a.exp b.exp) := by positivity
  rw [ha, hb, mul_lt_mul_right hpos, Int.cast_lt]
  unfold Double.gt
  simp only [decide_eq_true_eq]

theorem round53_nat_bound (m : Nat) (hk : ilog2 m - 52 ≠ 0) :
    (if m % 2 ^ (ilog2 m - 52) < 2 ^ (ilog2 m - 52 - 1) then m / 2 ^ (ilog2 m - 52)
      else if 2 ^ (ilog2 m - 52 - 1) < m % 2 ^ (ilog2 m - 52) then m / 2 ^ (ilog2 m - 52) + 1
      else if m / 2 ^ (ilog2 m - 52) % 2 = 0 then m / 2 ^ (ilog2 m - 52)
      else m / 2 ^ (ilog2 m - 52) + 1) * 2 ^ (ilog2 m - 52) * 2 ^ 53 ≤ m * 2 ^ 53 + m := by
  have hm1 : 1 ≤ m := by
    rcases Nat.eq_zero_or_pos m with h | h
    · subst h; simp [ilog2_zero] at hk
    · exact h
  have hlog := two_pow_ilog2_le m hm1
  obtain ⟨j, hj⟩ : ∃ j, ilog2 m - 52 = j + 1 := ⟨ilog2 m - 52 - 1, by omega⟩
  have hlog2 : ilog2 m = j + 1 + 52 := by omega
  rw [hj]
  simp only [Nat.add_sub_cancel]
  have hK : 2 ^ (j + 1) = 2 * 2 ^ j := by rw [pow_succ]; ring
  have hbig : 2 ^ j * 2 ^ 53 ≤ m := by
    have : 2 ^ (j + 1 + 52) = 2 ^ j * 2 ^ 53 := by
      rw [← pow_add]
    rw [← this, ← hlog2]; exact hlog
  have hdm := Nat.div_add_mod m (2 ^ (j + 1))
  have hr := Nat.mod_lt m (show 0 < 2 ^ (j + 1) by positivity)
  rw [hK] at hdm hr ⊢
  generalize 2 ^ j = H at *
  generalize m / (2 * H) = q at *
  generalize m % (2 * H) = r at *
  have key : ∀ q2 : Nat, q2 * (2 * H) ≤ m + H → q2 * (2 * H) * 2 ^ 53 ≤ m * 2 ^ 53 + m := by
    intro q2 h
    calc q2 * (2 * H) * 2 ^ 53 ≤ (m + H) * 2 ^ 53 := Nat.mul_le_mul_right _ h
      _ = m * 2 ^ 53 + H * 2 ^ 53 := by ring
      _ ≤ m * 2 ^ 53 + m := by omega
  apply key
  have e1 : (q + 1) * (2 * H) = 2 * H * q + 2 * H := by ring
  have e2 : q * (2 * H) = 2 * H * q := by ring
  split_ifs
  · rw [e2]; omega
  · rw [e1]; omega
  · rw [e2]; omega
  · rw [e1]; omega

theorem round53_le (m : Nat) (e : Int) :
    (round53 false m e).toRat ≤ (m : ℚ) * (2 : ℚ) ^ e * (1 + 1 / 2 ^ 53) := by
  have hpos : (0 : ℚ) < (2 : ℚ) ^ e := by positivity
  unfold round53
  simp only
  split
  · simp only [Double.toRat, Bool.false_eq_true, if_false, one_mul]
    have : (0 : ℚ) ≤ (m : ℚ) * 2 ^ e := by positivity
    nlinarith
  · rename_i hk
    have hb := round53_nat_bound m hk
    simp only [Double.toRat, Bool.false_eq_true, if_false, one_mul]
    have hb2 : ((if m % 2 ^ (ilog2 m - 52) < 2 ^ (ilog2 m - 52 - 1) then m / 2 ^ (ilog2 m - 52)
      else if 2 ^ (ilog2 m - 52 - 1) < m % 2 ^ (ilog2 m - 52) then m / 2 ^ (ilog2 m - 52) + 1
      else if m / 2 ^ (ilog2 m - 52) % 2 = 0 then m / 2 ^ (ilog2 m - 52)
      else m / 2 ^ (ilog2 m - 52) + 1 : Nat) : ℚ) * (2 : ℚ) ^ (ilog2 m - 52) * 2 ^ 53
        ≤ (m : ℚ) * 2 ^ 53 + m := by
      exact_mod_cast hb
    generalize (if m % 2 ^ (ilog2 m - 52) < 2 ^ (ilog2 m - 52 - 1) then m / 2 ^ (ilog2 m - 52)
      else if 2 ^ (ilog2 m - 52 - 1) < m % 2 ^ (ilog2 m - 52) then m / 2 ^ (ilog2 m - 52) + 1
      else if m / 2 ^ (ilog2 m - 52) % 2 = 0 then m / 2 ^ (ilog2 m - 52)
      else m / 2 ^ (ilog2 m - 52) + 1 : Nat) = q2 at hb2 ⊢
    have hsplit : (2 : ℚ) ^ (e + ((ilog2 m - 52 : Nat) : Int)) =
        (2 : ℚ) ^ e * (2 : ℚ) ^ (ilog2 m - 52) := by
      rw [zpow_add₀ (by norm_num), zpow_natCast]
    rw [hsplit]
    have h3 : (q2 : ℚ) * (2 : ℚ) ^ (ilog2 m - 52) ≤ (m : ℚ) * (1 + 1 / 2 ^ 53) := by
      have h53 : (0 : ℚ) < 2 ^ 53 := by positivity
      rw [show (m : ℚ) * (1 + 1 / 2 ^ 53) = ((m : ℚ) * 2 ^ 53 + m) / 2 ^ 53 by field_simp; ring]
      rw [le_div_iff₀ h53]
      exact hb2
    calc (q2 : ℚ) * ((2 : ℚ) ^ e * (2 : ℚ) ^ (ilog2 m - 52))
        = (2 : ℚ) ^ e * ((q2 : ℚ) * (2 : ℚ) ^ (ilog2 m - 52)) := by ring
      _ ≤ (2 : ℚ) ^ e * ((m : ℚ) * (1 + 1 / 2 ^ 53)) := by
          exact mul_le_mul_of_nonneg_left h3 (le_of_lt hpos)
      _ = (m : ℚ) * (2 : ℚ) ^ e * (1 + 1 / 2 ^ 53) := by ring

theorem Double.mul_le (a b : Double) (ha : a.neg = false) (hb : b.neg = false) :
    (Double.mul a b).neg = false ∧
    (Double.mul a b).toRat ≤ a.toRat * b.toRat * (1 + 1 / 2 ^ 53) := by
  have hneg : (a.neg != b.neg) = false := by rw [ha, hb]; rfl
  unfold Double.mul
  rw [hneg]
  refine ⟨round53_neg _ _ _, ?_⟩
  have h := round53_le (a.mant * b.mant) (a.exp + b.exp)
  have e : a.toRat * b.toRat = ((a.mant * b.mant : Nat) : ℚ) * (2 : ℚ) ^ (a.exp + b.exp) := by
    unfold Double.toRat
    rw [ha, hb, zpow_add₀ (by norm_num)]
    push_cast
    ring
  rw [e]
  exact h

theorem Double.toRat_nonneg_of_neg_false (d : Double) (h : d.neg = false) : 0 ≤ d.toRat := by
  unfold Double.toRat
  rw [h]
  simp only [Bool.false_eq_true, if_false, one_mul]
  positivity

theorem Double.neg_false_of_pos (d : Double) (h : 0 < d.toRat) : d.neg = false := by
  by_contra hcon
  have hneg : d.neg = true := by simpa using hcon
  unfold Double.toRat at h
  rw [hneg] at h
  simp only [if_true] at h
  have : (0 : ℚ) ≤ (d.mant : ℚ) * (2 : ℚ) ^ d.exp := by positivity
  linarith

/-- A cooling rate below one that fits the 53 bits of a double is at most `1 - 2^-53`. -/
theorem rate_le (r : Double) (hneg : r.neg = false) (hm : r.mant < 2 ^ 53) (hlt : r.toRat < 1) :
    r.toRat ≤ 1 - 1 / 2 ^ 53 := by
  unfold Double.toRat at hlt ⊢
  rw [hneg] at hlt ⊢
  simp only [Bool.false_eq_true, if_false, one_mul] at hlt ⊢
  by_cases hexp : 0 ≤ r.exp
  · have h1 : (1 : ℚ) ≤ (2 : ℚ) ^ r.exp := one_le_zpow₀ (by norm_num) hexp
    have h2 : (r.mant : ℚ) < 1 := by
      by_contra hcon
      push_neg at hcon
      have : (1 : ℚ) ≤ (r.mant : ℚ) * (2 : ℚ) ^ r.exp := by nlinarith
      linarith
    have h3 : r.mant = 0 := by
      have : r.mant < 1 := by exact_mod_cast h2
      omega
    rw [h3]
    norm_num
  · obtain ⟨j, hj⟩ : ∃ j : Nat, r.exp = -(j : Int) := ⟨(-r.exp).toNat, by omega⟩
    rw [hj, zpow_neg, zpow_natCast] at hlt ⊢
    have hA : (0 : ℚ) < (2 : ℚ) ^ j := by positivity
    have h1 : (r.mant : ℚ) < (2 : ℚ) ^ j := by
      have := mul_lt_mul_of_pos_right hlt hA
      rw [mul_assoc, inv_mul_cancel₀ (ne_of_gt hA)] at this
      simpa using this
    have h2 : r.mant < 2 ^ j := by exact_mod_cast h1
    have h3 : 2 ^ j ≤ 2 ^ 53 ∨ 2 ^ 54 ≤ 2 ^ j := by
      rcases Nat.lt_or_ge j 54 with h | h
      · left; exact Nat.pow_le_pow_right (by norm_num) (by omega)
      · right; exact Nat.pow_le_pow_right (by norm_num) h
    have h4 : r.mant * 2 ^ 53 + 2 ^ j ≤ 2 ^ j * 2 ^ 53 := by
      generalize 2 ^ j = A at h2 h3 ⊢
      omega
    have h5 : (r.mant : ℚ) * 2 ^ 53 + (2 : ℚ) ^ j ≤ (2 : ℚ) ^ j * 2 ^ 53 := by exact_mod_cast h4
    have h53 : (0 : ℚ) < 2 ^ 53 := by positivity
    rw [show (r.mant : ℚ) * ((2 : ℚ) ^ j)⁻¹ = (r.mant : ℚ) / (2 : ℚ) ^ j by ring]
    rw [div_le_iff₀ hA]
    have h6 : (1 - 1 / 2 ^ 53 : ℚ) * (2 : ℚ) ^ j = ((2 : ℚ) ^ j * 2 ^ 53 - (2 : ℚ) ^ j) / 2 ^ 53 := by
      field_simp
      ring
    rw [h6, le_div_iff₀ h53]
    linarith

theorem cooled_le (r : Double) (hneg : r.neg = false) (hr : r.toRat ≤ 1 - 1 / 2 ^ 53)
    (k : Nat) (T : Double) (hT : T.neg = false) :
    (cooled r k T).toRat ≤ T.toRat * ((1 - 1 / 2 ^ 53) * (1 + 1 / 2 ^ 53)) ^ k := by
  induction k generalizing T with
  | zero => simp [cooled]
  | succ k ih =>
    obtain ⟨h1, h2⟩ := Double.mul_le T r hT hneg
    have h3 := ih (Double.mul T r) h1
    have hT0 := Double.toRat_nonneg_of_neg_false T hT
    have hr0 := Double.toRat_nonneg_of_neg_false r hneg
    have hrho : (0 : ℚ) ≤ ((1 - 1 / 2 ^ 53) * (1 + 1 / 2 ^ 53)) ^ k := by
      apply pow_nonneg
      norm_num
    have h4 : (Double.mul T r).toRat ≤ T.toRat * ((1 - 1 / 2 ^ 53) * (1 + 1 / 2 ^ 53)) := by
      have : T.toRat * r.toRat ≤ T.toRat * (1 - 1 / 2 ^ 53) :=
        mul_le_mul_of_nonneg_left hr hT0
      have h5 : T.toRat * r.toRat * (1 + 1 / 2 ^ 53) ≤
          T.toRat * (1 - 1 / 2 ^ 53) * (1 + 1 / 2 ^ 53) :=
        mul_le_mul_of_nonneg_right this (by norm_num)
      calc (Double.mul T r).toRat ≤ T.toRat * r.toRat * (1 + 1 / 2 ^ 53) := h2
        _ ≤ T.toRat * (1 - 1 / 2 ^ 53) * (1 + 1 / 2 ^ 53) := h5
        _ = T.toRat * ((1 - 1 / 2 ^ 53) * (1 + 1 / 2 ^ 53)) := by ring
    unfold cooled
    calc (cooled r k (Double.mul T r)).toRat
        ≤ (Double.mul T r).toRat * ((1 - 1 / 2 ^ 53) * (1 + 1 / 2 ^ 53)) ^ k := h3
      _ ≤ T.toRat * ((1 - 1 / 2 ^ 53) * (1 + 1 / 2 ^ 53)) *
            ((1 - 1 / 2 ^ 53) * (1 + 1 / 2 ^ 53)) ^ k :=
          mul_le_mul_of_nonneg_right h4 hrho
      _ = T.toRat * ((1 - 1 / 2 ^ 53) * (1 + 1 / 2 ^ 53)) ^ (k + 1) := by ring

theorem eps_pos : 0 < Double.eps.toRat := by
  unfold Double.toRat Double.eps
  simp only [Bool.false_eq_true, if_false, one_mul]
  positivity

/-- For a cooling rate in `(0,1)` the temperature falls to `1e-6` or below after some number
of iterations, whatever the initial temperature. -/
theorem cooling_ends (T0 r : Double) (hr0 : 0 < r.toRat) (hr1 : r.toRat < 1)
    (hrm : r.mant < 2 ^ 53) : ∃ k, Double.gt (cooled r k T0) Double.eps = false := by
  by_cases h0 : Double.gt T0 Double.eps = true
  · have hT := (Double.gt_iff _ _).mp h0
    have hTpos : 0 < T0.toRat := lt_trans eps_pos hT
    have hTneg := Double.neg_false_of_pos T0 hTpos
    have hrneg := Double.neg_false_of_pos r hr0
    have hrate := rate_le r hrneg hrm hr1
    have hrho : ((1 - 1 / 2 ^ 53) * (1 + 1 / 2 ^ 53) : ℚ) < 1 := by norm_num
    obtain ⟨n, hn⟩ := exists_pow_lt_of_lt_one (div_pos eps_pos hTpos) hrho
    refine ⟨n, ?_⟩
    have hb := cooled_le r hrneg hrate n T0 hTneg
    have hlt : T0.toRat * ((1 - 1 / 2 ^ 53) * (1 + 1 / 2 ^ 53)) ^ n < Double.eps.toRat := by
      have := mul_lt_mul_of_pos_left hn hTpos
      rwa [mul_div_cancel₀ _ (ne_of_gt hTpos)] at this
    by_contra hcon
    have hgt : Double.gt (cooled r n T0) Double.eps = true := by simpa using hcon
    have := (Double.gt_iff _ _).mp hgt
    linarith
  · exact ⟨0, by simpa [cooled] using h0⟩

/-- With a number in the list and one entry per number, the annealing loop ends as soon as
the fuel covers the cooling schedule. -/
theorem sa_loop_total (numbers : List Int) (r : Double) (hne : numbers ≠ []) (k : Nat) :
    ∀ (st : SAState) (fuel : Nat), Double.gt (cooled r k st.temperature) Double.eps = false →
      k ≤ fuel → st.current_solution.length = numbers.length →
      ∃ st2, sa_loop numbers r fuel st = some st2 := by
  induction k with
  | zero =>
    intro st fuel hk _ _
    simp only [cooled] at hk
    cases fuel with
    | zero => exact ⟨st, by unfold sa_loop; rw [hk]; rfl⟩
    | succ f => exact ⟨st, by unfold sa_loop; rw [hk]; rfl⟩
  | succ k ih =>
    intro st fuel hk hfuel hlen
    by_cases hgt : Double.gt st.temperature Double.eps = true
    · obtain ⟨f, rfl⟩ : ∃ f, fuel = f + 1 := ⟨fuel - 1, by omega⟩
      obtain ⟨st1, hs, hl1, ht1⟩ := sa_step_some numbers r st hne hlen
      simp only [cooled] at hk
      rw [← ht1] at hk
      obtain ⟨st2, h2⟩ := ih st1 f hk (by omega) hl1
      exact ⟨st2, by unfold sa_loop; rw [if_pos hgt, hs]; exact h2⟩
    · have hgt2 : Double.gt st.temperature Double.eps = false := by simpa using hgt
      cases fuel with
      | zero => exact ⟨st, by unfold sa_loop; rw [hgt2]; rfl⟩
      | succ f => exact ⟨st, by unfold sa_loop; rw [hgt2]; rfl⟩

/-- Whenever the annealing loop ends, a property kept by every iteration holds at its end. -/
theorem sa_loop_sound (numbers : List Int) (r : Double) (P : SAState → Prop)
    (hstep : ∀ st st2, P st → sa_step numbers r st = some st2 → P st2)
    (fuel : Nat) (st st2 : SAState) (h0 : P st) (hl : sa_loop numbers r fuel st = some st2) :
    P st2 := by
  induction fuel generalizing st with
  | zero =>
    unfold sa_loop at hl
    split at hl
    · simp at hl
    · rw [← Option.some.inj hl]; exact h0
  | succ fuel ih =>
    unfold sa_loop at hl
    split at hl
    · cases hb : sa_step numbers r st with
      | none => rw [hb] at hl; simp at hl
      | some st1 =>
        rw [hb] at hl
        exact ih st1 (hstep st st1 h0 hb) hl
    · rw [← Option.some.inj hl]; exact h0

theorem sa_init_spec (numbers solution : List Int) (best_difference : Int) (rng : Oracle)
    (T0 : Double) (hlen : solution.length = numbers.length)
    (hs : ∀ s ∈ solution, s = 1 ∨ s = -1) :
    ∃ st0, sa_init numbers solution best_difference rng T0 = some st0 ∧ SAInv numbers st0 ∧
      st0.best_solution = solution ∧ st0.best_difference = best_difference ∧
      st0.temperature = T0 := by
  obtain ⟨sums, e1, e2⟩ := sum_loop_spec numbers solution 0 0 (by omega) hs
  refine ⟨_, by unfold sa_init; rw [e1], ⟨rfl, ?_, hs, hlen⟩, rfl, rfl, rfl⟩
  simp only
  rw [e2]
  ring

/-! ## Properties of the annealing -/

theorem simulated_annealing_total (numbers solution : List Int) (best_difference : Int)
    (rng : Oracle) (T0 r : Double) (hne : numbers ≠ [])
    (hlen : numbers.length ≤ solution.length)
    (k : Nat) (hk : Double.gt (cooled r k T0) Double.eps = false) (fuel : Nat) (hf : k ≤ fuel)
    (hlen2 : solution.length = numbers.length) :
    ∃ res, simulated_annealing fuel numbers solution best_difference rng T0 r = some res ∧
      res.solution.length = numbers.length := by
  obtain ⟨sums, e1⟩ := sum_loop_some numbers solution 0 0 hlen
  have hinit : sa_init numbers solution best_difference rng T0 =
      some ⟨T0, sums.1 - sums.2, solution, solution, solution, best_difference, rng⟩ := by
    unfold sa_init; rw [e1]
  obtain ⟨st2, h2⟩ := sa_loop_total numbers r hne k
    ⟨T0, sums.1 - sums.2, solution, solution, solution, best_difference, rng⟩ fuel hk hf hlen2
  have hbl := sa_loop_sound numbers r
    (fun st => st.best_solution.length = numbers.length ∧
      st.current_solution.length = numbers.length)
    (by
      intro st st3 hp hstep
      obtain ⟨idx, s, x, _, _, _, hcase⟩ := sa_step_cases numbers r st st3 hstep
      rcases hcase with ⟨_, e2, e3, hbest⟩ | ⟨_, e2, _, e4, _⟩
      · refine ⟨?_, by rw [e2]; simp [hp.2]⟩
        rcases hbest with ⟨_, e4, _⟩ | ⟨_, e4, _⟩
        · rw [e4, e3]; simp [hp.2]
        · rw [e4]; exact hp.1
      · exact ⟨by rw [e4]; exact hp.1, by rw [e2]; simp [hp.2]⟩)
    fuel _ st2 ⟨hlen2, hlen2⟩ h2
  refine ⟨⟨st2.best_solution, st2.best_difference, st2.rng⟩, ?_, hbl.1⟩
  unfold simulated_annealing
  rw [hinit]
  simp only [h2]

theorem grasp_body_spec (fuel : Nat) (numbers : List Int) (p : Params) (g g2 : GraspState)
    (h : grasp_body fuel numbers p g = some g2) :
    ∃ t, grasp_trial fuel numbers p g.rng g.ties = some t ∧
      g2.best_difference = min g.best_difference t.1.best_difference ∧
      g2.rng = t.1.rng ∧ g2.ties = t.2 := by
  unfold grasp_body at h
  cases ht : grasp_trial fuel numbers p g.rng g.ties with
  | none => rw [ht] at h; simp at h
  | some t =>
    rw [ht] at h
    simp only at h
    refine ⟨t, rfl, ?_⟩
    split at h
    · rename_i hlt
      rw [← Option.some.inj h]
      exact ⟨(min_eq_right (le_of_lt hlt)).symm, rfl, rfl⟩
    · rename_i hlt
      rw [← Option.some.inj h]
      exact ⟨(min_eq_left (not_lt.mp hlt)).symm, rfl, rfl⟩

theorem grasp_loop_spec (fuel : Nat) (numbers : List Int) (p : Params) (k : Nat)
    (g g2 : GraspState) (h : grasp_loop fuel numbers p k g = some g2) :
    ∃ ds, trial_differences fuel numbers p k g.rng g.ties = some ds ∧ ds.length = k ∧
      g2.best_difference = ds.foldl min g.best_difference := by
  induction k generalizing g with
  | zero =>
    simp only [grasp_loop, Option.some.injEq] at h
    exact ⟨[], rfl, rfl, by rw [← h]; rfl⟩
  | succ k ih =>
    unfold grasp_loop at h
    cases hb : grasp_body fuel numbers p g with
    | none => rw [hb] at h; simp at h
    | some g1 =>
      rw [hb] at h
      simp only at h
      obtain ⟨t, ht, hmin, hrng, hties⟩ := grasp_body_spec fuel numbers p g g1 hb
      obtain ⟨ds, hds, hlen, hbest⟩ := ih g1 h
      refine ⟨t.1.best_difference :: ds, ?_, by simp [hlen], ?_⟩
      · unfold trial_differences
        rw [ht]
        simp only
        rw [← hrng, ← hties, hds]
      · rw [hbest, hmin]
        rfl

theorem foldl_min_spec (ds : List Int) (b : Int) :
    ds.foldl min b ≤ b ∧ (∀ d ∈ ds, ds.foldl min b ≤ d) ∧
    (ds.foldl min b = b ∨ ds.foldl min b ∈ ds) := by
  induction ds generalizing b with
  | nil => simp
  | cons a as ih =>
    obtain ⟨h1, h2, h3⟩ := ih (min b a)
    simp only [List.foldl_cons]
    refine ⟨le_trans h1 (min_le_left _ _), ?_, ?_⟩
    · intro d hd
      rcases List.mem_cons.mp hd with rfl | hd
      · exact le_trans h1 (min_le_right _ _)
      · exact h2 d hd
    · rcases h3 with h3 | h3
      · rcases min_choice b a with hm | hm
        · left; rw [h3, hm]
        · right; rw [h3, hm]; exact List.mem_cons_self _ _
      · right; exact List.mem_cons_of_mem _ h3

theorem simulated_annealing_best_le (fuel : Nat) (numbers solution : List Int)
    (best_difference : Int) (rng : Oracle) (T0 r : Double) (res : SAResult)
    (h : simulated_annealing fuel numbers solution best_difference rng T0 r = some res) :
    res.best_difference ≤ best_difference := by
  unfold simulated_annealing at h
  cases hi : sa_init numbers solution best_difference rng T0 with
  | none => rw [hi] at h; simp at h
  | some st0 =>
    rw [hi] at h
    simp only at h
    have hb0 : st0.best_difference = best_difference := by
      unfold sa_init at hi
      cases hsum : sum_loop numbers solution 0 0 with
      | none => rw [hsum] at hi; simp at hi
      | some sums =>
        rw [hsum] at hi
        rw [← Option.some.inj hi]
    cases hl : sa_loop numbers r fuel st0 with
    | none => rw [hl] at h; simp at h
    | some st =>
      rw [hl] at h
      have := sa_loop_sound numbers r (fun s => s.best_difference ≤ best_difference)
        (fun s s2 hp hs => le_trans (best_step_le numbers r s s2 hs) hp) fuel st0 st
        (le_of_eq hb0) hl
      rw [← Option.some.inj h]
      exact this

theorem grasp_trial_total (numbers : List Int) (p : Params) (hne : numbers ≠ [])
    (ha : p.alpha.nonneg) (k : Nat)
    (hk : Double.gt (cooled p.cooling_rate k p.initial_temperature) Double.eps = false)
    (fuel : Nat) (hf1 : numbers.length ≤ fuel + 1) (hf2 : k ≤ fuel) (rng ties : Oracle) :
    ∃ t, grasp_trial fuel numbers p rng ties = some t := by
  obtain ⟨st, e, _, _, _, hres⟩ := kk_final numbers (List.replicate numbers.length 1) ha rng ties
    hne fuel hf1
  have hlen : (write_solution numbers e.components
      (resize (List.replicate numbers.length 1) numbers.length 0)).length = numbers.length := by
    rw [write_solution_length, resize_length]
  obtain ⟨res, hsa, _⟩ := simulated_annealing_total numbers _ e.value st.rng
    p.initial_temperature p.cooling_rate hne (le_of_eq hlen.symm) k hk fuel hf2 hlen
  refine ⟨(res, st.max_heap.ties.next), ?_⟩
  unfold grasp_trial
  rw [hres]
  simp only [hsa]

theorem grasp_loop_total (numbers : List Int) (p : Params) (hne : numbers ≠ [])
    (ha : p.alpha.nonneg) (k : Nat)
    (hk : Double.gt (cooled p.cooling_rate k p.initial_temperature) Double.eps = false)
    (fuel : Nat) (hf1 : numbers.length ≤ fuel + 1) (hf2 : k ≤ fuel) (n : Nat) (g : GraspState) :
    ∃ g2, grasp_loop fuel numbers p n g = some g2 := by
  induction n generalizing g with
  | zero => exact ⟨g, rfl⟩
  | succ n ih =>
    obtain ⟨t, ht⟩ := grasp_trial_total numbers p hne ha k hk fuel hf1 hf2 g.rng g.ties
    have hb : ∃ g1, grasp_body fuel numbers p g = some g1 := by
      unfold grasp_body
      rw [ht]
      simp only
      split
      · exact ⟨_, rfl⟩
      · exact ⟨_, rfl⟩
    obtain ⟨g1, hg1⟩ := hb
    obtain ⟨g2, hg2⟩ := ih g1
    exact ⟨g2, by unfold grasp_loop; rw [hg1]; exact hg2⟩

/-- C6: monotonic best-tracking.  An iteration of the annealing loop never increases
`best_difference`, so whenever `simulated_annealing` returns, `best_difference` is at most
the difference passed in; a trial of the GRASP loop never increases the global
`best_difference`; whenever the GRASP loop ends, the global best is the least of `INT64_MAX`
and the refined differences of all the trials, hence the minimum of these differences as soon
as one of them is an `int64_t` value; and for a non-empty list, `alpha` not negative and a
cooling rate in `(0,1)`, the GRASP loop does end for every fuel from some bound on. -/
theorem C6_monotonic_best (numbers : List Int) (p : Params) :
    (∀ st st2, sa_step numbers p.cooling_rate st = some st2 →
      st2.best_difference ≤ st.best_difference) ∧
    (∀ fuel solution best_difference rng res,
      simulated_annealing fuel numbers solution best_difference rng p.initial_temperature
        p.cooling_rate = some res → res.best_difference ≤ best_difference) ∧
    (∀ fuel g g2, grasp_body fuel numbers p g = some g2 →
      g2.best_difference ≤ g.best_difference) ∧
    (∀ fuel rng ties g,
      grasp_loop fuel numbers p p.iterations (grasp_init numbers rng ties) = some g →
      ∃ ds, trial_differences fuel numbers p p.iterations rng ties = some ds ∧
        ds.length = p.iterations ∧
        g.best_difference = ds.foldl min INT64_MAX ∧
        ((∃ d ∈ ds, d ≤ INT64_MAX) →
          g.best_difference ∈ ds ∧ ∀ d ∈ ds, g.best_difference ≤ d)) ∧
    (numbers ≠ [] → 0 ≤ p.alpha.toRat → 0 < p.cooling_rate.toRat → p.cooling_rate.toRat < 1 →
      p.cooling_rate.mant < 2 ^ 53 →
      ∃ N, ∀ fuel, N ≤ fuel → ∀ rng ties,
        ∃ g, grasp_loop fuel numbers p p.iterations (grasp_init numbers rng ties) = some g) := by
  refine ⟨fun st st2 h => best_step_le numbers _ st st2 h, ?_, ?_, ?_, ?_⟩
  · intro fuel solution best_difference rng res h
    exact simulated_annealing_best_le fuel numbers solution best_difference rng _ _ res h
  · intro fuel g g2 h
    obtain ⟨t, _, hmin, _⟩ := grasp_body_spec fuel numbers p g g2 h
    rw [hmin]
    exact min_le_left _ _
  · intro fuel rng ties g h
    obtain ⟨ds, hds, hlen, hbest⟩ := grasp_loop_spec fuel numbers p p.iterations _ g h
    refine ⟨ds, hds, hlen, hbest, ?_⟩
    intro ⟨d, hd, hdle⟩
    obtain ⟨h1, h2, h3⟩ := foldl_min_spec ds INT64_MAX
    have hb2 : g.best_difference = ds.foldl min INT64_MAX := hbest
    rw [hb2]
    refine ⟨?_, h2⟩
    rcases h3 with h3 | h3
    · have h4 := h2 d hd
      have h5 : d = ds.foldl min INT64_MAX := by rw [h3] at h4 ⊢; omega
      rw [← h5]
      exact hd
    · exact h3
  · intro hne ha hr0 hr1 hrm
    obtain ⟨k, hk⟩ := cooling_ends p.initial_temperature p.cooling_rate hr0 hr1 hrm
    refine ⟨numbers.length + k, ?_⟩
    intro fuel hf rng ties
    exact grasp_loop_total numbers p hne (Double.nonneg_of_toRat ha) k hk fuel (by omega)
      (by omega) p.iterations _

/-- C2, evaluation at the failing input: on `[1,1,1]` (one trial, `alpha = 0`, initial
temperature `1.0`, cooling rate `0.5`; and again with `alpha = 1.0`, three trials and other
draws) the tracked `best_difference` is `1` while the assignment left in `best_solution` is
`[1,1,1]`, whose subsets sum to `3` and `0`: the difference printed is `3`. -/
theorem C2_duplicates_evaluation :
    (run 25 [1, 1, 1] ⟨Double.zero, 1, Double.one, ⟨false, 1, -1⟩⟩ (constOracle 0)
        (constOracle 0)).map
      (fun r => (r.best_difference, r.best_solution, r.sum1, r.sum2, r.printed_difference)) =
      some (1, [1, 1, 1], 3, 0, 3) ∧
    (run 25 [1, 1, 1] ⟨Double.one, 3, Double.one, ⟨false, 1, -1⟩⟩ ⟨fun i => i * i + 1, 0⟩
        (constOracle 1)).map
      (fun r => (r.best_difference, r.best_solution, r.sum1, r.sum2, r.printed_difference)) =
      some (1, [1, 1, 1], 3, 0, 3) := by
  constructor <;> decide

/-! ## The element rule, termination and bounds of the constructor -/

theorem kk_loop_none_of_small_fuel (alpha : Double) (fuel : Nat) (st : KKState)
    (h : fuel + 1 < st.max_heap.size) : kk_loop alpha fuel st = none := by
  induction fuel generalizing st with
  | zero =>
    unfold kk_loop
    rw [if_pos (by omega)]
  | succ fuel ih =>
    unfold kk_loop
    rw [if_pos (by omega)]
    cases hb : kk_body alpha st with
    | none => rfl
    | some st1 =>
      obtain ⟨loc, idx, second, f⟩ := kk_body_inv alpha st st1 (by omega) hb
      have := f.size_after
      exact ih st1 (by omega)

theorem kk_after_none_of_large (alpha : Double) (st0 st : KKState) (j : Nat)
    (hj : kk_after alpha j st0 = some st) (hs : st.max_heap.size ≤ 1) (k : Nat) (hk : j < k) :
    kk_after alpha k st0 = none := by
  obtain ⟨e, rfl⟩ : ∃ e, k = j + 1 + e := ⟨k - (j + 1), by omega⟩
  induction e with
  | zero =>
    show kk_after alpha (j + 1) st0 = none
    unfold kk_after
    rw [hj]
    simp only
    rw [if_neg (by omega)]
  | succ e ihe =>
    show kk_after alpha (j + 1 + e + 1) st0 = none
    unfold kk_after
    rw [ihe (by omega)]

theorem kk_loop_after_add (alpha : Double) (st0 : KKState) (n : Nat) :
    ∀ (s1 s2 : KKState), kk_after alpha n st0 = some s1 →
      ∀ f, kk_loop alpha f s1 = some s2 → kk_loop alpha (n + f) st0 = some s2 := by
  induction n with
  | zero =>
    intro s1 s2 h1 f hl
    simp only [kk_after, Option.some.injEq] at h1
    subst h1
    simpa using hl
  | succ n ihn =>
    intro s1 s2 h1 f hl
    unfold kk_after at h1
    cases hp : kk_after alpha n st0 with
    | none => rw [hp] at h1; simp at h1
    | some sp =>
      rw [hp] at h1
      simp only at h1
      by_cases hsz : sp.max_heap.size > 1
      · rw [if_pos hsz] at h1
        have hl2 : kk_loop alpha (f + 1) sp = some s2 := by
          unfold kk_loop
          rw [if_pos hsz, h1]
          exact hl
        have := ihn sp s2 hp (f + 1) hl2
        rw [show n + 1 + f = n + (f + 1) by omega]
        exact this
      · rw [if_neg hsz] at h1
        simp at h1

/-- The loop and the iteration count agree: a state reached after `j` iterations with at most
one element left is what the loop returns for any fuel of at least `j`. -/
theorem kk_loop_of_after (alpha : Double) (j : Nat) (st0 st : KKState)
    (hk : kk_after alpha j st0 = some st) (hs : st.max_heap.size ≤ 1) (fuel : Nat)
    (hf : j ≤ fuel) : kk_loop alpha fuel st0 = some st := by
  have hlast : kk_loop alpha (fuel - j) st = some st := by
    cases hfu : fuel - j with
    | zero => unfold kk_loop; rw [if_neg (by omega)]
    | succ f => unfold kk_loop; rw [if_neg (by omega)]
  have := kk_loop_after_add alpha st0 j st st hk (fuel - j) hlast
  rw [show j + (fuel - j) = fuel by omega] at this
  exact this

theorem kk_after_sizes {alpha : Double} (ha : alpha.nonneg) (st0 : KKState) (k : Nat)
    (hk : k + 1 ≤ st0.max_heap.size) :
    ∃ st, kk_after alpha k st0 = some st ∧ st.max_heap.size + k = st0.max_heap.size := by
  induction k with
  | zero => exact ⟨st0, rfl, rfl⟩
  | succ k ih =>
    obtain ⟨st1, h1, hs1⟩ := ih (by omega)
    have hsz : 2 ≤ st1.max_heap.size := by omega
    obtain ⟨st2, hb⟩ := kk_body_some ha st1 hsz
    obtain ⟨loc, idx, second, f⟩ := kk_body_inv alpha st1 st2 hsz hb
    have := f.size_after
    refine ⟨st2, ?_, by omega⟩
    unfold kk_after
    rw [h1]
    simp only
    rw [if_pos (by omega), hb]

/-- The combine loop in `ℤ` terminates.  For a list of `n >= 1` numbers, `alpha` in `[0,1]`, any
random stream and any order of the heap among equal values: each iteration leaves exactly
one element less; after `k <= n - 1` iterations `n - k` elements are held; the loop runs
exactly `n - 1` times (the state after `n - 1` iterations has one element and there is no
further iteration); the loop returns that state for every fuel of at least `n - 1` and runs
out of fuel below that. -/
theorem combine_loop_terminates_ideal (numbers : List Int) (alpha : Double) (rng ties : Oracle)
    (hne : numbers ≠ []) (ha0 : 0 ≤ alpha.toRat) (_ha1 : alpha.toRat ≤ 1) :
    (∀ st st2, 2 ≤ st.max_heap.size → kk_body alpha st = some st2 →
      st2.max_heap.size + 1 = st.max_heap.size) ∧
    (∀ k, k + 1 ≤ numbers.length →
      ∃ st, kk_after alpha k ⟨kk_init numbers ties, rng⟩ = some st ∧
        st.max_heap.size + k = numbers.length) ∧
    (∃ st, kk_after alpha (numbers.length - 1) ⟨kk_init numbers ties, rng⟩ = some st ∧
      st.max_heap.size = 1 ∧
      (∀ k, numbers.length ≤ k → kk_after alpha k ⟨kk_init numbers ties, rng⟩ = none) ∧
      (∀ fuel, numbers.length ≤ fuel + 1 →
        kk_loop alpha fuel ⟨kk_init numbers ties, rng⟩ = some st)) ∧
    (∀ fuel, fuel + 1 < numbers.length →
      kk_loop alpha fuel ⟨kk_init numbers ties, rng⟩ = none) := by
  have ha := Double.nonneg_of_toRat ha0
  obtain ⟨h1, _⟩ := kk_init_elems numbers ties
  have hsize : (⟨kk_init numbers ties, rng⟩ : KKState).max_heap.size = numbers.length := by
    simp [PriorityQueue.size, h1]
  have hpos : 0 < numbers.length := List.length_pos.mpr hne
  refine ⟨?_, ?_, ?_, ?_⟩
  · intro st st2 hsz hb
    obtain ⟨loc, idx, second, f⟩ := kk_body_inv alpha st st2 hsz hb
    exact f.size_after
  · intro k hk
    obtain ⟨st, h2, h3⟩ := kk_after_sizes ha ⟨kk_init numbers ties, rng⟩ k (by rw [hsize]; exact hk)
    exact ⟨st, h2, by rw [hsize] at h3; exact h3⟩
  · obtain ⟨st, h2, h3⟩ := kk_after_sizes ha ⟨kk_init numbers ties, rng⟩ (numbers.length - 1)
      (by rw [hsize]; omega)
    rw [hsize] at h3
    have hone : st.max_heap.size = 1 := by omega
    refine ⟨st, h2, hone, ?_, ?_⟩
    · intro k hk
      exact kk_after_none_of_large alpha _ st _ h2 (by omega) k (by omega)
    · intro fuel hf
      exact kk_loop_of_after alpha _ _ st h2 (by omega) fuel (by omega)
  · intro fuel hf
    exact kk_loop_none_of_small_fuel alpha fuel _ (by rw [hsize]; exact hf)

/-- C19: the value of an element is the signed sum of its components.  For every input list,
every `alpha`, every random stream and every order of the heap among equal values: every
element held after any number of iterations of the combine loop (the leaves, and every
element built since) has `value` equal to the sum of `sign * original_value` over its
components; and at each combine step `second.value <= largest.value`, so `std::abs` changes
nothing and the element built has value `largest.value - second.value`. -/
theorem C19_value_is_signed_sum (numbers : List Int) (alpha : Double) (rng ties : Oracle) :
    ∀ k st, kk_after alpha k ⟨kk_init numbers ties, rng⟩ = some st →
      (∀ e ∈ st.max_heap.elems, e.value = comp_sum e.components) ∧
      (∀ st2, 2 ≤ st.max_heap.size → kk_body alpha st = some st2 →
        ∃ loc idx second,
          kk_locals alpha st.max_heap = some loc ∧
          idx = (rcl_draw loc.rcl.length st.rng).1 ∧
          loc.rcl[idx]? = some second ∧
          second.value ≤ loc.largest.value ∧
          abs64 (loc.largest.value - second.value) = loc.largest.value - second.value ∧
          st2.max_heap.elems = loc.temp_elements.eraseIdx idx ++
            [Element.combine (loc.largest.value - second.value) loc.largest second] ∧
          (∀ e ∈ st2.max_heap.elems, e.value = comp_sum e.components)) := by
  intro k st hk
  obtain ⟨h1, _⟩ := kk_init_elems numbers ties
  have hinit : ValInv (⟨kk_init numbers ties, rng⟩ : KKState).max_heap.elems := by
    simp only [h1]; exact ValInv_init numbers
  have hstep : ∀ s s2 : KKState, 2 ≤ s.max_heap.size → ValInv s.max_heap.elems →
      kk_body alpha s = some s2 → ValInv s2.max_heap.elems := by
    intro s s2 hsz hv hb
    obtain ⟨loc, idx, second, f⟩ := kk_body_inv alpha s s2 hsz hb
    exact ValInv_step f hv
  have hinv : ValInv st.max_heap.elems :=
    kk_after_induction alpha (fun s => ValInv s.max_heap.elems) hstep k _ st hinit hk
  refine ⟨hinv, ?_⟩
  intro st2 hsz hb
  obtain ⟨loc, idx, second, f⟩ := kk_body_inv alpha st st2 hsz hb
  refine ⟨loc, idx, second, f.locals, f.idx_eq, f.get_rcl, f.second_le, f.difference_eq, ?_,
    ValInv_step f hinv⟩
  rw [f.elems, f.difference_eq]

theorem C19_value_is_signed_sum_witness :
    kk_after Double.one 0 ⟨kk_init [8, 7, 6, 5, 4] (constOracle 0), constOracle 1⟩ =
      some ⟨kk_init [8, 7, 6, 5, 4] (constOracle 0), constOracle 1⟩ ∧
    ∀ e ∈ (⟨kk_init [8, 7, 6, 5, 4] (constOracle 0), constOracle 1⟩ : KKState).max_heap.elems,
      e.value = comp_sum e.components :=
  ⟨rfl, (C19_value_is_signed_sum [8, 7, 6, 5, 4] Double.one (constOracle 1) (constOracle 0) 0
    ⟨kk_init [8, 7, 6, 5, 4] (constOracle 0), constOracle 1⟩ rfl).1⟩

theorem foldl_max_ge (xs : List Int) (x : Int) :
    x ≤ xs.foldl max x ∧ ∀ y ∈ xs, y ≤ xs.foldl max x := by
  induction xs generalizing x with
  | nil => simp
  | cons a as ih =>
    obtain ⟨h1, h2⟩ := ih (max x a)
    simp only [List.foldl_cons]
    refine ⟨le_trans (le_max_left _ _) h1, ?_⟩
    intro y hy
    rcases List.mem_cons.mp hy with rfl | hy
    · exact le_trans (le_max_right _ _) h1
    · exact h2 y hy

theorem le_maximum_number (numbers : List Int) : ∀ x ∈ numbers, x ≤ maximum_number numbers := by
  intro x hx
  cases numbers with
  | nil => simp at hx
  | cons a as =>
    obtain ⟨h1, h2⟩ := foldl_max_ge as a
    rcases List.mem_cons.mp hx with rfl | hx
    · exact h1
    · exact h2 x hx

theorem foldl_max_mem (xs : List Int) (x : Int) : xs.foldl max x = x ∨ xs.foldl max x ∈ xs := by
  induction xs generalizing x with
  | nil => left; rfl
  | cons a as ih =>
    simp only [List.foldl_cons]
    rcases ih (max x a) with h | h
    · rcases max_choice x a with hm | hm
      · left; rw [h, hm]
      · right; rw [h, hm]; exact List.mem_cons_self _ _
    · right; exact List.mem_cons_of_mem _ h

theorem maximum_number_mem (numbers : List Int) (hne : numbers ≠ []) :
    maximum_number numbers ∈ numbers := by
  cases numbers with
  | nil => exact absurd rfl hne
  | cons a as =>
    rcases foldl_max_mem as a with h | h
    · show as.foldl max a ∈ a :: as
      rw [h]; exact List.mem_cons_self _ _
    · exact List.mem_cons_of_mem _ h

theorem BoundInv_step (bound : Int) (alpha : Double) (st st2 : KKState)
    (hsz : 2 ≤ st.max_heap.size) (hi : BoundInv bound st) (hb : kk_body alpha st = some st2) :
    BoundInv bound st2 := by
  obtain ⟨loc, idx, second, f⟩ := kk_body_inv alpha st st2 hsz hb
  intro e he
  have hbefore := f.perm_before
  rcases List.mem_cons.mp (f.perm_after.subset he) with rfl | he
  · have hl := hi loc.largest (hbefore.symm.subset (List.mem_cons_self _ _))
    have hs := hi second (hbefore.symm.subset (List.mem_cons_of_mem _ (List.mem_cons_self _ _)))
    have hle := f.second_le
    simp only [Element.combine]
    omega
  · exact hi e (hbefore.symm.subset (List.mem_cons_of_mem _ (List.mem_cons_of_mem _ he)))

/-- C20: the values stay within the input range.  For a non-empty list of non-negative
numbers, `alpha` in `[0,1]`, any random stream and any order of the heap among equal values:
every value held in the heap after any number of iterations of the combine loop lies between
`0` and the greatest input number (which is one of the numbers), and with enough fuel
`karmarkar_karp_with_grasp` returns a value in that range. -/
theorem C20_values_in_input_range (numbers solution : List Int) (alpha : Double)
    (rng ties : Oracle) (hne : numbers ≠ []) (hpos : ∀ x ∈ numbers, 0 ≤ x)
    (ha0 : 0 ≤ alpha.toRat) (_ha1 : alpha.toRat ≤ 1) :
    maximum_number numbers ∈ numbers ∧
    (∀ x ∈ numbers, x ≤ maximum_number numbers) ∧
    (∀ k st, kk_after alpha k ⟨kk_init numbers ties, rng⟩ = some st →
      ∀ e ∈ st.max_heap.elems, 0 ≤ e.value ∧ e.value ≤ maximum_number numbers) ∧
    (∀ fuel, numbers.length ≤ fuel + 1 →
      ∃ r, karmarkar_karp_with_grasp fuel numbers solution alpha rng ties = some r ∧
        0 ≤ r.value ∧ r.value ≤ maximum_number numbers) := by
  obtain ⟨h1, _⟩ := kk_init_elems numbers ties
  have hinit : BoundInv (maximum_number numbers) ⟨kk_init numbers ties, rng⟩ := by
    intro e he
    simp only [h1] at he
    obtain ⟨v, hv, rfl⟩ := List.mem_map.mp he
    exact ⟨hpos v hv, le_maximum_number numbers v hv⟩
  refine ⟨maximum_number_mem numbers hne, le_maximum_number numbers, ?_, ?_⟩
  · intro k st hk
    exact kk_after_induction alpha (BoundInv (maximum_number numbers))
      (BoundInv_step _ alpha) k _ st hinit hk
  · intro fuel hf
    obtain ⟨st, e, hl, he, _, hres⟩ := kk_final numbers solution
      (Double.nonneg_of_toRat ha0) rng ties hne fuel hf
    have hb := (kk_loop_sound alpha (BoundInv (maximum_number numbers))
      (BoundInv_step _ alpha) fuel _ st hinit hl).2
    have := hb e (by rw [he]; exact List.mem_singleton_self e)
    exact ⟨_, hres, this.1, this.2⟩

theorem C20_values_in_input_range_witness :
    ([8, 7, 6, 5, 4] : List Int) ≠ [] ∧
    ∃ r, karmarkar_karp_with_grasp 4 [8, 7, 6, 5, 4] [] Double.one (constOracle 2)
        (constOracle 0) = some r ∧
      0 ≤ r.value ∧ r.value ≤ maximum_number [8, 7, 6, 5, 4] :=
  ⟨by decide, (C20_values_in_input_range [8, 7, 6, 5, 4] [] Double.one (constOracle 2)
    (constOracle 0) (by decide) (by decide) (by norm_num [Double.toRat, Double.one])
    (by norm_num [Double.toRat, Double.one])).2.2.2 4 (by decide)⟩

/-! ## A rejected step, and the annealing that does not start -/

/-- C18: a rejected annealing step changes nothing but the temperature (and the position of
the random stream).  Whenever an iteration completes, its tentative move is defined; if the
acceptance test of that move is false then `current_solution`, `solution`,
`current_difference`, `best_difference` and `best_solution` are what they were before the
step, and the temperature is multiplied by the cooling rate; if `delta < 0` the move is
accepted, whatever the temperature and the draws, and the flip is committed; the test is
`delta < 0 || exp-comparison`, true for every negative `delta` without any draw; and an
iteration does complete whenever there is a number and one entry per number. -/
theorem C18_rejected_step_frame (numbers : List Int) (cooling_rate : Double) :
    (∀ st st2, sa_step numbers cooling_rate st = some st2 →
      ∃ m, sa_move numbers st = some m ∧
        st2.temperature = Double.mul st.temperature cooling_rate ∧
        (m.accepted = false →
          st2.current_solution = st.current_solution ∧ st2.solution = st.solution ∧
          st2.current_difference = st.current_difference ∧
          st2.best_difference = st.best_difference ∧
          st2.best_solution = st.best_solution) ∧
        (m.delta < 0 →
          m.accepted = true ∧ st2.current_difference = m.new_difference ∧
          st2.current_solution = st.current_solution.set m.idx (m.sign * -1) ∧
          st2.solution = st.current_solution.set m.idx (m.sign * -1))) ∧
    (∀ (delta : Int) (temperature : Double) (rng : Oracle), delta < 0 →
      accept delta temperature rng = (true, rng)) ∧
    (∀ st, numbers ≠ [] → st.current_solution.length = numbers.length →
      ∃ st2, sa_step numbers cooling_rate st = some st2) := by
  refine ⟨?_, ?_, ?_⟩
  · intro st st2 h
    unfold sa_step at h
    unfold sa_move
    simp only at h ⊢
    split at h
    · rename_i s x hs hx
      refine ⟨_, rfl, ?_, ?_, ?_⟩
      · split at h
        · split at h <;> (rw [← Option.some.inj h])
        · rw [← Option.some.inj h]
      · intro hrej
        simp only at hrej
        rw [hrej] at h
        simp only [Bool.false_eq_true, if_false] at h
        rw [← Option.some.inj h]
        exact ⟨set_flip_back _ _ _ hs, rfl, rfl, rfl, rfl⟩
      · intro hneg
        simp only at hneg
        have hacc : (accept (abs64 (st.current_difference + 2 * (s * -1) * x) -
            abs64 st.current_difference) st.temperature
            (uniform_int_distribution 0 (size_minus_one numbers.length) st.rng).2).1 = true := by
          unfold accept
          rw [if_pos hneg]
        refine ⟨hacc, ?_⟩
        rw [hacc] at h
        simp only [if_true] at h
        split at h
        · rw [← Option.some.inj h]
          exact ⟨rfl, rfl, rfl⟩
        · rw [← Option.some.inj h]
          exact ⟨rfl, rfl, rfl⟩
    · simp at h
  · intro delta temperature rng h
    unfold accept
    rw [if_pos h]
  · intro st hne hlen
    obtain ⟨st2, h, _⟩ := sa_step_some numbers cooling_rate st hne hlen
    exact ⟨st2, h⟩

theorem C18_rejected_step_frame_witness :
    ∃ st2, sa_step [8, 7, 6, 5, 4] ⟨false, 1, -1⟩
      ⟨Double.one, 4, [1, -1, -1, 1, 1], [1, -1, -1, 1, 1], [1, -1, -1, 1, 1], 4,
        constOracle 0⟩ = some st2 :=
  (C18_rejected_step_frame [8, 7, 6, 5, 4] ⟨false, 1, -1⟩).2.2
    ⟨Double.one, 4, [1, -1, -1, 1, 1], [1, -1, -1, 1, 1], [1, -1, -1, 1, 1], 4,
      constOracle 0⟩ (by decide) (by decide)

theorem eps_toRat : Double.eps.toRat = 4722366482869645 * (2 : ℚ) ^ (-72 : Int) := by
  simp [Double.toRat, Double.eps]

/-- A double that is at most the real number `10^-6` is at most the double `1e-6`: no double
lies between the two. -/
theorem le_eps_of_le_micro (T : Double) (hbin : T.mant < 2 ^ 53) (h : T.toRat ≤ 1 / 10 ^ 6) :
    T.toRat ≤ Double.eps.toRat := by
  have hp72 : (0 : ℚ) < (2 : ℚ) ^ (-72 : Int) := by positivity
  by_cases hneg : T.neg = true
  · have h0 : T.toRat ≤ 0 := by
      unfold Double.toRat
      rw [hneg]
      simp only [if_true]
      have : (0 : ℚ) ≤ (T.mant : ℚ) * (2 : ℚ) ^ T.exp := by positivity
      linarith
    exact le_trans h0 (le_of_lt eps_pos)
  · have hneg2 : T.neg = false := by simpa using hneg
    rw [eps_toRat]
    unfold Double.toRat at h ⊢
    rw [hneg2] at h ⊢
    simp only [Bool.false_eq_true, if_false, one_mul] at h ⊢
    by_cases he : -72 ≤ T.exp
    · obtain ⟨j, hj⟩ : ∃ j : Nat, T.exp = (j : Int) + (-72) := ⟨(T.exp + 72).toNat, by omega⟩
      have hpow : (2 : ℚ) ^ T.exp = (2 : ℚ) ^ j * (2 : ℚ) ^ (-72 : Int) := by
        rw [hj, zpow_add₀ (by norm_num), zpow_natCast]
      rw [hpow] at h ⊢
      have h72 : (2 : ℚ) ^ (-72 : Int) = 1 / 2 ^ 72 := by
        rw [zpow_neg]
        norm_num
      have h1 : ((T.mant * 2 ^ j : Nat) : ℚ) * 10 ^ 6 ≤ 2 ^ 72 := by
        rw [h72] at h
        have h2 : (T.mant : ℚ) * ((2 : ℚ) ^ j * (1 / 2 ^ 72)) =
            ((T.mant : ℚ) * (2 : ℚ) ^ j) / 2 ^ 72 := by ring
        rw [h2, div_le_div_iff₀ (by positivity) (by positivity)] at h
        push_cast
        linarith
      have h3 : (T.mant * 2 ^ j) * 10 ^ 6 ≤ 2 ^ 72 := by exact_mod_cast h1
      have h4 : T.mant * 2 ^ j ≤ 4722366482869645 := by omega
      have h5 : ((T.mant * 2 ^ j : Nat) : ℚ) ≤ 4722366482869645 := by exact_mod_cast h4
      push_cast at h5
      calc (T.mant : ℚ) * ((2 : ℚ) ^ j * (2 : ℚ) ^ (-72 : Int))
          = ((T.mant : ℚ) * (2 : ℚ) ^ j) * (2 : ℚ) ^ (-72 : Int) := by ring
        _ ≤ 4722366482869645 * (2 : ℚ) ^ (-72 : Int) :=
            mul_le_mul_of_nonneg_right h5 (le_of_lt hp72)
    · have he2 : T.exp ≤ -73 := by omega
      have hpow : (2 : ℚ) ^ T.exp ≤ (2 : ℚ) ^ (-73 : Int) :=
        zpow_le_zpow_right₀ (by norm_num) he2
      have hm : (T.mant : ℚ) ≤ 2 ^ 53 := by
        have : T.mant ≤ 2 ^ 53 := le_of_lt hbin
        exact_mod_cast this
      have h73 : (2 : ℚ) ^ (-73 : Int) = (2 : ℚ) ^ (-72 : Int) / 2 := by
        rw [show (-73 : Int) = -72 + -1 by norm_num, zpow_add₀ (by norm_num)]
        norm_num
      calc (T.mant : ℚ) * (2 : ℚ) ^ T.exp ≤ (T.mant : ℚ) * (2 : ℚ) ^ (-73 : Int) :=
            mul_le_mul_of_nonneg_left hpow (by positivity)
        _ ≤ 2 ^ 53 * (2 : ℚ) ^ (-73 : Int) := mul_le_mul_of_nonneg_right hm (by positivity)
        _ = 4503599627370496 * (2 : ℚ) ^ (-72 : Int) := by rw [h73]; norm_num
        _ ≤ 4722366482869645 * (2 : ℚ) ^ (-72 : Int) :=
            mul_le_mul_of_nonneg_right (by norm_num) (le_of_lt hp72)

theorem not_gt_eps_of_le_micro (T : Double) (hbin : T.mant < 2 ^ 53)
    (h : T.toRat ≤ 1 / 10 ^ 6) : Double.gt T Double.eps = false := by
  have h1 := le_eps_of_le_micro T hbin h
  by_contra hcon
  have hgt : Double.gt T Double.eps = true := by simpa using hcon
  have := (Double.gt_iff _ _).mp hgt
  linarith

theorem sa_loop_of_not_gt (numbers : List Int) (r : Double) (fuel : Nat) (st : SAState)
    (h : Double.gt st.temperature Double.eps = false) : sa_loop numbers r fuel st = some st := by
  cases fuel with
  | zero => unfold sa_loop; rw [h]; rfl
  | succ f => unfold sa_loop; rw [h]; rfl

theorem kk_solution_length (fuel : Nat) (numbers solution : List Int) (alpha : Double)
    (rng ties : Oracle) (kk : KKResult)
    (h : karmarkar_karp_with_grasp fuel numbers solution alpha rng ties = some kk) :
    kk.solution.length = numbers.length := by
  unfold karmarkar_karp_with_grasp at h
  cases hl : kk_loop alpha fuel ⟨kk_init numbers ties, rng⟩ with
  | none => rw [hl] at h; simp at h
  | some st =>
    rw [hl] at h
    simp only at h
    cases ht : st.max_heap.top with
    | none => rw [ht] at h; simp at h
    | some e =>
      cases hp : st.max_heap.pop with
      | none => rw [ht, hp] at h; simp at h
      | some q =>
        rw [ht, hp] at h
        simp only at h
        rw [← Option.some.inj h]
        simp only [write_solution_length, resize_length]

/-- When the initial temperature is a double of at most `10^-6`, `simulated_annealing` performs
no step and consumes no draw: for every fuel it returns the assignment, `best_difference` and
the random stream exactly as passed in (the assignment having an entry for every number), so
a trial returns exactly what `karmarkar_karp_with_grasp` produces. -/
theorem sa_no_step_below_threshold (numbers solution : List Int) (best_difference : Int)
    (rng : Oracle) (T0 r : Double) (hbin : T0.mant < 2 ^ 53) (hT : T0.toRat ≤ 1 / 10 ^ 6)
    (hlen : numbers.length ≤ solution.length) :
    (∀ fuel, simulated_annealing fuel numbers solution best_difference rng T0 r =
      some ⟨solution, best_difference, rng⟩) ∧
    (∃ st0, sa_init numbers solution best_difference rng T0 = some st0 ∧
      sa_after numbers r 1 st0 = none) ∧
    (∀ fuel alpha iterations ties,
      grasp_trial fuel numbers ⟨alpha, iterations, T0, r⟩ rng ties =
        (karmarkar_karp_with_grasp fuel numbers (List.replicate numbers.length 1) alpha rng
          ties).map (fun kk => (⟨kk.solution, kk.value, kk.rng⟩, kk.ties))) := by
  have hgt := not_gt_eps_of_le_micro T0 hbin hT
  have hsa : ∀ (sol : List Int) (best : Int) (g : Oracle) (fuel : Nat),
      numbers.length ≤ sol.length →
      simulated_annealing fuel numbers sol best g T0 r = some ⟨sol, best, g⟩ := by
    intro sol best g fuel hl
    obtain ⟨sums, e1⟩ := sum_loop_some numbers sol 0 0 hl
    have hl2 := sa_loop_of_not_gt numbers r fuel
      ⟨T0, sums.1 - sums.2, sol, sol, sol, best, g⟩ hgt
    unfold simulated_annealing sa_init
    rw [e1]
    simp only
    rw [hl2]
  refine ⟨fun fuel => hsa solution best_difference rng fuel hlen, ?_, ?_⟩
  · obtain ⟨sums, e1⟩ := sum_loop_some numbers solution 0 0 hlen
    refine ⟨_, by unfold sa_init; rw [e1], ?_⟩
    simp only [sa_after]
    rw [hgt]
    simp
  · intro fuel alpha iterations ties
    unfold grasp_trial
    cases hkk : karmarkar_karp_with_grasp fuel numbers (List.replicate numbers.length 1) alpha
        rng ties with
    | none => rfl
    | some kk =>
      simp only [Option.map_some']
      have hl : numbers.length ≤ kk.solution.length :=
        le_of_eq (kk_solution_length fuel numbers _ alpha rng ties kk hkk).symm
      rw [hsa kk.solution kk.value kk.rng fuel hl]

/-- C15, evaluation at the failing input: on `[2^63 - 2, -1]` with `alpha = 0`, one trial, an
initial temperature `2^-20 <= 1e-6` and cooling rate `0.5`, the constructor returns the
difference `2^63 - 1 = INT64_MAX` with the assignment `[+1, -1]`, and the annealing returns
them unchanged; but `main` keeps the trial only if its difference is below `INT64_MAX`, so it
is left with `best_solution = [+1, +1]`, whose subsets sum to `2^63 - 3` and `0`. -/
theorem C15_sentinel_evaluation :
    (karmarkar_karp_with_grasp 5 [9223372036854775806, -1] [1, 1] Double.zero (constOracle 0)
        (constOracle 0)).map (fun kk => (kk.value, kk.solution)) =
      some (9223372036854775807, [1, -1]) ∧
    (grasp_trial 5 [9223372036854775806, -1] ⟨Double.zero, 1, ⟨false, 1, -20⟩, ⟨false, 1, -1⟩⟩
        (constOracle 0) (constOracle 0)).map
      (fun t => (t.1.best_difference, t.1.solution)) =
      some (9223372036854775807, [1, -1]) ∧
    (run 5 [9223372036854775806, -1] ⟨Double.zero, 1, ⟨false, 1, -20⟩, ⟨false, 1, -1⟩⟩
        (constOracle 0) (constOracle 0)).map
      (fun rep => (rep.best_difference, rep.best_solution, rep.sum1, rep.sum2,
        rep.printed_difference)) =
      some (9223372036854775807, [1, 1], 9223372036854775805, 0, 9223372036854775805) := by
  refine ⟨?_, ?_, ?_⟩ <;> decide

/-! ## More facts about binary64: truncation, and rounding from below -/

/-- The conversion to `int64_t` of a double that is not negative is the floor of its value. -/
theorem Double.toInt_eq_floor (d : Double) (h : d.neg = false) : d.toInt = ⌊d.toRat⌋ := by
  unfold Double.toInt Double.toRat
  rw [h]
  simp only [Bool.false_eq_true, if_false, one_mul]
  by_cases he : 0 ≤ d.exp
  · rw [if_pos he]
    obtain ⟨j, hj⟩ : ∃ j : Nat, d.exp = (j : Int) := ⟨d.exp.toNat, by omega⟩
    rw [hj, zpow_natCast]
    simp only [Int.toNat_ofNat]
    have : ((d.mant : ℚ) * (2 : ℚ) ^ j) = ((d.mant * 2 ^ j : Nat) : ℚ) := by push_cast; ring
    rw [this]
    exact (Int.floor_natCast _).symm
  · rw [if_neg he]
    obtain ⟨j, hj⟩ : ∃ j : Nat, d.exp = -(j : Int) := ⟨(-d.exp).toNat, by omega⟩
    rw [hj, zpow_neg, zpow_natCast]
    simp only [neg_neg, Int.toNat_ofNat]
    have : ((d.mant : ℚ) * ((2 : ℚ) ^ j)⁻¹) = ((d.mant : ℚ) / ((2 ^ j : Nat) : ℚ)) := by
      push_cast; ring
    rw [this, Rat.floor_natCast_div_natCast]
    push_cast
    rfl

theorem Double.le_toInt (d : Double) (h : d.neg = false) (z : Int) (hz : (z : ℚ) ≤ d.toRat) :
    z ≤ d.toInt := by
  rw [Double.toInt_eq_floor d h]
  exact Int.le_floor.mpr hz

theorem round53_mant_ge (neg : Bool) (m : Nat) (e : Int) (hk : ilog2 m - 52 ≠ 0) :
    2 ^ 52 ≤ m / 2 ^ (ilog2 m - 52) ∧ m / 2 ^ (ilog2 m - 52) ≤ (round53 neg m e).mant ∧
    (round53 neg m e).mant ≤ m / 2 ^ (ilog2 m - 52) + 1 ∧
    (round53 neg m e).exp = e + ((ilog2 m - 52 : Nat) : Int) ∧
    2 * m ≤ 2 * ((round53 neg m e).mant * 2 ^ (ilog2 m - 52)) + 2 ^ (ilog2 m - 52) := by
  have hm1 : 1 ≤ m := by
    rcases Nat.eq_zero_or_pos m with h | h
    · subst h; simp [ilog2_zero] at hk
    · exact h
  have hlog := two_pow_ilog2_le m hm1
  have hq : 2 ^ 52 ≤ m / 2 ^ (ilog2 m - 52) := by
    rw [Nat.le_div_iff_mul_le (by positivity), ← pow_add]
    rw [show 52 + (ilog2 m - 52) = ilog2 m by omega]
    exact hlog
  obtain ⟨j, hj⟩ : ∃ j, ilog2 m - 52 = j + 1 := ⟨ilog2 m - 52 - 1, by omega⟩
  have hdm := Nat.div_add_mod m (2 ^ (ilog2 m - 52))
  have hr := Nat.mod_lt m (show 0 < 2 ^ (ilog2 m - 52) by positivity)
  unfold round53
  simp only [hk, if_false]
  rw [hj] at hdm hr hq ⊢
  simp only [Nat.add_sub_cancel]
  have hK : 2 ^ (j + 1) = 2 * 2 ^ j := by rw [pow_succ]; ring
  rw [hK] at hdm hr hq ⊢
  generalize 2 ^ j = H at *
  generalize m / (2 * H) = q at *
  generalize m % (2 * H) = r at *
  have e1 : (q + 1) * (2 * H) = 2 * H * q + 2 * H := by ring
  have e2 : q * (2 * H) = 2 * H * q := by ring
  refine ⟨hq, ?_, ?_, ?_, ?_⟩
  · split_ifs <;> omega
  · split_ifs <;> omega
  · trivial
  · split_ifs
    · rw [e2]; omega
    · rw [e1]; omega
    · rw [e2]; omega
    · rw [e1]; omega

/-- Rounding does not go below a double that the exact value reaches: if `n * 2^t` with
`n <= 2^53` is at most `M * 2^E`, it is at most the rounded value. -/
theorem round53_ge_of_le (n : Nat) (t : Int) (hn : n ≤ 2 ^ 53) (M : Nat) (E : Int)
    (h : (n : ℚ) * (2 : ℚ) ^ t ≤ (M : ℚ) * (2 : ℚ) ^ E) :
    (n : ℚ) * (2 : ℚ) ^ t ≤ (round53 false M E).toRat := by
  by_cases hk : ilog2 M - 52 = 0
  · have : round53 false M E = ⟨false, M, E⟩ := by simp [round53, hk]
    rw [this]
    simpa [Double.toRat] using h
  · obtain ⟨hq, hq2, _, hexp, _⟩ := round53_mant_ge false M E hk
    have hnegf := round53_neg false M E
    unfold Double.toRat
    rw [hnegf, hexp]
    simp only [Bool.false_eq_true, if_false, one_mul]
    generalize (round53 false M E).mant = q2 at hq2
    generalize hqd : M / 2 ^ (ilog2 M - 52) = q at hq hq2
    generalize hkd : ilog2 M - 52 = k at hqd
    have hs : (0 : ℚ) < (2 : ℚ) ^ (E + (k : Int)) := by positivity
    have hstep : (q : ℚ) * (2 : ℚ) ^ (E + (k : Int)) ≤ (q2 : ℚ) * (2 : ℚ) ^ (E + (k : Int)) := by
      apply mul_le_mul_of_nonneg_right _ (le_of_lt hs)
      exact_mod_cast hq2
    refine le_trans ?_ hstep
    by_cases hts : t < E + (k : Int)
    · have h1 : (n : ℚ) * (2 : ℚ) ^ t ≤ 2 ^ 53 * (2 : ℚ) ^ t := by
        apply mul_le_mul_of_nonneg_right _ (by positivity)
        exact_mod_cast hn
      have h2 : (2 : ℚ) ^ 53 * (2 : ℚ) ^ t ≤ 2 ^ 52 * (2 : ℚ) ^ (E + (k : Int)) := by
        have h3 : (2 : ℚ) ^ (t + 1) ≤ (2 : ℚ) ^ (E + (k : Int)) :=
          zpow_le_zpow_right₀ (by norm_num) (by omega)
        rw [zpow_add₀ (by norm_num), zpow_one] at h3
        calc (2 : ℚ) ^ 53 * (2 : ℚ) ^ t = 2 ^ 52 * ((2 : ℚ) ^ t * 2) := by ring
          _ ≤ 2 ^ 52 * (2 : ℚ) ^ (E + (k : Int)) :=
              mul_le_mul_of_nonneg_left h3 (by positivity)
      have h4 : (2 : ℚ) ^ 52 * (2 : ℚ) ^ (E + (k : Int)) ≤ (q : ℚ) * (2 : ℚ) ^ (E + (k : Int)) := by
        apply mul_le_mul_of_nonneg_right _ (le_of_lt hs)
        exact_mod_cast hq
      exact le_trans h1 (le_trans h2 h4)
    · obtain ⟨j, hj⟩ : ∃ j : Nat, t = E + (k : Int) + (j : Int) :=
        ⟨(t - (E + (k : Int))).toNat, by omega⟩
      have hpt : (2 : ℚ) ^ t = (2 : ℚ) ^ E * (2 : ℚ) ^ k * (2 : ℚ) ^ j := by
        rw [hj, zpow_add₀ (by norm_num), zpow_add₀ (by norm_num), zpow_natCast, zpow_natCast]
      have hps : (2 : ℚ) ^ (E + (k : Int)) = (2 : ℚ) ^ E * (2 : ℚ) ^ k := by
        rw [zpow_add₀ (by norm_num), zpow_natCast]
      have hE : (0 : ℚ) < (2 : ℚ) ^ E := by positivity
      rw [hpt] at h ⊢
      rw [hps]
      have h5 : ((n * 2 ^ j * 2 ^ k : Nat) : ℚ) ≤ (M : ℚ) := by
        have h6 : ((n : ℚ) * (2 : ℚ) ^ j * (2 : ℚ) ^ k) * (2 : ℚ) ^ E ≤ (M : ℚ) * (2 : ℚ) ^ E := by
          calc ((n : ℚ) * (2 : ℚ) ^ j * (2 : ℚ) ^ k) * (2 : ℚ) ^ E
              = (n : ℚ) * ((2 : ℚ) ^ E * (2 : ℚ) ^ k * (2 : ℚ) ^ j) := by ring
            _ ≤ (M : ℚ) * (2 : ℚ) ^ E := h
        have h7 := le_of_mul_le_mul_right h6 hE
        push_cast
        exact h7
      have h8 : n * 2 ^ j * 2 ^ k ≤ M := by exact_mod_cast h5
      have h9 : n * 2 ^ j ≤ q := by
        rw [← hqd]
        exact (Nat.le_div_iff_mul_le (by positivity)).mpr h8
      have h10 : ((n * 2 ^ j : Nat) : ℚ) ≤ (q : ℚ) := by exact_mod_cast h9
      push_cast at h10
      calc (n : ℚ) * ((2 : ℚ) ^ E * (2 : ℚ) ^ k * (2 : ℚ) ^ j)
          = ((n : ℚ) * (2 : ℚ) ^ j) * ((2 : ℚ) ^ E * (2 : ℚ) ^ k) := by ring
        _ ≤ (q : ℚ) * ((2 : ℚ) ^ E * (2 : ℚ) ^ k) :=
            mul_le_mul_of_nonneg_right h10 (by positivity)

theorem Double.toRat_of_neg_false (d : Double) (h : d.neg = false) :
    d.toRat = (d.mant : ℚ) * (2 : ℚ) ^ d.exp := by
  unfold Double.toRat
  rw [h]
  simp

/-- A double above one is at least `1 + 2^-52`. -/
theorem Double.one_add_ulp_le (alpha : Double) (hbin : alpha.mant < 2 ^ 53)
    (h : 1 < alpha.toRat) : 1 + 1 / 2 ^ 52 ≤ alpha.toRat := by
  have hneg := Double.neg_false_of_pos alpha (lt_trans one_pos h)
  rw [Double.toRat_of_neg_false alpha hneg] at h ⊢
  by_cases he : 0 ≤ alpha.exp
  · obtain ⟨j, hj⟩ : ∃ j : Nat, alpha.exp = (j : Int) := ⟨alpha.exp.toNat, by omega⟩
    rw [hj, zpow_natCast] at h ⊢
    have h1 : ((1 : Nat) : ℚ) < ((alpha.mant * 2 ^ j : Nat) : ℚ) := by push_cast; exact h
    have h2 : 1 < alpha.mant * 2 ^ j := by exact_mod_cast h1
    have h3 : ((2 : Nat) : ℚ) ≤ ((alpha.mant * 2 ^ j : Nat) : ℚ) := by
      exact_mod_cast (show 2 ≤ alpha.mant * 2 ^ j by omega)
    push_cast at h3
    have : (1 : ℚ) + 1 / 2 ^ 52 ≤ 2 := by norm_num
    linarith
  · obtain ⟨j, hj⟩ : ∃ j : Nat, alpha.exp = -(j : Int) := ⟨(-alpha.exp).toNat, by omega⟩
    rw [hj, zpow_neg, zpow_natCast] at h ⊢
    have hA : (0 : ℚ) < (2 : ℚ) ^ j := by positivity
    have h1 : (2 : ℚ) ^ j < (alpha.mant : ℚ) := by
      have := mul_lt_mul_of_pos_right h hA
      rw [mul_assoc, inv_mul_cancel₀ (ne_of_gt hA)] at this
      simpa using this
    have h2 : 2 ^ j < alpha.mant := by exact_mod_cast h1
    have h3 : 2 ^ j < 2 ^ 53 := lt_trans h2 hbin
    have h4 : j < 53 := (Nat.pow_lt_pow_iff_right (by norm_num)).mp h3
    have h5 : 2 ^ j ≤ 2 ^ 52 := Nat.pow_le_pow_right (by norm_num) (by omega)
    have h6 : ((2 ^ j + 1 : Nat) : ℚ) ≤ (alpha.mant : ℚ) := by
      exact_mod_cast (show 2 ^ j + 1 ≤ alpha.mant by omega)
    have h7 : ((2 ^ j : Nat) : ℚ) ≤ ((2 ^ 52 : Nat) : ℚ) := by exact_mod_cast h5
    push_cast at h6 h7
    rw [show (alpha.mant : ℚ) * ((2 : ℚ) ^ j)⁻¹ = (alpha.mant : ℚ) / (2 : ℚ) ^ j by ring]
    rw [le_div_iff₀ hA]
    have h8 : (1 + 1 / 2 ^ 52 : ℚ) * (2 : ℚ) ^ j = (2 : ℚ) ^ j + (2 : ℚ) ^ j / 2 ^ 52 := by ring
    have h9 : (2 : ℚ) ^ j / 2 ^ 52 ≤ 1 := by
      rw [div_le_one (by positivity)]
      exact h7
    linarith

theorem Double.ofInt_neg_false (d : Int) (hd : 0 ≤ d) : (Double.ofInt d).neg = false := by
  unfold Double.ofInt
  rw [round53_neg]
  simpa using hd

/-- The conversion of a non-negative `int64_t` to double: some double `n * 2^t` is at least
the integer and at most `1 + 2^-52` times the double the integer is converted to. -/
theorem Double.ofInt_next (d : Int) (hd : 0 ≤ d) :
    0 ≤ (Double.ofInt d).toRat ∧
    ∃ (n : Nat) (t : Int), n ≤ 2 ^ 53 ∧ (d : ℚ) ≤ (n : ℚ) * (2 : ℚ) ^ t ∧
      (n : ℚ) * (2 : ℚ) ^ t ≤ (1 + 1 / 2 ^ 52) * (Double.ofInt d).toRat := by
  have hneg := Double.ofInt_neg_false d hd
  have h0 := Double.toRat_nonneg_of_neg_false _ hneg
  refine ⟨h0, ?_⟩
  obtain ⟨m, hm⟩ : ∃ m : Nat, d = (m : Int) := ⟨d.toNat, by omega⟩
  have hnat : d.natAbs = m := by omega
  by_cases hk : ilog2 m - 52 = 0
  · have hlt : m < 2 ^ 53 := by
      have h1 := lt_two_pow_ilog2 m
      have h2 : 2 ^ (ilog2 m + 1) ≤ 2 ^ 53 := Nat.pow_le_pow_right (by norm_num) (by omega)
      omega
    have hX : Double.ofInt d = ⟨false, m, 0⟩ := by
      unfold Double.ofInt
      rw [hnat, round53_exact _ _ _ hlt]
      simp [hm]
    refine ⟨m, 0, le_of_lt hlt, ?_, ?_⟩
    · rw [hm]; simp
    · rw [hX] at h0 ⊢
      simp only [Double.toRat, Bool.false_eq_true, if_false, one_mul, zpow_zero, mul_one] at h0 ⊢
      nlinarith
  · obtain ⟨hq, hq2, hq3, hexp, hnear⟩ := round53_mant_ge (decide (d < 0)) m 0 hk
    have hle := round53_mant_le (decide (d < 0)) m 0
    have hXr : (Double.ofInt d).toRat =
        ((round53 (decide (d < 0)) m 0).mant : ℚ) * (2 : ℚ) ^ (ilog2 m - 52) := by
      rw [Double.toRat_of_neg_false _ hneg]
      unfold Double.ofInt
      rw [hnat, hexp, zero_add, zpow_natCast]
    rw [hXr]
    generalize (round53 (decide (d < 0)) m 0).mant = q2 at hq2 hq3 hle hnear
    generalize m / 2 ^ (ilog2 m - 52) = q at hq hq2 hq3
    generalize ilog2 m - 52 = k at hnear
    have hK : (0 : ℚ) < (2 : ℚ) ^ k := by positivity
    have hnearQ : (2 : ℚ) * (m : ℚ) ≤ 2 * ((q2 : ℚ) * (2 : ℚ) ^ k) + (2 : ℚ) ^ k := by
      exact_mod_cast hnear
    have hq2Q : ((2 : ℚ) ^ 52) ≤ (q2 : ℚ) := by
      exact_mod_cast (le_trans hq hq2)
    have hdm : (d : ℚ) = (m : ℚ) := by rw [hm]; simp
    by_cases htop : q2 < 2 ^ 53
    · refine ⟨q2 + 1, (k : Int), by omega, ?_, ?_⟩
      · rw [hdm, zpow_natCast]
        push_cast
        nlinarith
      · rw [zpow_natCast]
        push_cast
        have : (2 : ℚ) ^ k ≤ (q2 : ℚ) * (2 : ℚ) ^ k / 2 ^ 52 := by
          rw [le_div_iff₀ (by positivity)]
          nlinarith
        have h3 : (1 + 1 / 2 ^ 52 : ℚ) * ((q2 : ℚ) * (2 : ℚ) ^ k) =
            (q2 : ℚ) * (2 : ℚ) ^ k + (q2 : ℚ) * (2 : ℚ) ^ k / 2 ^ 52 := by ring
        rw [h3]
        linarith
    · have hq2eq : q2 = 2 ^ 53 := by omega
      refine ⟨2 ^ 52 + 1, (k : Int) + 1, by norm_num, ?_, ?_⟩
      · rw [hdm, zpow_add₀ (by norm_num), zpow_natCast, zpow_one]
        rw [hq2eq] at hnearQ
        push_cast at hnearQ ⊢
        nlinarith
      · rw [zpow_add₀ (by norm_num), zpow_natCast, zpow_one, hq2eq]
        push_cast
        apply le_of_eq
        ring

/-- For a double `alpha > 1` the scaled range `static_cast<int64_t>(alpha * d)` is at least
`d`, for every `d >= 0`: rounding never brings the product below the integer. -/
theorem scaled_ge (alpha : Double) (hbin : alpha.mant < 2 ^ 53) (h1 : 1 < alpha.toRat)
    (d : Int) (hd : 0 ≤ d) : d ≤ (Double.mul alpha (Double.ofInt d)).toInt := by
  have haneg := Double.neg_false_of_pos alpha (lt_trans one_pos h1)
  have hxneg := Double.ofInt_neg_false d hd
  have hulp := Double.one_add_ulp_le alpha hbin h1
  obtain ⟨hX0, n, t, hn, hdn, hnY⟩ := Double.ofInt_next d hd
  have hprod : alpha.toRat * (Double.ofInt d).toRat =
      ((alpha.mant * (Double.ofInt d).mant : Nat) : ℚ) *
        (2 : ℚ) ^ (alpha.exp + (Double.ofInt d).exp) := by
    rw [Double.toRat_of_neg_false _ haneg, Double.toRat_of_neg_false _ hxneg,
      zpow_add₀ (by norm_num)]
    push_cast
    ring
  have hY : (n : ℚ) * (2 : ℚ) ^ t ≤ ((alpha.mant * (Double.ofInt d).mant : Nat) : ℚ) *
      (2 : ℚ) ^ (alpha.exp + (Double.ofInt d).exp) := by
    rw [← hprod]
    calc (n : ℚ) * (2 : ℚ) ^ t ≤ (1 + 1 / 2 ^ 52) * (Double.ofInt d).toRat := hnY
      _ ≤ alpha.toRat * (Double.ofInt d).toRat := mul_le_mul_of_nonneg_right hulp hX0
  have hR := round53_ge_of_le n t hn _ _ hY
  have hmul : Double.mul alpha (Double.ofInt d) =
      round53 false (alpha.mant * (Double.ofInt d).mant) (alpha.exp + (Double.ofInt d).exp) := by
    unfold Double.mul
    rw [haneg, hxneg]
    rfl
  apply Double.le_toInt
  · rw [hmul]; exact round53_neg _ _ _
  · rw [hmul]
    exact le_trans hdn hR

theorem build_rcl_nil_of_lt (t : Int) (a : Element) (rest : List Element) (h : a.value < t) :
    build_rcl t (a :: rest) = [] := by
  unfold build_rcl
  rw [if_neg (by omega)]

theorem Double.toInt_nonpos_of_neg (d : Double) (h : d.neg = true) : d.toInt ≤ 0 := by
  unfold Double.toInt
  rw [h]
  simp only [if_true]
  omega

set_option maxRecDepth 1000000 in
/-- C11, counterexample: on `[10,5,1]` with `alpha = -0.1` (the double
`-7205759403792794 * 2^-56`) the first combine step has the working list `[5,1]`; the product
`-0.4` is truncated to `0`, the threshold is `5` and the RCL is `[5]`: neither empty nor the
whole working list.  Nothing leaves the `int64_t` range here: the computation in `int64_t`
arithmetic gives the same. -/
theorem C11_counterexample :
    (⟨true, 7205759403792794, -56⟩ : Double).toRat < 0 ∧
    (kk_after ⟨true, 7205759403792794, -56⟩ 0
        ⟨kk_init [10, 5, 1] (constOracle 0), constOracle 0⟩).bind
      (fun st => (kk_locals ⟨true, 7205759403792794, -56⟩ st.max_heap).map
        (fun loc => (loc.temp_elements.map Element.value, loc.threshold,
          loc.rcl.map Element.value))) = some ([5, 1], 5, [5]) ∧
    (kk_after64 ⟨true, 7205759403792794, -56⟩ 0
        ⟨kk_init [10, 5, 1] (constOracle 0), constOracle 0⟩).bind
      (fun st => (kk_locals64 ⟨true, 7205759403792794, -56⟩ st.max_heap).map
        (fun loc => (loc.temp_elements.map Element.value, loc.threshold,
          loc.rcl.map Element.value))) = some ([5, 1], 5, [5]) := by
  refine ⟨?_, by decide, by decide⟩
  norm_num [Double.toRat]

/-- In `ℤ`, for a double `alpha` outside `[0,1]`, at every combine step: if `alpha > 1`
the RCL is the whole working list; if `alpha < 0` the truncated product is negative or zero,
and the RCL is empty in the first case (the threshold is above the maximum) and consists of
exactly the working-list elements of maximal value in the second (the threshold is the
maximum). -/
theorem alpha_outside_rcl_ideal (alpha : Double) (hbin : alpha.mant < 2 ^ 53) (st : KKState)
    (hsz : 2 ≤ st.max_heap.size) :
    ∃ loc, kk_locals alpha st.max_heap = some loc ∧
      (1 < alpha.toRat → loc.rcl = loc.temp_elements) ∧
      (alpha.toRat < 0 →
        (loc.max_value < loc.threshold ∧ loc.rcl = []) ∨
        (loc.threshold = loc.max_value ∧
          loc.rcl = loc.temp_elements.filter (fun x => decide (x.value = loc.max_value)) ∧
          loc.rcl ≠ [])) := by
  obtain ⟨loc, first, last, h1, _, hsorted, _, hhead, hlast, hmax, hmin, hle, hthr, hrcl⟩ :=
    kk_locals_spec alpha st.max_heap hsz
  obtain ⟨loc2, h1b, _, hsorted2, hbounds, ⟨x, hx, hxv⟩, _, _, _⟩ :=
    kk_locals_facts alpha st.max_heap hsz
  rw [h1] at h1b
  cases Option.some.inj h1b
  have hd : (0 : Int) ≤ loc.max_value - loc.min_value := by omega
  refine ⟨loc, h1, ?_, ?_⟩
  · intro hgt
    have hge := scaled_ge alpha hbin hgt _ hd
    rw [hrcl]
    apply build_rcl_all
    intro y hy
    have := (hbounds y hy).1
    omega
  · intro hlt
    have hneg : alpha.neg = true := by
      by_contra hcon
      have hf : alpha.neg = false := by simpa using hcon
      have := Double.toRat_nonneg_of_neg_false alpha hf
      linarith
    have hpn : (Double.mul alpha (Double.ofInt (loc.max_value - loc.min_value))).neg = true := by
      unfold Double.mul
      rw [round53_neg, hneg, Double.ofInt_neg_false _ hd]
      rfl
    have hnonpos := Double.toInt_nonpos_of_neg _ hpn
    rcases lt_or_eq_of_le hnonpos with hs | hs
    · left
      refine ⟨by omega, ?_⟩
      rw [hrcl]
      cases htemp : loc.temp_elements with
      | nil => rw [htemp] at hhead; simp at hhead
      | cons a rest =>
        rw [htemp] at hhead
        simp only [List.head?_cons, Option.some.injEq] at hhead
        subst hhead
        exact build_rcl_nil_of_lt _ _ _ (by omega)
    · right
      have hthr2 : loc.threshold = loc.max_value := by omega
      have hfilter : loc.rcl =
          loc.temp_elements.filter (fun x => decide (x.value = loc.max_value)) := by
        rw [hrcl, build_rcl_eq_filter _ _ hsorted2, hthr2]
        apply List.filter_congr
        intro y hy
        have := (hbounds y hy).2
        simp only [decide_eq_decide]
        omega
      refine ⟨hthr2, hfilter, ?_⟩
      rw [hfilter]
      intro hnil
      have := List.filter_eq_nil_iff.mp hnil x hx
      simp [hxv] at this

/-! ## The number of annealing steps -/

theorem cooled_succ (r : Double) (k : Nat) (T : Double) :
    cooled r (k + 1) T = Double.mul (cooled r k T) r := by
  induction k generalizing T with
  | zero => rfl
  | succ k ih =>
    show cooled r (k + 1) (Double.mul T r) = Double.mul (cooled r (k + 1) T) r
    rw [ih (Double.mul T r)]
    rfl

/-- While the cooled temperatures stay above `1e-6` the loop goes on, and the temperature
after `k` iterations is the `k`-fold rounded product. -/
theorem sa_after_schedule (numbers : List Int) (r : Double) (hne : numbers ≠ []) (k : Nat)
    (st0 : SAState) (hlen : st0.current_solution.length = numbers.length)
    (hgt : ∀ j, j < k → Double.gt (cooled r j st0.temperature) Double.eps = true) :
    ∃ st, sa_after numbers r k st0 = some st ∧
      st.temperature = cooled r k st0.temperature ∧
      st.current_solution.length = numbers.length := by
  induction k with
  | zero => exact ⟨st0, rfl, rfl, hlen⟩
  | succ k ih =>
    obtain ⟨st1, h1, ht1, hl1⟩ := ih (fun j hj => hgt j (by omega))
    obtain ⟨st2, h2, hl2, ht2⟩ := sa_step_some numbers r st1 hne hl1
    refine ⟨st2, ?_, ?_, hl2⟩
    · unfold sa_after
      rw [h1]
      simp only
      rw [if_pos (by rw [ht1]; exact hgt k (by omega))]
      exact h2
    · rw [ht2, ht1, cooled_succ]

theorem sa_after_none_of_stop (numbers : List Int) (r : Double) (st0 st : SAState) (j : Nat)
    (hj : sa_after numbers r j st0 = some st)
    (hs : Double.gt st.temperature Double.eps = false) (k : Nat) (hk : j < k) :
    sa_after numbers r k st0 = none := by
  obtain ⟨e, rfl⟩ : ∃ e, k = j + 1 + e := ⟨k - (j + 1), by omega⟩
  induction e with
  | zero =>
    show sa_after numbers r (j + 1) st0 = none
    unfold sa_after
    rw [hj]
    simp only
    rw [if_neg (by rw [hs]; simp)]
  | succ e ihe =>
    show sa_after numbers r (j + 1 + e + 1) st0 = none
    unfold sa_after
    rw [ihe (by omega)]

theorem sa_loop_after_add (numbers : List Int) (r : Double) (st0 : SAState) (n : Nat) :
    ∀ (s1 s2 : SAState), sa_after numbers r n st0 = some s1 →
      ∀ f, sa_loop numbers r f s1 = some s2 → sa_loop numbers r (n + f) st0 = some s2 := by
  induction n with
  | zero =>
    intro s1 s2 h1 f hl
    simp only [sa_after, Option.some.injEq] at h1
    subst h1
    simpa using hl
  | succ n ihn =>
    intro s1 s2 h1 f hl
    unfold sa_after at h1
    cases hp : sa_after numbers r n st0 with
    | none => rw [hp] at h1; simp at h1
    | some sp =>
      rw [hp] at h1
      simp only at h1
      by_cases hgt : Double.gt sp.temperature Double.eps = true
      · rw [if_pos hgt] at h1
        have hl2 : sa_loop numbers r (f + 1) sp = some s2 := by
          unfold sa_loop
          rw [if_pos hgt, h1]
          exact hl
        have := ihn sp s2 hp (f + 1) hl2
        rw [show n + 1 + f = n + (f + 1) by omega]
        exact this
      · rw [if_neg hgt] at h1
        simp at h1

/-- The loop and the iteration count agree: a state reached after `j` iterations at which the
temperature is not above `1e-6` is what the loop returns for any fuel of at least `j`. -/
theorem sa_loop_of_after (numbers : List Int) (r : Double) (j : Nat) (st0 st : SAState)
    (hk : sa_after numbers r j st0 = some st)
    (hs : Double.gt st.temperature Double.eps = false) (fuel : Nat) (hf : j ≤ fuel) :
    sa_loop numbers r fuel st0 = some st := by
  have := sa_loop_after_add numbers r st0 j st st hk (fuel - j)
    (sa_loop_of_not_gt numbers r (fuel - j) st hs)
  rw [show j + (fuel - j) = fuel by omega] at this
  exact this

theorem sa_loop_none_of_small_fuel (numbers : List Int) (r : Double) (hne : numbers ≠ [])
    (fuel : Nat) : ∀ (st : SAState), st.current_solution.length = numbers.length →
      (∀ j, j ≤ fuel → Double.gt (cooled r j st.temperature) Double.eps = true) →
      sa_loop numbers r fuel st = none := by
  induction fuel with
  | zero =>
    intro st _ hgt
    have h0 : Double.gt st.temperature Double.eps = true := hgt 0 (le_refl 0)
    unfold sa_loop
    rw [if_pos h0]
  | succ fuel ih =>
    intro st hlen hgt
    obtain ⟨st1, h1, hl1, ht1⟩ := sa_step_some numbers r st hne hlen
    have h0 : Double.gt st.temperature Double.eps = true := hgt 0 (by omega)
    unfold sa_loop
    rw [if_pos h0, h1]
    apply ih st1 hl1
    intro j hj
    rw [ht1]
    exact hgt (j + 1) (by omega)

set_option maxRecDepth 1000000 in
/-- C14, counterexample: with `initial_temperature = 1.0526315789473685e-06` (the double
`4970912087231206 * 2^-72`) and `cooling_rate = 0.95` (the double `8556839292003942 * 2^-53`)
the exact product `T0 * r` is above `1e-6`, so the least `k` with `T0 * r^k <= 1e-6` is `2`;
but the binary64 product `T0 * r` rounds to the double `1e-6`, which is not above the
threshold, and the loop performs exactly one step. -/
theorem C14_counterexample :
    (1 : ℚ) / 10 ^ 6 < (⟨false, 4970912087231206, -72⟩ : Double).toRat ∧
    (1 : ℚ) / 10 ^ 6 < (⟨false, 4970912087231206, -72⟩ : Double).toRat *
      (⟨false, 8556839292003942, -53⟩ : Double).toRat ^ 1 ∧
    (⟨false, 4970912087231206, -72⟩ : Double).toRat *
      (⟨false, 8556839292003942, -53⟩ : Double).toRat ^ 2 ≤ 1 / 10 ^ 6 ∧
    0 < (⟨false, 8556839292003942, -53⟩ : Double).toRat ∧
    (⟨false, 8556839292003942, -53⟩ : Double).toRat < 1 ∧
    Double.gt ⟨false, 4970912087231206, -72⟩ Double.eps = true ∧
    cooled ⟨false, 8556839292003942, -53⟩ 1 ⟨false, 4970912087231206, -72⟩ = Double.eps ∧
    ((sa_init [1] [1] 1 (constOracle 0) ⟨false, 4970912087231206, -72⟩).bind
      (fun st0 => (sa_after [1] ⟨false, 8556839292003942, -53⟩ 1 st0).map
        (fun st => Double.gt st.temperature Double.eps))) = some false ∧
    ((sa_init [1] [1] 1 (constOracle 0) ⟨false, 4970912087231206, -72⟩).bind
      (fun st0 => (sa_after [1] ⟨false, 8556839292003942, -53⟩ 2 st0).map
        (fun st => st.temperature))) = none ∧
    (simulated_annealing 0 [1] [1] 1 (constOracle 0) ⟨false, 4970912087231206, -72⟩
      ⟨false, 8556839292003942, -53⟩).isSome = false ∧
    (simulated_annealing 1 [1] [1] 1 (constOracle 0) ⟨false, 4970912087231206, -72⟩
      ⟨false, 8556839292003942, -53⟩).isSome = true := by
  refine ⟨?_, ?_, ?_, ?_, ?_, by decide, by decide, by decide, by decide, by decide, by decide⟩
  · norm_num [Double.toRat]
  · norm_num [Double.toRat]
  · norm_num [Double.toRat]
  · norm_num [Double.toRat]
  · norm_num [Double.toRat]

/-- C14, amended: for every finite initial temperature and every binary64 cooling rate in
`(0,1)` the annealing loop terminates, and it performs exactly `k` steps, where `k` is the least
number for which the temperature obtained from `initial_temperature` by `k` successive
rounded binary64 multiplications by `cooling_rate` is not above the double `1e-6`.  This `k`
is fixed by the two parameters alone: for every non-empty number list, every assignment of
the same length, every incoming `best_difference` and every random stream, the state after
`k` iterations exists and carries that temperature, there is no further iteration, the loop
returns that state for every fuel of at least `k` and runs out of fuel below `k`. -/
theorem C14_annealing_step_count (T0 r : Double) (hr0 : 0 < r.toRat) (hr1 : r.toRat < 1)
    (hrm : r.mant < 2 ^ 53) :
    ∃ k, (∀ j, j < k → Double.gt (cooled r j T0) Double.eps = true) ∧
      Double.gt (cooled r k T0) Double.eps = false ∧
      ∀ (numbers solution : List Int) (best_difference : Int) (rng : Oracle),
        numbers ≠ [] → solution.length = numbers.length →
        ∃ st0 st, sa_init numbers solution best_difference rng T0 = some st0 ∧
          sa_after numbers r k st0 = some st ∧
          st.temperature = cooled r k T0 ∧
          (∀ j, k < j → sa_after numbers r j st0 = none) ∧
          (∀ fuel, k ≤ fuel → sa_loop numbers r fuel st0 = some st) ∧
          (∀ fuel, k ≤ fuel →
            simulated_annealing fuel numbers solution best_difference rng T0 r =
              some ⟨st.best_solution, st.best_difference, st.rng⟩) ∧
          (∀ fuel, fuel < k → sa_loop numbers r fuel st0 = none) ∧
          (∀ fuel, fuel < k →
            simulated_annealing fuel numbers solution best_difference rng T0 r = none) := by
  have hex := cooling_ends T0 r hr0 hr1 hrm
  refine ⟨Nat.find hex, ?_, Nat.find_spec hex, ?_⟩
  · intro j hj
    have := Nat.find_min hex hj
    simpa using this
  · intro numbers solution best_difference rng hne hlen
    obtain ⟨sums, e1⟩ := sum_loop_some numbers solution 0 0 (le_of_eq hlen.symm)
    have hinit : sa_init numbers solution best_difference rng T0 =
        some ⟨T0, sums.1 - sums.2, solution, solution, solution, best_difference, rng⟩ := by
      unfold sa_init
      rw [e1]
    have hmin : ∀ j, j < Nat.find hex → Double.gt (cooled r j T0) Double.eps = true := by
      intro j hj
      have := Nat.find_min hex hj
      simpa using this
    obtain ⟨st, h1, ht, _⟩ := sa_after_schedule numbers r hne (Nat.find hex)
      ⟨T0, sums.1 - sums.2, solution, solution, solution, best_difference, rng⟩ hlen hmin
    have hstop : Double.gt st.temperature Double.eps = false := by
      rw [ht]
      exact Nat.find_spec hex
    refine ⟨_, st, hinit, h1, ht, ?_, ?_, ?_, ?_, ?_⟩
    · intro j hj
      exact sa_after_none_of_stop numbers r _ st _ h1 hstop j hj
    · intro fuel hf
      exact sa_loop_of_after numbers r _ _ st h1 hstop fuel hf
    · intro fuel hf
      unfold simulated_annealing
      rw [hinit]
      simp only
      rw [sa_loop_of_after numbers r _ _ st h1 hstop fuel hf]
    · intro fuel hf
      exact sa_loop_none_of_small_fuel numbers r hne fuel _ hlen
        (fun j hj => hmin j (by omega))
    · intro fuel hf
      unfold simulated_annealing
      rw [hinit]
      have hnone := sa_loop_none_of_small_fuel numbers r hne fuel
        ⟨T0, sums.1 - sums.2, solution, solution, solution, best_difference, rng⟩ hlen
        (fun j hj => hmin j (by omega))
      simp only
      rw [hnone]

theorem C14_annealing_step_count_witness :
    0 < (⟨false, 1, -1⟩ : Double).toRat ∧ (⟨false, 1, -1⟩ : Double).toRat < 1 ∧
    ∃ k, (∀ j, j < k → Double.gt (cooled ⟨false, 1, -1⟩ j Double.one) Double.eps = true) ∧
      Double.gt (cooled ⟨false, 1, -1⟩ k Double.one) Double.eps = false ∧
      ∀ (numbers solution : List Int) (best_difference : Int) (rng : Oracle),
        numbers ≠ [] → solution.length = numbers.length →
        ∃ st0 st, sa_init numbers solution best_difference rng Double.one = some st0 ∧
          sa_after numbers ⟨false, 1, -1⟩ k st0 = some st ∧
          st.temperature = cooled ⟨false, 1, -1⟩ k Double.one ∧
          (∀ j, k < j → sa_after numbers ⟨false, 1, -1⟩ j st0 = none) ∧
          (∀ fuel, k ≤ fuel → sa_loop numbers ⟨false, 1, -1⟩ fuel st0 = some st) ∧
          (∀ fuel, k ≤ fuel →
            simulated_annealing fuel numbers solution best_difference rng Double.one
                ⟨false, 1, -1⟩ =
              some ⟨st.best_solution, st.best_difference, st.rng⟩) ∧
          (∀ fuel, fuel < k → sa_loop numbers ⟨false, 1, -1⟩ fuel st0 = none) ∧
          (∀ fuel, fuel < k →
            simulated_annealing fuel numbers solution best_difference rng Double.one
              ⟨false, 1, -1⟩ = none) :=
  ⟨by norm_num [Double.toRat], by norm_num [Double.toRat],
    C14_annealing_step_count Double.one ⟨false, 1, -1⟩ (by norm_num [Double.toRat])
      (by norm_num [Double.toRat]) (by decide)⟩

/-! ## The instance `[8,7,6,5,4]` -/

theorem map_eraseIdx {α β : Type} (g : α → β) :
    ∀ (l : List α) (i : Nat), (l.eraseIdx i).map g = (l.map g).eraseIdx i
  | [], _ => rfl
  | _ :: _, 0 => rfl
  | a :: l, i + 1 => by
    simp only [List.eraseIdx_cons_succ, List.map_cons]
    rw [map_eraseIdx g l i]

/-- With `alpha = 1` and values between `0` and a bound below `2^53`, an iteration of the
combine loop acts on the sorted values as `value_step`, whatever the order of the heap among
equal values. -/
theorem kk_body_value_step (bound : Int) (hB : bound < 2 ^ 53) (st st2 : KKState)
    (hsz : 2 ≤ st.max_heap.size) (hi : BoundInv bound st)
    (hb : kk_body Double.one st = some st2) :
    value_step (sorted_values st) st.rng = some (sorted_values st2, st2.rng) := by
  obtain ⟨loc, idx, second, f⟩ := kk_body_inv Double.one st st2 hsz hb
  obtain ⟨first, last, hhead, hlast, hmax, hmin, hle, hthr⟩ := f.locals_spec hsz
  obtain ⟨loc2, e1, _, _, hbounds, _, _, _, _⟩ := kk_locals_facts Double.one st.max_heap hsz
  rw [f.locals] at e1
  cases Option.some.inj e1
  have hfirst : first ∈ loc.temp_elements := List.mem_of_mem_head? hhead
  have hlastm : last ∈ loc.temp_elements := List.mem_of_getLast?_eq_some hlast
  have hmem : ∀ x ∈ loc.temp_elements, x ∈ st.max_heap.elems :=
    fun x hx => f.perm.subset (List.mem_cons_of_mem _ hx)
  have hb1 := hi first (hmem _ hfirst)
  have hb2 := hi last (hmem _ hlastm)
  have hsmall : (loc.max_value - loc.min_value).natAbs < 2 ^ 53 := by omega
  rw [scaled_one_exact _ hsmall] at hthr
  have hall : loc.rcl = loc.temp_elements := by
    rw [f.rcl_eq]
    apply build_rcl_all
    intro x hx
    have := (hbounds x hx).1
    omega
  have hsv : sorted_values st = loc.largest.value :: loc.temp_elements.map Element.value := by
    unfold sorted_values
    apply insertionSort_desc_eq
    · simpa using f.perm.map Element.value
    · have h2 := List.Pairwise.map Element.value (S := fun x y => y ≤ x)
        (fun _ _ h => h) f.sorted
      simpa using h2
  have hidx : (rcl_draw (loc.temp_elements.map Element.value).length st.rng).1 = idx := by
    rw [List.length_map, ← hall]
    exact f.idx_eq.symm
  have hget : (loc.temp_elements.map Element.value)[idx]? = some second.value := by
    rw [List.getElem?_map, f.get_temp]
    rfl
  have hsv2 : sorted_values st2 =
      ((loc.largest.value - second.value) ::
        (loc.temp_elements.map Element.value).eraseIdx idx).insertionSort
        (fun a b => b ≤ a) := by
    unfold sorted_values
    apply insertionSort_desc_eq _ (insertionSort_desc_sorted _)
    have hp := f.perm_after.map Element.value
    simp only [List.map_cons, Element.combine, map_eraseIdx] at hp
    exact (List.perm_insertionSort _ _).trans hp.symm
  rw [hsv]
  unfold value_step
  simp only [hidx, hget]
  rw [hsv2, f.rng]

theorem kk_after_value_steps (bound : Int) (hB : bound < 2 ^ 53) (st0 : KKState)
    (h0 : BoundInv bound st0) (k : Nat) :
    ∀ st, kk_after Double.one k st0 = some st →
      value_steps k (sorted_values st0) st0.rng = some (sorted_values st, st.rng) := by
  induction k with
  | zero =>
    intro st hk
    simp only [kk_after, Option.some.injEq] at hk
    subst hk
    rfl
  | succ k ih =>
    intro st hk
    unfold kk_after at hk
    cases hp : kk_after Double.one k st0 with
    | none => rw [hp] at hk; simp at hk
    | some st1 =>
      rw [hp] at hk
      simp only at hk
      by_cases hsz : st1.max_heap.size > 1
      · rw [if_pos hsz] at hk
        have hb1 : BoundInv bound st1 :=
          kk_after_induction Double.one (BoundInv bound)
            (fun s s2 hs hP hbody => BoundInv_step bound Double.one s s2 hs hP hbody)
            k st0 st1 h0 hp
        unfold value_steps
        rw [ih st1 hp]
        exact kk_body_value_step bound hB st1 st hsz hb1 hk
      · rw [if_neg hsz] at hk
        simp at hk

/-- The constructor on `[8,7,6,5,4]` with `alpha = 1` and the stream `1, 1, 0, 0, ...`:
whatever the order of the heap among equal values, it returns the difference `0` with an
assignment of entries `+1`/`-1` whose signed difference is `0`. -/
theorem kk_example_zero (solution : List Int) (ties : Oracle) (fuel : Nat) (hf : 4 ≤ fuel) :
    ∃ kk, karmarkar_karp_with_grasp fuel [8, 7, 6, 5, 4] solution Double.one stream_1_1_0
        ties = some kk ∧
      kk.value = 0 ∧ kk.solution.length = 5 ∧ (∀ s ∈ kk.solution, s = 1 ∨ s = -1) ∧
      subset_difference [8, 7, 6, 5, 4] kk.solution = 0 := by
  have ha : Double.one.nonneg := Or.inl rfl
  obtain ⟨st, e, hl, he, hinv, hres⟩ := @kk_final [8, 7, 6, 5, 4] solution Double.one ha
    stream_1_1_0 ties (by decide) fuel (by simp; omega)
  obtain ⟨helems, _⟩ := kk_init_elems [8, 7, 6, 5, 4] ties
  have hsize : (⟨kk_init [8, 7, 6, 5, 4] ties, stream_1_1_0⟩ : KKState).max_heap.size = 5 := by
    simp [PriorityQueue.size, helems]
  obtain ⟨st4, h4, hs4⟩ := kk_after_sizes ha ⟨kk_init [8, 7, 6, 5, 4] ties, stream_1_1_0⟩ 4
    (by rw [hsize])
  have hl4 := kk_loop_of_after Double.one 4 _ st4 h4 (by omega) fuel hf
  rw [hl] at hl4
  cases Option.some.inj hl4
  have hbound : BoundInv 8 ⟨kk_init [8, 7, 6, 5, 4] ties, stream_1_1_0⟩ := by
    intro x hx
    simp only [helems, List.map_cons, List.map_nil, List.mem_cons, List.mem_singleton,
      List.not_mem_nil, or_false] at hx
    rcases hx with rfl | rfl | rfl | rfl | rfl <;> decide
  have hsv0 : sorted_values ⟨kk_init [8, 7, 6, 5, 4] ties, stream_1_1_0⟩ = [8, 7, 6, 5, 4] := by
    unfold sorted_values
    simp only [helems]
    decide
  have hvs := kk_after_value_steps 8 (by norm_num) _ hbound 4 _ h4
  rw [hsv0] at hvs
  have hrun : (value_steps 4 [8, 7, 6, 5, 4] stream_1_1_0).map Prod.fst = some [0] := by decide
  have hsimp : (⟨kk_init [8, 7, 6, 5, 4] ties, stream_1_1_0⟩ : KKState).rng = stream_1_1_0 := rfl
  rw [hsimp] at hvs
  rw [hvs] at hrun
  simp only [Option.map_some', Option.some.injEq] at hrun
  have hval0 : e.value = 0 := by
    unfold sorted_values at hrun
    rw [he] at hrun
    simpa using hrun
  obtain ⟨hpart, hval, _⟩ := hinv
  rw [he] at hpart hval
  obtain ⟨hperm, hsigns⟩ := PartInv_single hpart
  have hrl := resize_length solution ([8, 7, 6, 5, 4] : List Int).length 0
  have hv : e.value = comp_sum e.components := hval e (List.mem_singleton_self e)
  have hnd : ([8, 7, 6, 5, 4] : List Int).Nodup := by decide
  refine ⟨_, hres, hval0, ?_, ?_, ?_⟩
  · simp only [write_solution_length, hrl]
    rfl
  · exact write_solution_signs _ e.components _ hnd hperm hrl hsigns
  · simp only
    rw [write_solution_difference _ e.components _ hnd hperm hrl hsigns, ← hv]
    exact hval0

theorem sum_with_sign_total (numbers : List Int) :
    ∀ (sol : List Int), numbers.length ≤ sol.length → (∀ s ∈ sol, s = 1 ∨ s = -1) →
      sum_with_sign 1 numbers sol + sum_with_sign (-1) numbers sol = numbers.sum := by
  induction numbers with
  | nil => intro sol _ _; cases sol <;> simp [sum_with_sign]
  | cons x xs ih =>
    intro sol hlen hs
    cases sol with
    | nil => simp at hlen
    | cons s ss =>
      have h1 := ih ss (by simpa using hlen) (fun t ht => hs t (List.mem_cons_of_mem _ ht))
      simp only [sum_with_sign, List.sum_cons]
      rcases hs s (List.mem_cons_self _ _) with e | e <;> simp [e] <;> omega

/-- An annealing entered with an assignment of signed difference `0` and the incoming
`best_difference = 0` returns `best_difference = 0` and an assignment of signed difference
`0`, whatever the steps it performs. -/
theorem sa_zero_stays (fuel : Nat) (numbers sol : List Int) (rng : Oracle) (T0 r : Double)
    (res : SAResult) (hlen : sol.length = numbers.length) (hs : ∀ s ∈ sol, s = 1 ∨ s = -1)
    (hd : subset_difference numbers sol = 0)
    (h : simulated_annealing fuel numbers sol 0 rng T0 r = some res) :
    res.best_difference = 0 ∧ subset_difference numbers res.solution = 0 ∧
      res.solution.length = numbers.length ∧ ∀ s ∈ res.solution, s = 1 ∨ s = -1 := by
  obtain ⟨st0, h0, hinv, hbs, hbd, _⟩ := sa_init_spec numbers sol 0 rng T0 hlen hs
  unfold simulated_annealing at h
  rw [h0] at h
  simp only at h
  cases hl : sa_loop numbers r fuel st0 with
  | none => rw [hl] at h; simp at h
  | some st =>
    rw [hl] at h
    have hfin := sa_loop_sound numbers r
      (fun s => SAInv numbers s ∧ BestInv numbers s ∧
        (∀ x ∈ s.best_solution, x = 1 ∨ x = -1) ∧
        s.best_solution.length = numbers.length ∧ s.best_difference ≤ 0)
      (by
        intro s s2 hp hstep
        obtain ⟨p1, p2, p3, p4, p5⟩ := hp
        have hi2 := SAInv_step numbers r s s2 p1 hstep
        refine ⟨hi2, BestInv_step numbers r s s2 p1 p2 hstep, ?_, ?_,
          le_trans (best_step_le numbers r s s2 hstep) p5⟩
        · obtain ⟨idx, v, x, _, _, _, hcase⟩ := sa_step_cases numbers r s s2 hstep
          rcases hcase with ⟨_, _, _, hbest⟩ | ⟨_, _, _, e4, _⟩
          · rcases hbest with ⟨_, e4, _⟩ | ⟨_, e4, _⟩
            · rw [e4]; exact hi2.2.2.1
            · rw [e4]; exact p3
          · rw [e4]; exact p3
        · obtain ⟨idx, v, x, _, _, _, hcase⟩ := sa_step_cases numbers r s s2 hstep
          rcases hcase with ⟨_, _, _, hbest⟩ | ⟨_, _, _, e4, _⟩
          · rcases hbest with ⟨_, e4, _⟩ | ⟨_, e4, _⟩
            · rw [e4]; exact hi2.2.2.2
            · rw [e4]; exact p4
          · rw [e4]; exact p4)
      fuel st0 st
      ⟨hinv, by unfold BestInv; rw [hbs, hbd, hd]; rfl, by rw [hbs]; exact hs,
        by rw [hbs]; exact hlen, le_of_eq hbd⟩ hl
    obtain ⟨_, q2, q3, q4, q5⟩ := hfin
    unfold BestInv at q2
    have hnn : 0 ≤ st.best_difference := by rw [← q2]; exact abs_nonneg _
    have hz : st.best_difference = 0 := le_antisymm q5 hnn
    rw [hz] at q2
    rw [← Option.some.inj h]
    exact ⟨hz, abs_eq_zero.mp q2, q4, q3⟩

theorem foldl_add_snoc (l : List Int) (x : Int) :
    (l ++ [x]).foldl (fun a b => a + b) 0 = l.foldl (fun a b => a + b) 0 + x := by
  simp [List.foldl_append]

/-- Lines 253-263: with one entry `+1`/`-1` per number, the sums of the two subsets are the
sum of the numbers of sign `+1` and the sum of the numbers of sign `-1`. -/
theorem split_loop_sums (numbers : List Int) :
    ∀ (sol subset1 subset2 : List Int), numbers.length ≤ sol.length →
      (∀ s ∈ sol, s = 1 ∨ s = -1) →
      ∃ p, split_loop numbers sol subset1 subset2 = some p ∧
        p.1.foldl (fun a b => a + b) 0 =
          subset1.foldl (fun a b => a + b) 0 + sum_with_sign 1 numbers sol ∧
        p.2.foldl (fun a b => a + b) 0 =
          subset2.foldl (fun a b => a + b) 0 + sum_with_sign (-1) numbers sol := by
  induction numbers with
  | nil =>
    intro sol s1 s2 _ _
    refine ⟨(s1, s2), ?_, ?_, ?_⟩
    · cases sol <;> rfl
    · cases sol <;> simp [sum_with_sign]
    · cases sol <;> simp [sum_with_sign]
  | cons x xs ih =>
    intro sol s1 s2 hlen hs
    cases sol with
    | nil => simp at hlen
    | cons s ss =>
      have hlen2 : xs.length ≤ ss.length := by simpa using hlen
      have hs2 : ∀ t ∈ ss, t = 1 ∨ t = -1 := fun t ht => hs t (List.mem_cons_of_mem _ ht)
      rcases hs s (List.mem_cons_self _ _) with e | e
      · obtain ⟨p, hp, h1, h2⟩ := ih ss (s1 ++ [x]) s2 hlen2 hs2
        refine ⟨p, ?_, ?_, ?_⟩
        · unfold split_loop
          rw [if_pos e]
          exact hp
        · rw [h1, foldl_add_snoc]
          simp only [sum_with_sign, e, if_true]
          omega
        · rw [h2]
          simp [sum_with_sign, e]
      · obtain ⟨p, hp, h1, h2⟩ := ih ss s1 (s2 ++ [x]) hlen2 hs2
        refine ⟨p, ?_, ?_, ?_⟩
        · unfold split_loop
          rw [if_neg (by rw [e]; decide)]
          exact hp
        · rw [h1]
          simp [sum_with_sign, e]
        · rw [h2, foldl_add_snoc]
          simp only [sum_with_sign, e, if_true]
          omega

/-- With `alpha = 0` the constructor returns the classical differencing value, whatever the
random stream and the order of the heap among equal values. -/
theorem kk_alpha_zero_value (numbers solution : List Int) (rng ties : Oracle)
    (hne : numbers ≠ []) (fuel : Nat) (hfuel : numbers.length ≤ fuel + 1) :
    ∃ kk, karmarkar_karp_with_grasp fuel numbers solution Double.zero rng ties = some kk ∧
      classical_kk fuel numbers = some kk.value := by
  obtain ⟨st, e, hl, he, _, hres⟩ := @kk_final numbers solution Double.zero
    (Or.inl rfl) rng ties hne fuel hfuel
  obtain ⟨h1, _⟩ := kk_init_elems numbers ties
  have hpos : 0 < numbers.length := List.length_pos.mpr hne
  obtain ⟨e2, he2, hc⟩ := kk_loop_classical fuel ⟨kk_init numbers ties, rng⟩ st
    (by simp only [PriorityQueue.size, h1, List.length_map]; omega) hl
  rw [he] at he2
  cases List.singleton_inj.mp he2
  refine ⟨_, hres, ?_⟩
  simp only [h1, List.map_map] at hc
  have hid : (Element.value ∘ Element.leaf) = id := by
    funext v; rfl
  rw [hid, List.map_id] at hc
  exact hc

theorem classical_kk_fuel (l : List Int) :
    ∀ (fuel : Nat) (v : Int), classical_kk fuel l = some v →
      ∀ fuel2, fuel ≤ fuel2 → classical_kk fuel2 l = some v := by
  intro fuel
  induction fuel generalizing l with
  | zero =>
    intro v h fuel2 _
    match l, h with
    | [a], h => cases fuel2 <;> exact h
  | succ f ih =>
    intro v h fuel2 hf
    obtain ⟨g, rfl⟩ : ∃ g, fuel2 = g + 1 := ⟨fuel2 - 1, by omega⟩
    match l, h with
    | [a], h => exact h
    | a :: b :: rest, h =>
      simp only [classical_kk] at h ⊢
      exact ih _ v h g (by omega)

/-- C16: the instance `[8,7,6,5,4]`.  With `alpha = 1` and the random stream whose outcomes are
`1, 1, 0, 0, ...` (the draws pick `6`, then `4`, then `3`, then `2`), for every order of the
heap among equal values, every initial temperature and every binary64 cooling rate in
`(0,1)`: once the fuel covers the loops, one trial returns best difference `0` with an
assignment whose numbers of sign `+1` sum to `15` and whose numbers of sign `-1` sum to `15`,
and a run of one iteration reports best difference `0` and the two sums `15` and `15`.  With
`alpha = 0` the constructor returns `2` on this input, for every random stream and every
order of the heap. -/
theorem C16_example_reaches_zero :
    (∃ rng : Oracle, ∀ (ties : Oracle) (T0 r : Double),
      0 < r.toRat → r.toRat < 1 → r.mant < 2 ^ 53 →
      ∃ N, ∀ fuel, N ≤ fuel →
        (∃ t, grasp_trial fuel [8, 7, 6, 5, 4] ⟨Double.one, 1, T0, r⟩ rng ties = some t ∧
          t.1.best_difference = 0 ∧
          sum_with_sign 1 [8, 7, 6, 5, 4] t.1.solution = 15 ∧
          sum_with_sign (-1) [8, 7, 6, 5, 4] t.1.solution = 15) ∧
        (∃ rep, run fuel [8, 7, 6, 5, 4] ⟨Double.one, 1, T0, r⟩ rng ties = some rep ∧
          rep.best_difference = 0 ∧ rep.sum1 = 15 ∧ rep.sum2 = 15 ∧
          rep.printed_difference = 0)) ∧
    (∀ (rng ties : Oracle) (solution : List Int) (fuel : Nat), 4 ≤ fuel →
      ∃ kk, karmarkar_karp_with_grasp fuel [8, 7, 6, 5, 4] solution Double.zero rng ties =
          some kk ∧ kk.value = 2) := by
  refine ⟨⟨stream_1_1_0, ?_⟩, ?_⟩
  · intro ties T0 r hr0 hr1 hrm
    obtain ⟨k, hk⟩ := cooling_ends T0 r hr0 hr1 hrm
    refine ⟨max 4 k, ?_⟩
    intro fuel hf
    have hf4 : 4 ≤ fuel := le_trans (le_max_left 4 k) hf
    have hfk : k ≤ fuel := le_trans (le_max_right 4 k) hf
    obtain ⟨kk, hkk, hv0, hlen, hsigns, hd⟩ :=
      kk_example_zero (List.replicate ([8, 7, 6, 5, 4] : List Int).length 1) ties fuel hf4
    have hlen2 : kk.solution.length = ([8, 7, 6, 5, 4] : List Int).length := hlen
    obtain ⟨res, hsa, _⟩ := simulated_annealing_total [8, 7, 6, 5, 4] kk.solution kk.value
      kk.rng T0 r (by decide) (le_of_eq hlen2.symm) k hk fuel hfk hlen2
    have hsa0 := hsa
    rw [hv0] at hsa0
    obtain ⟨hb0, hd2, hl2, hs2⟩ :=
      sa_zero_stays fuel [8, 7, 6, 5, 4] kk.solution kk.rng T0 r res hlen2 hsigns hd hsa0
    have htrial : grasp_trial fuel [8, 7, 6, 5, 4] ⟨Double.one, 1, T0, r⟩ stream_1_1_0 ties =
        some (res, kk.ties) := by
      unfold grasp_trial
      simp only
      rw [hkk]
      simp only
      rw [hsa]
    have htot := sum_with_sign_total [8, 7, 6, 5, 4] res.solution (le_of_eq hl2.symm) hs2
    have hsum : ([8, 7, 6, 5, 4] : List Int).sum = 30 := by decide
    rw [hsum] at htot
    unfold subset_difference at hd2
    have h15a : sum_with_sign 1 [8, 7, 6, 5, 4] res.solution = 15 := by omega
    have h15b : sum_with_sign (-1) [8, 7, 6, 5, 4] res.solution = 15 := by omega
    refine ⟨⟨(res, kk.ties), htrial, hb0, h15a, h15b⟩, ?_⟩
    have hbody : grasp_body fuel [8, 7, 6, 5, 4] ⟨Double.one, 1, T0, r⟩
        (grasp_init [8, 7, 6, 5, 4] stream_1_1_0 ties) =
        some ⟨0, res.solution, res.rng, kk.ties⟩ := by
      unfold grasp_body grasp_init
      simp only
      rw [htrial]
      simp only
      rw [hb0, if_pos (by decide)]
    have hloop : grasp_loop fuel [8, 7, 6, 5, 4] ⟨Double.one, 1, T0, r⟩ 1
        (grasp_init [8, 7, 6, 5, 4] stream_1_1_0 ties) =
        some ⟨0, res.solution, res.rng, kk.ties⟩ := by
      simp only [grasp_loop, hbody]
    obtain ⟨p, hp, hp1, hp2⟩ := split_loop_sums [8, 7, 6, 5, 4] res.solution [] []
      (le_of_eq hl2.symm) hs2
    simp only [List.foldl_nil, zero_add] at hp1 hp2
    refine ⟨⟨0, res.solution, p.1, p.2, p.1.foldl (fun a b => a + b) 0,
      p.2.foldl (fun a b => a + b) 0,
      abs64 (p.1.foldl (fun a b => a + b) 0 - p.2.foldl (fun a b => a + b) 0)⟩,
      ?_, ?_, ?_, ?_, ?_⟩
    · unfold run
      simp only
      rw [hloop]
      simp only
      rw [hp]
    · rfl
    · simp only
      rw [hp1, h15a]
    · simp only
      rw [hp2, h15b]
    · simp only
      rw [hp1, hp2, h15a, h15b]
      rfl
  · intro rng ties solution fuel hf
    obtain ⟨kk, hkk, hc⟩ := kk_alpha_zero_value [8, 7, 6, 5, 4] solution rng ties (by decide)
      fuel (by simp; omega)
    refine ⟨kk, hkk, ?_⟩
    have h4 : classical_kk 4 [8, 7, 6, 5, 4] = some 2 := by decide
    have := classical_kk_fuel [8, 7, 6, 5, 4] 4 2 h4 fuel hf
    rw [this] at hc
    exact (Option.some.inj hc).symm

theorem C16_example_reaches_zero_witness :
    ∃ kk, karmarkar_karp_with_grasp 4 [8, 7, 6, 5, 4] [1, 1, 1, 1, 1] Double.zero
        (constOracle 0) (constOracle 0) = some kk ∧ kk.value = 2 :=
  C16_example_reaches_zero.2 (constOracle 0) (constOracle 0) [1, 1, 1, 1, 1] 4 (le_refl 4)

/-- A run of one iteration whose initial temperature is not above `1e-6`: the GRASP loop keeps
the constructor's difference and assignment exactly when that difference is below
`INT64_MAX`; otherwise it is left with the sentinel and the all `+1` assignment. -/
theorem single_trial_below_threshold (numbers : List Int) (rng ties : Oracle)
    (alpha T0 r : Double) (hbin : T0.mant < 2 ^ 53) (hT : T0.toRat ≤ 1 / 10 ^ 6) (fuel : Nat)
    (kk : KKResult)
    (hkk : karmarkar_karp_with_grasp fuel numbers (List.replicate numbers.length 1) alpha rng
      ties = some kk) :
    grasp_loop fuel numbers ⟨alpha, 1, T0, r⟩ 1 (grasp_init numbers rng ties) =
      some (if kk.value < INT64_MAX then ⟨kk.value, kk.solution, kk.rng, kk.ties⟩
        else ⟨INT64_MAX, List.replicate numbers.length 1, kk.rng, kk.ties⟩) := by
  have hlen : numbers.length ≤ (List.replicate numbers.length (1 : Int)).length := by simp
  have htrial := (sa_no_step_below_threshold numbers (List.replicate numbers.length 1) 0 rng
    T0 r hbin hT hlen).2.2 fuel alpha 1 ties
  rw [hkk] at htrial
  simp only [Option.map_some'] at htrial
  have hbody : grasp_body fuel numbers ⟨alpha, 1, T0, r⟩ (grasp_init numbers rng ties) =
      some (if kk.value < INT64_MAX then ⟨kk.value, kk.solution, kk.rng, kk.ties⟩
        else ⟨INT64_MAX, List.replicate numbers.length 1, kk.rng, kk.ties⟩) := by
    unfold grasp_body grasp_init
    simp only
    rw [htrial]
    simp only
    split <;> rfl
  simp only [grasp_loop, hbody]

/-! ## The constructor in `int64_t` arithmetic against the constructor in `ℤ` -/

theorem Fits_mono {alpha : Double} {S T : Nat} (h : Fits alpha S) (hle : T ≤ S) :
    Fits alpha T := by
  rcases h with ⟨h1, h2⟩ | ⟨h1, h2, h3⟩
  · exact Or.inl ⟨h1, by omega⟩
  · exact Or.inr ⟨h1, h2, by omega⟩

theorem Fits_nonneg {alpha : Double} {S : Nat} (h : Fits alpha S) : alpha.nonneg := by
  rcases h with ⟨h1, _⟩ | ⟨h1, _, _⟩
  · rw [h1]; exact Or.inl rfl
  · exact Double.nonneg_of_toRat h1

theorem Fits_lt {alpha : Double} {S : Nat} (h : Fits alpha S) : S < 2 ^ 63 := by
  rcases h with ⟨_, h2⟩ | ⟨_, _, h3⟩ <;> omega

theorem wrap64_of_in (x : Int) (h : in_int64 x) : wrap64 x = x := by
  unfold in_int64 at h
  unfold wrap64
  omega

theorem wrap64_in (x : Int) : in_int64 (wrap64 x) := by
  unfold in_int64 wrap64
  omega

theorem Double.toInt64_of_in (d : Double) (h : in_int64 d.toInt) : d.toInt64 = d.toInt := by
  unfold in_int64 at h
  unfold Double.toInt64
  rw [if_pos h]

theorem abs64w_of_in (x : Int) (h : x.natAbs < 2 ^ 63) : abs64w x = abs64 x := by
  unfold abs64w abs64 wrap64
  omega

/-- The locals in `int64_t` arithmetic are those of `kk_locals` but for the threshold and the
RCL, which follow line 67 in `int64_t` arithmetic. -/
theorem kk_locals64_eq (alpha : Double) (h : PriorityQueue) :
    kk_locals64 alpha h = (kk_locals alpha h).map (fun loc =>
      ⟨loc.largest, loc.temp_elements, loc.heap, loc.min_value, loc.max_value,
        threshold64 alpha loc.max_value loc.min_value,
        build_rcl (threshold64 alpha loc.max_value loc.min_value) loc.temp_elements⟩) := by
  unfold kk_locals64 kk_locals
  cases h.top with
  | none => rfl
  | some l =>
    cases h.pop with
    | none => rfl
    | some h1 =>
      simp only
      cases drain h1.size h1 [] with
      | none => rfl
      | some p =>
        obtain ⟨t, h2⟩ := p
        simp only
        cases t.getLast? with
        | none => rfl
        | some last =>
          cases t.head? with
          | none => rfl
          | some first => rfl

/-- The rounded product of a double in `[0,1]` and a spread `d < 2^63`, truncated, exceeds
`d` by at most `2048`. -/
theorem scaled_le_add (alpha : Double) (h0 : 0 ≤ alpha.toRat) (h1 : alpha.toRat ≤ 1)
    (d : Int) (hd : 0 ≤ d) (hd2 : d ≤ 2 ^ 63) :
    (Double.mul alpha (Double.ofInt d)).toInt ≤ d + 2048 := by
  rcases Double.nonneg_of_toRat h0 with hneg | hm
  · have hdn := Double.ofInt_neg_false d hd
    obtain ⟨hpn, hle⟩ := Double.mul_le alpha (Double.ofInt d) hneg hdn
    have hdq : (0 : ℚ) ≤ (d : ℚ) := by exact_mod_cast hd
    have hdq2 : (d : ℚ) ≤ 2 ^ 63 := by exact_mod_cast hd2
    have hof : (Double.ofInt d).toRat ≤ (d : ℚ) * (1 + 1 / 2 ^ 53) := by
      have h53 := round53_le d.natAbs 0
      have hdec : decide (d < 0) = false := by simpa using hd
      have hc : ((d.natAbs : Nat) : ℚ) = (d : ℚ) := by
        rw [Nat.cast_natAbs, abs_of_nonneg hd]
      unfold Double.ofInt
      rw [hdec]
      rw [hc] at h53
      simpa using h53
    have hfl : ((Double.mul alpha (Double.ofInt d)).toInt : ℚ) ≤
        (Double.mul alpha (Double.ofInt d)).toRat := by
      rw [Double.toInt_eq_floor _ hpn]
      exact Int.floor_le _
    have hofn : 0 ≤ (Double.ofInt d).toRat := Double.toRat_nonneg_of_neg_false _ hdn
    have e1 : alpha.toRat * (Double.ofInt d).toRat ≤ (Double.ofInt d).toRat := by nlinarith
    have e2 : alpha.toRat * (Double.ofInt d).toRat * (1 + 1 / 2 ^ 53) ≤
        (d : ℚ) * (1 + 1 / 2 ^ 53) * (1 + 1 / 2 ^ 53) :=
      mul_le_mul_of_nonneg_right (le_trans e1 hof) (by norm_num)
    have e3 : (d : ℚ) * (1 + 1 / 2 ^ 53) * (1 + 1 / 2 ^ 53) =
        (d : ℚ) + (d : ℚ) * (2 / 2 ^ 53 + 1 / 2 ^ 106) := by ring
    have e4 : (d : ℚ) * (2 / 2 ^ 53 + 1 / 2 ^ 106) ≤ 2 ^ 63 * (2 / 2 ^ 53 + 1 / 2 ^ 106) :=
      mul_le_mul_of_nonneg_right hdq2 (by norm_num)
    have e5 : (2 : ℚ) ^ 63 * (2 / 2 ^ 53 + 1 / 2 ^ 106) < 2049 := by norm_num
    have hq : ((Double.mul alpha (Double.ofInt d)).toInt : ℚ) < ((d + 2049 : Int) : ℚ) := by
      push_cast
      linarith
    have := Int.cast_lt.mp hq
    omega
  · have : (Double.mul alpha (Double.ofInt d)).toInt = 0 := by
      unfold Double.mul
      rw [hm, Nat.zero_mul, round53_zero]
      simp [Double.toInt]
    omega

theorem abs_sum_cons (a : Element) (l : List Element) :
    abs_sum (a :: l) = a.value.natAbs + abs_sum l := by
  simp [abs_sum]

theorem abs_sum_perm {l1 l2 : List Element} (h : l1.Perm l2) : abs_sum l1 = abs_sum l2 :=
  (h.map _).sum_eq

theorem mem_le_abs_sum (l : List Element) : ∀ x ∈ l, x.value.natAbs ≤ abs_sum l := by
  induction l with
  | nil => intro x hx; simp at hx
  | cons a l ih =>
    intro x hx
    rw [abs_sum_cons]
    rcases List.mem_cons.mp hx with rfl | hx
    · omega
    · have := ih x hx
      omega

theorem head_last_abs_sum (temp : List Element) (first last : Element)
    (hh : temp.head? = some first) (hl : temp.getLast? = some last) :
    first.value = last.value ∨ first.value.natAbs + last.value.natAbs ≤ abs_sum temp := by
  cases temp with
  | nil => simp at hh
  | cons a rest =>
    simp only [List.head?_cons, Option.some.injEq] at hh
    subst hh
    cases rest with
    | nil =>
      simp only [List.getLast?_singleton, Option.some.injEq] at hl
      subst hl
      exact Or.inl rfl
    | cons b r =>
      right
      have hl2 : (b :: r).getLast? = some last := by
        rw [List.getLast?_cons_cons] at hl
        exact hl
      have hm := mem_le_abs_sum (b :: r) last (List.mem_of_getLast?_eq_some hl2)
      rw [abs_sum_cons]
      omega

/-- Under the bound, line 67 in `int64_t` arithmetic gives what it gives in `ℤ`. -/
theorem kk_locals64_eq_ideal (alpha : Double) (h : PriorityQueue) (hsz : 2 ≤ h.size)
    (hfit : Fits alpha (abs_sum h.elems)) : kk_locals64 alpha h = kk_locals alpha h := by
  obtain ⟨loc, first, last, h1, hperm, _, _, hhead, hlast, hmax, hmin, hle, hthr, hrcl⟩ :=
    kk_locals_spec alpha h hsz
  have hS : abs_sum loc.temp_elements ≤ abs_sum h.elems := by
    rw [← abs_sum_perm hperm, abs_sum_cons]
    omega
  have hfm := mem_le_abs_sum _ first (List.mem_of_mem_head? hhead)
  have hlm := mem_le_abs_sum _ last (List.mem_of_getLast?_eq_some hlast)
  have hfl := head_last_abs_sum _ first last hhead hlast
  have hlt := Fits_lt hfit
  have hthr64 : threshold64 alpha loc.max_value loc.min_value = loc.threshold := by
    rw [hthr]
    unfold threshold64
    rcases hfit with ⟨ha, hb⟩ | ⟨ha0, ha1, hb⟩
    · have hz : (Double.mul Double.zero
          (Double.ofInt (wrap64 (loc.max_value - loc.min_value)))).toInt64 = 0 := by
        have h0 := scaled_zero (wrap64 (loc.max_value - loc.min_value))
        rw [Double.toInt64_of_in _ (by rw [h0]; unfold in_int64; omega), h0]
      rw [ha, hz, scaled_zero]
      apply wrap64_of_in
      unfold in_int64
      omega
    · have hspread : in_int64 (loc.max_value - loc.min_value) := by
        unfold in_int64
        omega
      rw [wrap64_of_in _ hspread]
      have ht0 := scaled_nonneg (Double.nonneg_of_toRat ha0) (loc.max_value - loc.min_value)
        (by omega)
      have ht1 := scaled_le_add alpha ha0 ha1 (loc.max_value - loc.min_value) (by omega)
        (by omega)
      rw [Double.toInt64_of_in _ (by unfold in_int64; omega)]
      apply wrap64_of_in
      unfold in_int64
      omega
  rw [kk_locals64_eq, h1]
  simp only [Option.map_some']
  rw [hthr64, ← hrcl]

theorem kk_combine64_eq (loc : Locals) (rng : Oracle)
    (h : ∀ s ∈ loc.rcl, loc.largest.value.natAbs + s.value.natAbs < 2 ^ 63) :
    kk_combine64 loc rng = kk_combine loc rng := by
  unfold kk_combine64 kk_combine
  cases hget : loc.rcl[(rcl_draw loc.rcl.length rng).1]? with
  | none => simp only [hget]
  | some second =>
    have hb := h second (List.getElem?_mem hget)
    have hd : abs64w (wrap64 (loc.largest.value - second.value)) =
        abs64 (loc.largest.value - second.value) := by
      have hin : in_int64 (loc.largest.value - second.value) := by
        unfold in_int64
        omega
      rw [wrap64_of_in _ hin]
      exact abs64w_of_in _ (by omega)
    simp only [hget, hd]

/-- Under the bound, an iteration in `int64_t` arithmetic is the iteration in `ℤ`. -/
theorem kk_body64_eq_ideal (alpha : Double) (st : KKState) (hsz : 2 ≤ st.max_heap.size)
    (hfit : Fits alpha (abs_sum st.max_heap.elems)) : kk_body64 alpha st = kk_body alpha st := by
  unfold kk_body64 kk_body
  rw [kk_locals64_eq_ideal alpha st.max_heap hsz hfit]
  obtain ⟨loc, first, last, h1, hperm, _, _, _, _, _, _, _, _, hrcl⟩ :=
    kk_locals_spec alpha st.max_heap hsz
  rw [h1]
  simp only
  apply kk_combine64_eq
  intro s hs
  have hpre : loc.rcl <+: loc.temp_elements := by
    rw [hrcl]
    exact build_rcl_isPrefix _ _
  have hs2 := mem_le_abs_sum _ s (hpre.subset hs)
  have hS := abs_sum_perm hperm
  rw [abs_sum_cons] at hS
  have := Fits_lt hfit
  omega

/-- An iteration of the combine loop does not increase the sum of the absolute values held. -/
theorem abs_sum_step {alpha : Double} {st st2 : KKState} (hsz : 2 ≤ st.max_heap.size)
    (hb : kk_body alpha st = some st2) :
    abs_sum st2.max_heap.elems ≤ abs_sum st.max_heap.elems := by
  obtain ⟨loc, idx, second, f⟩ := kk_body_inv alpha st st2 hsz hb
  rw [abs_sum_perm f.perm_before, abs_sum_perm f.perm_after]
  simp only [abs_sum_cons, Element.combine]
  omega

theorem abs_sum_init (numbers : List Int) (ties : Oracle) :
    abs_sum (kk_init numbers ties).elems = abs_total numbers := by
  rw [(kk_init_elems numbers ties).1]
  unfold abs_sum abs_total
  rw [List.map_map]
  rfl

theorem kk_loop64_eq_ideal (alpha : Double) (S : Nat) (hfit : Fits alpha S) :
    ∀ (fuel : Nat) (st : KKState), abs_sum st.max_heap.elems ≤ S →
      kk_loop64 alpha fuel st = kk_loop alpha fuel st := by
  intro fuel
  induction fuel with
  | zero => intro st _; rfl
  | succ f ih =>
    intro st hS
    unfold kk_loop64 kk_loop
    by_cases hsz : st.max_heap.size > 1
    · rw [if_pos hsz, if_pos hsz, kk_body64_eq_ideal alpha st hsz (Fits_mono hfit hS)]
      cases hb : kk_body alpha st with
      | none => rfl
      | some st1 =>
        simp only
        exact ih st1 (le_trans (abs_sum_step hsz hb) hS)
    · rw [if_neg hsz, if_neg hsz]

theorem kk_after_abs_sum (alpha : Double) (S : Nat) (k : Nat) (st0 st : KKState)
    (h0 : abs_sum st0.max_heap.elems ≤ S) (hk : kk_after alpha k st0 = some st) :
    abs_sum st.max_heap.elems ≤ S :=
  kk_after_induction alpha (fun s => abs_sum s.max_heap.elems ≤ S)
    (fun _ _ hs hP hbody => le_trans (abs_sum_step hs hbody) hP) k st0 st h0 hk

theorem kk_after64_eq_ideal (alpha : Double) (S : Nat) (hfit : Fits alpha S) (st0 : KKState)
    (h0 : abs_sum st0.max_heap.elems ≤ S) :
    ∀ k, kk_after64 alpha k st0 = kk_after alpha k st0 := by
  intro k
  induction k with
  | zero => rfl
  | succ k ih =>
    unfold kk_after64 kk_after
    rw [ih]
    cases hp : kk_after alpha k st0 with
    | none => rfl
    | some st1 =>
      simp only
      by_cases hsz : st1.max_heap.size > 1
      · rw [if_pos hsz, if_pos hsz]
        exact kk_body64_eq_ideal alpha st1 hsz
          (Fits_mono hfit (kk_after_abs_sum alpha S k st0 st1 h0 hp))
      · rw [if_neg hsz, if_neg hsz]

/-- On a list that fits, the constructor in `int64_t` arithmetic is the constructor in `ℤ`. -/
theorem karmarkar_karp_with_grasp64_eq_ideal (fuel : Nat) (numbers solution : List Int)
    (alpha : Double) (rng ties : Oracle) (hfit : Fits alpha (abs_total numbers)) :
    karmarkar_karp_with_grasp64 fuel numbers solution alpha rng ties =
      karmarkar_karp_with_grasp fuel numbers solution alpha rng ties := by
  unfold karmarkar_karp_with_grasp64 karmarkar_karp_with_grasp
  rw [kk_loop64_eq_ideal alpha (abs_total numbers) hfit fuel ⟨kk_init numbers ties, rng⟩
    (le_of_eq (abs_sum_init numbers ties))]

/-! ## Properties that hold within the `int64_t` range -/

set_option maxRecDepth 1000000 in
/-- C7, counterexample: on `[INT64_MAX, -2]` with `alpha = 0` the difference of line 86,
`INT64_MAX - (-2)`, leaves the `int64_t` range and wraps; the function returns
`9223372036854775807`, while the classical differencing value of the list is
`9223372036854775809`. -/
theorem C7_counterexample :
    (karmarkar_karp_with_grasp64 1 [9223372036854775807, -2] [] Double.zero (constOracle 0)
      (constOracle 0)).map (fun r => r.value) = some 9223372036854775807 ∧
    classical_kk 1 [9223372036854775807, -2] = some 9223372036854775809 ∧
    abs_total [9223372036854775807, -2] = 2 ^ 63 + 1 := by
  refine ⟨by decide, by decide, by decide⟩

/-- C7, amended: with `alpha = 0`, for every non-empty list whose absolute values sum to at
most `INT64_MAX`, every random stream and every order of the heap among equal values,
`karmarkar_karp_with_grasp`, run in `int64_t` arithmetic, returns the classical
Karmarkar-Karp differencing value of the list. -/
theorem C7_alpha_zero_classical (numbers solution : List Int) (rng ties : Oracle)
    (hne : numbers ≠ []) (hsum : abs_total numbers < 2 ^ 63) (fuel : Nat)
    (hfuel : numbers.length ≤ fuel + 1) :
    ∃ r, karmarkar_karp_with_grasp64 fuel numbers solution Double.zero rng ties = some r ∧
      classical_kk fuel numbers = some r.value := by
  rw [karmarkar_karp_with_grasp64_eq_ideal fuel numbers solution Double.zero rng ties
    (Or.inl ⟨rfl, hsum⟩)]
  exact kk_alpha_zero_value numbers solution rng ties hne fuel hfuel

theorem C7_alpha_zero_classical_witness :
    [3, 1, 1, 2, 2, 1] ≠ ([] : List Int) ∧ abs_total [3, 1, 1, 2, 2, 1] < 2 ^ 63 ∧
    classical_kk 5 [3, 1, 1, 2, 2, 1] = some 0 ∧
    ∃ r, karmarkar_karp_with_grasp64 5 [3, 1, 1, 2, 2, 1] [] Double.zero (constOracle 0)
        (constOracle 0) = some r ∧ classical_kk 5 [3, 1, 1, 2, 2, 1] = some r.value :=
  ⟨by decide, by decide, by decide, C7_alpha_zero_classical [3, 1, 1, 2, 2, 1] []
    (constOracle 0) (constOracle 0) (by decide) (by decide) 5 (by decide)⟩

set_option maxRecDepth 1000000 in
/-- C10, counterexample: on `[2^62 + 1, 2^62, -2^62 - 1024]` with `alpha = 0.25` the working
list of the first combine step is `[2^62, -2^62 - 1024]`; the spread `2^63 + 1024` of line 67
leaves the `int64_t` range and wraps to `-2^63 + 1024`, the product is negative, the
threshold `2^62 + 2^61 - 256` is above the maximum and the RCL is empty: `rcl.size() - 1`
wraps, `rcl[index]` is read out of bounds, the iteration does not complete and the function
does not return. -/
theorem C10_counterexample :
    ([4611686018427387905, 4611686018427387904, -4611686018427388928] : List Int) ≠ [] ∧
    0 ≤ (⟨false, 1, -2⟩ : Double).toRat ∧ (⟨false, 1, -2⟩ : Double).toRat ≤ 1 ∧
    ((kk_locals64 ⟨false, 1, -2⟩ (kk_init
      [4611686018427387905, 4611686018427387904, -4611686018427388928] (constOracle 0))).map
      (fun loc => (loc.temp_elements.map Element.value, loc.threshold,
        loc.rcl.map Element.value, size_minus_one loc.rcl.length))) =
      some ([4611686018427387904, -4611686018427388928], 6917529027641081600, [],
        SIZE_MAX) ∧
    (kk_body64 ⟨false, 1, -2⟩ ⟨kk_init
      [4611686018427387905, 4611686018427387904, -4611686018427388928] (constOracle 0),
        constOracle 0⟩).isSome = false ∧
    (karmarkar_karp_with_grasp64 2
      [4611686018427387905, 4611686018427387904, -4611686018427388928] [] ⟨false, 1, -2⟩
      (constOracle 0) (constOracle 0)).isSome = false := by
  refine ⟨by decide, ?_, ?_, by decide, by decide, by decide⟩
  · norm_num [Double.toRat]
  · norm_num [Double.toRat]

/-- C10, amended: the constructor never fails on a well-formed call within the range.  For a
non-empty list whose absolute values sum to at most `2^63 - 4096`, `alpha` in `[0,1]`, any
random stream and any order of the heap among equal values, in `int64_t` arithmetic: at every
combine step the locals are computed, the working list is not empty, the RCL is not empty (so
`rcl.size() - 1` does not wrap), the index drawn is in bounds for the RCL and for the working
list, and the iteration completes; and with enough fuel the loop ends, the final `top`
exists and the function returns. -/
theorem C10_constructor_never_fails (numbers solution : List Int) (alpha : Double)
    (rng ties : Oracle) (hne : numbers ≠ []) (hsum : abs_total numbers + 4096 ≤ 2 ^ 63)
    (ha0 : 0 ≤ alpha.toRat) (ha1 : alpha.toRat ≤ 1) :
    (∀ k st, kk_after64 alpha k ⟨kk_init numbers ties, rng⟩ = some st → 2 ≤ st.max_heap.size →
      ∃ loc, kk_locals64 alpha st.max_heap = some loc ∧
        loc.temp_elements ≠ [] ∧ loc.rcl ≠ [] ∧
        size_minus_one loc.rcl.length + 1 = loc.rcl.length ∧
        (rcl_draw loc.rcl.length st.rng).1 < loc.rcl.length ∧
        (rcl_draw loc.rcl.length st.rng).1 < loc.temp_elements.length ∧
        ∃ st2, kk_body64 alpha st = some st2) ∧
    (∀ fuel, numbers.length ≤ fuel + 1 →
      ∃ st e r, kk_loop64 alpha fuel ⟨kk_init numbers ties, rng⟩ = some st ∧
        st.max_heap.top = some e ∧
        karmarkar_karp_with_grasp64 fuel numbers solution alpha rng ties = some r) := by
  have hfit : Fits alpha (abs_total numbers) := Or.inr ⟨ha0, ha1, hsum⟩
  have h0 : abs_sum (⟨kk_init numbers ties, rng⟩ : KKState).max_heap.elems ≤
      abs_total numbers := le_of_eq (abs_sum_init numbers ties)
  obtain ⟨i1, i2⟩ := constructor_never_fails_ideal numbers solution alpha rng ties hne ha0 ha1
  refine ⟨?_, ?_⟩
  · intro k st hk hsz
    rw [kk_after64_eq_ideal alpha _ hfit _ h0 k] at hk
    have hS := kk_after_abs_sum alpha _ k _ st h0 hk
    rw [kk_locals64_eq_ideal alpha st.max_heap hsz (Fits_mono hfit hS),
      kk_body64_eq_ideal alpha st hsz (Fits_mono hfit hS)]
    exact i1 k st hk hsz
  · intro fuel hf
    rw [kk_loop64_eq_ideal alpha _ hfit fuel _ h0,
      karmarkar_karp_with_grasp64_eq_ideal fuel numbers solution alpha rng ties hfit]
    exact i2 fuel hf

theorem C10_constructor_never_fails_witness :
    [8, 7, 6, 5, 4] ≠ ([] : List Int) ∧ abs_total [8, 7, 6, 5, 4] + 4096 ≤ 2 ^ 63 ∧
    ∃ st e r, kk_loop64 Double.one 4 ⟨kk_init [8, 7, 6, 5, 4] (constOracle 0), constOracle 3⟩ =
        some st ∧ st.max_heap.top = some e ∧
      karmarkar_karp_with_grasp64 4 [8, 7, 6, 5, 4] [] Double.one (constOracle 3)
        (constOracle 0) = some r :=
  ⟨by decide, by decide, (C10_constructor_never_fails [8, 7, 6, 5, 4] [] Double.one
    (constOracle 3) (constOracle 0) (by decide) (by decide)
    (by norm_num [Double.toRat, Double.one])
    (by norm_num [Double.toRat, Double.one])).2 4 (by decide)⟩

set_option maxRecDepth 1000000 in
/-- C13, counterexample: on the three numbers `[2^62 + 1, 2^62, -2^62 - 1024]` with
`alpha = 0.25` the first iteration of the combine loop has an empty RCL (the spread of line
67 wraps) and reads `rcl[index]` out of bounds: there is no state after one iteration, and
the loop does not run `n - 1 = 2` times. -/
theorem C13_counterexample :
    ([4611686018427387905, 4611686018427387904, -4611686018427388928] : List Int).length =
      3 ∧
    0 ≤ (⟨false, 1, -2⟩ : Double).toRat ∧ (⟨false, 1, -2⟩ : Double).toRat ≤ 1 ∧
    (kk_after64 ⟨false, 1, -2⟩ 1 ⟨kk_init
      [4611686018427387905, 4611686018427387904, -4611686018427388928] (constOracle 0),
        constOracle 0⟩).isSome = false ∧
    (kk_after64 ⟨false, 1, -2⟩ 2 ⟨kk_init
      [4611686018427387905, 4611686018427387904, -4611686018427388928] (constOracle 0),
        constOracle 0⟩).isSome = false ∧
    (kk_loop64 ⟨false, 1, -2⟩ 2 ⟨kk_init
      [4611686018427387905, 4611686018427387904, -4611686018427388928] (constOracle 0),
        constOracle 0⟩).isSome = false := by
  refine ⟨by decide, ?_, ?_, by decide, by decide, by decide⟩
  · norm_num [Double.toRat]
  · norm_num [Double.toRat]

/-- C13, amended: the combine loop terminates within the range.  For a list of `n >= 1`
numbers whose absolute values sum to at most `2^63 - 4096`, `alpha` in `[0,1]`, any random
stream and any order of the heap among equal values, in `int64_t` arithmetic: each iteration
leaves exactly one element less; after `k <= n - 1` iterations `n - k` elements are held; the
loop runs exactly `n - 1` times (the state after `n - 1` iterations has one element and there
is no further iteration); the loop returns that state for every fuel of at least `n - 1` and
runs out of fuel below that. -/
theorem C13_combine_loop_terminates (numbers : List Int) (alpha : Double) (rng ties : Oracle)
    (hne : numbers ≠ []) (hsum : abs_total numbers + 4096 ≤ 2 ^ 63)
    (ha0 : 0 ≤ alpha.toRat) (ha1 : alpha.toRat ≤ 1) :
    (∀ k st st2, kk_after64 alpha k ⟨kk_init numbers ties, rng⟩ = some st →
      2 ≤ st.max_heap.size → kk_body64 alpha st = some st2 →
      st2.max_heap.size + 1 = st.max_heap.size) ∧
    (∀ k, k + 1 ≤ numbers.length →
      ∃ st, kk_after64 alpha k ⟨kk_init numbers ties, rng⟩ = some st ∧
        st.max_heap.size + k = numbers.length) ∧
    (∃ st, kk_after64 alpha (numbers.length - 1) ⟨kk_init numbers ties, rng⟩ = some st ∧
      st.max_heap.size = 1 ∧
      (∀ k, numbers.length ≤ k → kk_after64 alpha k ⟨kk_init numbers ties, rng⟩ = none) ∧
      (∀ fuel, numbers.length ≤ fuel + 1 →
        kk_loop64 alpha fuel ⟨kk_init numbers ties, rng⟩ = some st)) ∧
    (∀ fuel, fuel + 1 < numbers.length →
      kk_loop64 alpha fuel ⟨kk_init numbers ties, rng⟩ = none) := by
  have hfit : Fits alpha (abs_total numbers) := Or.inr ⟨ha0, ha1, hsum⟩
  have h0 : abs_sum (⟨kk_init numbers ties, rng⟩ : KKState).max_heap.elems ≤
      abs_total numbers := le_of_eq (abs_sum_init numbers ties)
  have hA := kk_after64_eq_ideal alpha _ hfit ⟨kk_init numbers ties, rng⟩ h0
  have hL := fun fuel => kk_loop64_eq_ideal alpha _ hfit fuel ⟨kk_init numbers ties, rng⟩ h0
  obtain ⟨i1, i2, ⟨st, j1, j2, j3, j4⟩, i4⟩ :=
    combine_loop_terminates_ideal numbers alpha rng ties hne ha0 ha1
  refine ⟨?_, ?_, ⟨st, ?_, j2, ?_, ?_⟩, ?_⟩
  · intro k s s2 hk hsz hb
    rw [hA k] at hk
    have hS := kk_after_abs_sum alpha _ k _ s h0 hk
    rw [kk_body64_eq_ideal alpha s hsz (Fits_mono hfit hS)] at hb
    exact i1 s s2 hsz hb
  · intro k hk
    rw [hA k]
    exact i2 k hk
  · rw [hA]
    exact j1
  · intro k hk
    rw [hA k]
    exact j3 k hk
  · intro fuel hf
    rw [hL fuel]
    exact j4 fuel hf
  · intro fuel hf
    rw [hL fuel]
    exact i4 fuel hf

theorem C13_combine_loop_terminates_witness :
    ([8, 7, 6, 5, 4] : List Int) ≠ [] ∧ abs_total [8, 7, 6, 5, 4] + 4096 ≤ 2 ^ 63 ∧
    ∃ st, kk_after64 Double.one (([8, 7, 6, 5, 4] : List Int).length - 1)
        ⟨kk_init [8, 7, 6, 5, 4] (constOracle 0), constOracle 1⟩ = some st ∧
      st.max_heap.size = 1 ∧
      (∀ k, ([8, 7, 6, 5, 4] : List Int).length ≤ k →
        kk_after64 Double.one k ⟨kk_init [8, 7, 6, 5, 4] (constOracle 0), constOracle 1⟩ =
          none) ∧
      (∀ fuel, ([8, 7, 6, 5, 4] : List Int).length ≤ fuel + 1 →
        kk_loop64 Double.one fuel ⟨kk_init [8, 7, 6, 5, 4] (constOracle 0), constOracle 1⟩ =
          some st) :=
  ⟨by decide, by decide, (C13_combine_loop_terminates [8, 7, 6, 5, 4] Double.one
    (constOracle 1) (constOracle 0) (by decide) (by decide)
    (by norm_num [Double.toRat, Double.one])
    (by norm_num [Double.toRat, Double.one])).2.2.1⟩

set_option maxRecDepth 1000000 in
/-- The conversion out of range: with `alpha = 1e19` (the double `5^19 * 2^19`) on
`[-1,-5,-9]` the working list of the first combine step is `[-5,-9]` and the product `4e19`
is above `INT64_MAX`; the conversion gives `INT64_MIN`, the threshold is `2^63 - 5` and the
RCL is empty, where the computation in `ℤ` keeps the whole working list. -/
theorem cast_out_of_range_example :
    (19073486328125 : Nat) < 2 ^ 53 ∧
    (kk_locals64 ⟨false, 19073486328125, 19⟩ (kk_init [-1, -5, -9] (constOracle 0))).map
      (fun loc => (loc.temp_elements.map Element.value, loc.threshold,
        loc.rcl.map Element.value)) = some ([-5, -9], 9223372036854775803, []) ∧
    (kk_locals ⟨false, 19073486328125, 19⟩ (kk_init [-1, -5, -9] (constOracle 0))).map
      (fun loc => (loc.temp_elements.map Element.value, loc.threshold,
        loc.rcl.map Element.value)) = some ([-5, -9], -40000000000000000005, [-5, -9]) := by
  refine ⟨by decide, by decide, by decide⟩

/-- C11, amended: for a binary64 `alpha` outside `[0,1]`, at every combine step, in `int64_t`
arithmetic, at which line 67 stays within the `int64_t` range (the spread, the converted
product and the threshold): if `alpha > 1` the RCL is the whole working list; if `alpha < 0`
the truncated product is negative or zero, and the RCL is empty in the first case (the
threshold is above the maximum) and consists of exactly the working-list elements of maximal
value in the second (the threshold is the maximum). -/
theorem C11_alpha_outside_rcl (numbers : List Int) (rng ties : Oracle) (alpha : Double)
    (hbin : alpha.mant < 2 ^ 53) (k : Nat) (st : KKState)
    (_hk : kk_after64 alpha k ⟨kk_init numbers ties, rng⟩ = some st)
    (hsz : 2 ≤ st.max_heap.size) :
    ∃ loc, kk_locals64 alpha st.max_heap = some loc ∧
      (in_int64 (loc.max_value - loc.min_value) →
        in_int64 (Double.mul alpha (Double.ofInt (loc.max_value - loc.min_value))).toInt →
        in_int64 (loc.max_value -
          (Double.mul alpha (Double.ofInt (loc.max_value - loc.min_value))).toInt) →
        loc.threshold = loc.max_value -
          (Double.mul alpha (Double.ofInt (loc.max_value - loc.min_value))).toInt ∧
        (1 < alpha.toRat → loc.rcl = loc.temp_elements) ∧
        (alpha.toRat < 0 →
          (loc.max_value < loc.threshold ∧ loc.rcl = []) ∨
          (loc.threshold = loc.max_value ∧
            loc.rcl = loc.temp_elements.filter (fun x => decide (x.value = loc.max_value)) ∧
            loc.rcl ≠ []))) := by
  obtain ⟨loc, h1, c1, c2⟩ := alpha_outside_rcl_ideal alpha hbin st hsz
  obtain ⟨loc2, e1, _, _, _, _, _, hthr, hrcl⟩ := kk_locals_facts alpha st.max_heap hsz
  rw [h1] at e1
  cases Option.some.inj e1
  rw [kk_locals64_eq, h1]
  refine ⟨_, rfl, ?_⟩
  dsimp only
  intro r1 r2 r3
  have hthr64 : threshold64 alpha loc.max_value loc.min_value = loc.threshold := by
    rw [hthr]
    unfold threshold64
    rw [wrap64_of_in _ r1, Double.toInt64_of_in _ r2, wrap64_of_in _ r3]
  rw [hthr64, ← hrcl]
  exact ⟨hthr, c1, c2⟩

theorem C11_alpha_outside_rcl_witness :
    ∃ loc, kk_locals64 ⟨true, 7205759403792794, -56⟩ (kk_init [10, 5, 1] (constOracle 0)) =
        some loc ∧
      (in_int64 (loc.max_value - loc.min_value) →
        in_int64 (Double.mul ⟨true, 7205759403792794, -56⟩
          (Double.ofInt (loc.max_value - loc.min_value))).toInt →
        in_int64 (loc.max_value - (Double.mul ⟨true, 7205759403792794, -56⟩
          (Double.ofInt (loc.max_value - loc.min_value))).toInt) →
        loc.threshold = loc.max_value - (Double.mul ⟨true, 7205759403792794, -56⟩
          (Double.ofInt (loc.max_value - loc.min_value))).toInt ∧
        (1 < (⟨true, 7205759403792794, -56⟩ : Double).toRat → loc.rcl = loc.temp_elements) ∧
        ((⟨true, 7205759403792794, -56⟩ : Double).toRat < 0 →
          (loc.max_value < loc.threshold ∧ loc.rcl = []) ∨
          (loc.threshold = loc.max_value ∧
            loc.rcl = loc.temp_elements.filter (fun x => decide (x.value = loc.max_value)) ∧
            loc.rcl ≠ []))) :=
  C11_alpha_outside_rcl [10, 5, 1] (constOracle 0) (constOracle 0)
    ⟨true, 7205759403792794, -56⟩ (by decide) 0
    ⟨kk_init [10, 5, 1] (constOracle 0), constOracle 0⟩ rfl (by decide)

end Magikarp
